import Mathlib

/-!
Verification development for the temporal constraint solver of the
Elden Ring timeline project.

The solver core (constraint compiler, simple temporal network, Bellman-Ford
propagation, confidence-weighted relaxation, coordinate placement and the
orchestrating `solve` entry point) is shallowly embedded below.  JavaScript
numbers are modelled by exact rationals (`ℚ`); the code's arithmetic on the
relevant values is exact, `Infinity` is modelled by `none` in `Option ℚ`.
JavaScript `Map`/`Set` (insertion-ordered) are modelled by association lists
and duplicate-free lists kept in insertion order.  Wall-clock timing
(`solveTimeMs`) is outside the embedding.
-/

set_option maxRecDepth 100000
set_option maxHeartbeats 4000000

/-- The 13 Allen interval relations (src/types: `AllenRelation`). -/
inductive AllenRelation where
  | before
  | after
  | meets
  | metBy
  | overlaps
  | overlappedBy
  | starts
  | startedBy
  | finishes
  | finishedBy
  | during
  | contains
  | equals
deriving DecidableEq, Repr

/-- String form of a relation, as it appears in violation messages. -/
def AllenRelation.str : AllenRelation → String
  | .before => "before"
  | .after => "after"
  | .meets => "meets"
  | .metBy => "met-by"
  | .overlaps => "overlaps"
  | .overlappedBy => "overlapped-by"
  | .starts => "starts"
  | .startedBy => "started-by"
  | .finishes => "finishes"
  | .finishedBy => "finished-by"
  | .during => "during"
  | .contains => "contains"
  | .equals => "equals"

/-- Confidence tiers (src/types: `ConfidenceLevel`). -/
inductive ConfidenceLevel where
  | explicitLevel
  | inferred
  | speculation
deriving DecidableEq, Repr

/-- src/types: `CONFIDENCE_WEIGHTS` (explicit 1000, inferred 100, speculation 10). -/
def CONFIDENCE_WEIGHTS : ConfidenceLevel → Nat
  | .explicitLevel => 1000
  | .inferred => 100
  | .speculation => 10

/-- src/types: `DurationType`. -/
inductive DurationType where
  | instant
  | interval
deriving DecidableEq, Repr

/-- A timeline node, restricted to the fields the solver consults
(src/types: `TimelineNode`; name/description/color/timestamps are never read
by the solver and `enabled` filtering happens in the caller). -/
structure TimelineNode where
  id : String
  durationType : DurationType
deriving DecidableEq, Repr

/-- A temporal relationship, restricted to the fields the solver consults
(src/types: `TemporalRelationship`). -/
structure TemporalRelationship where
  id : String
  sourceId : String
  targetId : String
  relation : AllenRelation
  confidence : ConfidenceLevel
deriving DecidableEq, Repr

/-- src/types: `SolvedPosition`. -/
structure SolvedPosition where
  nodeId : String
  start : ℚ
  «end» : ℚ
deriving DecidableEq, Repr

/-- src/types: violation severity. -/
inductive Severity where
  | hard
  | soft
deriving DecidableEq, Repr

/-- src/types: `ConstraintViolation`. -/
structure ConstraintViolation where
  relationshipId : String
  severity : Severity
  message : String
deriving DecidableEq, Repr

/-- src/types: `ConflictSet`. -/
structure ConflictSet where
  relationshipIds : List String
  description : String
deriving DecidableEq, Repr

/-- src/types: `SolverStatus`. -/
inductive SolverStatus where
  | satisfiable
  | relaxed
  | unsatisfiable
deriving DecidableEq, Repr

/-- src/types: `SolverResult` (without `solveTimeMs`, which is wall-clock
time and outside the pure embedding). -/
structure SolverResult where
  status : SolverStatus
  positions : List SolvedPosition
  violations : List ConstraintViolation
  conflicts : List ConflictSet
deriving DecidableEq, Repr

/-! ## Constraint compiler (solver/constraints.ts) -/

/-- constraints.ts: `DifferenceConstraint` — asserts `to - from ≤ maxDiff`. -/
structure DifferenceConstraint where
  «from» : String
  «to» : String
  maxDiff : ℚ
deriving DecidableEq, Repr

/-- constraints.ts: `EPSILON = 0.001`. -/
def EPSILON : ℚ := 1 / 1000

/-- constraints.ts: `MIN_DURATION = 1`. -/
def MIN_DURATION : ℚ := 1

/-- constraints.ts: `getNodeVariables`. -/
def getNodeVariables (nodeId : String) : String × String :=
  (nodeId ++ "_start", nodeId ++ "_end")

/-- constraints.ts: `allenToConstraints`. -/
def allenToConstraints (sourceId targetId : String) (relation : AllenRelation) :
    List DifferenceConstraint :=
  let A := getNodeVariables sourceId
  let B := getNodeVariables targetId
  match relation with
  | .before =>
      [⟨B.1, A.2, -EPSILON⟩]
  | .after =>
      [⟨A.1, B.2, -EPSILON⟩]
  | .meets =>
      [⟨B.1, A.2, 0⟩, ⟨A.2, B.1, 0⟩]
  | .metBy =>
      [⟨A.1, B.2, 0⟩, ⟨B.2, A.1, 0⟩]
  | .overlaps =>
      [⟨B.1, A.1, -EPSILON⟩, ⟨A.2, B.1, -EPSILON⟩, ⟨B.2, A.2, -EPSILON⟩]
  | .overlappedBy =>
      [⟨A.1, B.1, -EPSILON⟩, ⟨B.2, A.1, -EPSILON⟩, ⟨A.2, B.2, -EPSILON⟩]
  | .starts =>
      [⟨B.1, A.1, 0⟩, ⟨A.1, B.1, 0⟩, ⟨B.2, A.2, -EPSILON⟩]
  | .startedBy =>
      [⟨B.1, A.1, 0⟩, ⟨A.1, B.1, 0⟩, ⟨A.2, B.2, -EPSILON⟩]
  | .finishes =>
      [⟨A.1, B.1, -EPSILON⟩, ⟨B.2, A.2, 0⟩, ⟨A.2, B.2, 0⟩]
  | .finishedBy =>
      [⟨B.1, A.1, -EPSILON⟩, ⟨B.2, A.2, 0⟩, ⟨A.2, B.2, 0⟩]
  | .during =>
      [⟨A.1, B.1, -EPSILON⟩, ⟨B.2, A.2, -EPSILON⟩]
  | .contains =>
      [⟨B.1, A.1, -EPSILON⟩, ⟨A.2, B.2, -EPSILON⟩]
  | .equals =>
      [⟨B.1, A.1, 0⟩, ⟨A.1, B.1, 0⟩, ⟨B.2, A.2, 0⟩, ⟨A.2, B.2, 0⟩]

/-- constraints.ts: `getNodeInternalConstraints`. -/
def getNodeInternalConstraints (nodeId : String) (isInterval : Bool) :
    List DifferenceConstraint :=
  let v := getNodeVariables nodeId
  if isInterval then
    [⟨v.2, v.1, -MIN_DURATION⟩]
  else
    [⟨v.2, v.1, 0⟩, ⟨v.1, v.2, 0⟩]

/-! ## Simple temporal network (solver/stn.ts) -/

/-- stn.ts: `STNEdge` — edge `(from, to, weight)` means `to - from ≤ weight`. -/
structure STNEdge where
  «from» : String
  «to» : String
  weight : ℚ
  relationshipId : Option String
deriving DecidableEq, Repr

/-- stn.ts: `SimpleTemporalNetwork`.  The vertex set and the adjacency map
are modelled as one insertion-ordered association list: the keys are the
vertices (`addVertex` extends both in lockstep in the source). -/
structure SimpleTemporalNetwork where
  adj : List (String × List STNEdge)
deriving DecidableEq, Repr

/-- A fresh empty network (`new SimpleTemporalNetwork()`). -/
def SimpleTemporalNetwork.empty : SimpleTemporalNetwork := ⟨[]⟩

/-- stn.ts: `getVertices` (insertion order). -/
def SimpleTemporalNetwork.getVertices (n : SimpleTemporalNetwork) : List String :=
  n.adj.map (·.1)

/-- stn.ts: `hasVertex`. -/
def SimpleTemporalNetwork.hasVertex (n : SimpleTemporalNetwork) (v : String) : Bool :=
  n.adj.any (·.1 == v)

/-- stn.ts: `addVertex`. -/
def SimpleTemporalNetwork.addVertex (n : SimpleTemporalNetwork) (v : String) :
    SimpleTemporalNetwork :=
  if n.hasVertex v then n else ⟨n.adj ++ [(v, [])]⟩

/-- Overwrite, in place, the first edge whose target is the given vertex (the source
mutates the edge object found by `edges.find`). -/
def overwriteFirstEdge («to» : String) (w : ℚ) (rid : Option String) :
    List STNEdge → List STNEdge
  | [] => []
  | e :: es =>
      if e.«to» == «to» then { e with weight := w, relationshipId := rid } :: es
      else e :: overwriteFirstEdge «to» w rid es

/-- The edge-list update performed by `addConstraint` on the `from` bucket:
tighten an existing edge to the same target, or append a new edge. -/
def addEdgeToBucket (c : DifferenceConstraint) (rid : Option String)
    (edges : List STNEdge) : List STNEdge :=
  match edges.find? (·.«to» == c.«to») with
  | some e =>
      if c.maxDiff < e.weight then overwriteFirstEdge c.«to» c.maxDiff rid edges
      else edges
  | none => edges ++ [⟨c.«from», c.«to», c.maxDiff, rid⟩]

/-- stn.ts: `addConstraint` — ensures both endpoints are vertices, then keeps
the tighter of duplicate `(from, to)` edges. -/
def SimpleTemporalNetwork.addConstraint (n : SimpleTemporalNetwork)
    (c : DifferenceConstraint) (rid : Option String) : SimpleTemporalNetwork :=
  let n1 := (n.addVertex c.«from»).addVertex c.«to»
  ⟨n1.adj.map fun kv =>
    if kv.1 == c.«from» then (kv.1, addEdgeToBucket c rid kv.2) else kv⟩

/-- stn.ts: `addConstraints`. -/
def SimpleTemporalNetwork.addConstraints (n : SimpleTemporalNetwork)
    (cs : List DifferenceConstraint) (rid : Option String) : SimpleTemporalNetwork :=
  cs.foldl (fun m c => m.addConstraint c rid) n

/-- stn.ts: `getEdges` (adjacency buckets in vertex insertion order). -/
def SimpleTemporalNetwork.getEdges (n : SimpleTemporalNetwork) : List STNEdge :=
  n.adj.foldr (fun kv acc => kv.2 ++ acc) []

/-- stn.ts: `getOutgoingEdges`. -/
def SimpleTemporalNetwork.getOutgoingEdges (n : SimpleTemporalNetwork) (v : String) :
    List STNEdge :=
  match n.adj.find? (·.1 == v) with
  | some kv => kv.2
  | none => []

/-- stn.ts: `VIRTUAL_SOURCE`. -/
def VIRTUAL_SOURCE : String := "__source__"

/-- stn.ts: `addVirtualSource` — add the source vertex and a zero-weight edge
from it to every other vertex. -/
def addVirtualSource (network : SimpleTemporalNetwork) : SimpleTemporalNetwork :=
  let n1 := network.addVertex VIRTUAL_SOURCE
  n1.getVertices.foldl
    (fun m v =>
      if v ≠ VIRTUAL_SOURCE then
        m.addConstraint ⟨VIRTUAL_SOURCE, v, 0⟩ none
      else m)
    n1

/-! ## Bellman-Ford propagation (solver/propagation.ts)

Distance maps are association lists `List (String × Option ℚ)` with `none`
for `Infinity`.  A key missing from the map behaves like `Infinity`; in the
source every lookup hits a key initialized for every vertex, so the two are
indistinguishable there. -/

/-- Look up an optional value in an insertion-ordered association list. -/
def mapGet {α : Type} (m : List (String × Option α)) (k : String) : Option α :=
  match m.find? (·.1 == k) with
  | some kv => kv.2
  | none => none

/-- `Map.set` on an association list: overwrite the first entry with the key
(keeping its position, as JavaScript `Map.set` does), or append a new entry. -/
def mapSet {α : Type} (m : List (String × Option α)) (k : String) (v : Option α) :
    List (String × Option α) :=
  match m with
  | [] => [(k, v)]
  | kv :: rest =>
      if kv.1 == k then (k, v) :: rest else kv :: mapSet rest k v

/-- The mutable state of a Bellman-Ford run: distances, predecessors and the
predecessor edge of each vertex. -/
structure BFState where
  distances : List (String × Option ℚ)
  predecessors : List (String × Option String)
  predecessorEdge : List (String × Option STNEdge)
deriving Repr

/-- One relaxation attempt over a single edge; returns the new state and
whether the distance of `e.to` changed. -/
def bfStep (s : BFState) (e : STNEdge) : BFState × Bool :=
  match mapGet s.distances e.«from» with
  | none => (s, false)
  | some distFrom =>
      let newDist := distFrom + e.weight
      let doRelax : Bool :=
        match mapGet s.distances e.«to» with
        | none => true
        | some distTo => newDist < distTo
      if doRelax then
        ({ distances := mapSet s.distances e.«to» (some newDist),
           predecessors := mapSet s.predecessors e.«to» (some e.«from»),
           predecessorEdge := mapSet s.predecessorEdge e.«to» (some e) }, true)
      else (s, false)

/-- The edge loop of one pass, carrying the `anyChange` flag (tail-recursive
so that each relaxation is forced before the next edge is examined). -/
def bfPassAux (anyChange : Bool) (s : BFState) : List STNEdge → BFState × Bool
  | [] => (s, anyChange)
  | e :: es =>
      match bfStep s e with
      | (s2, changed) => bfPassAux (if changed then true else anyChange) s2 es

/-- One full pass over the edge list, reporting whether any relaxation occurred. -/
def bfPass (edges : List STNEdge) (s : BFState) : BFState × Bool :=
  bfPassAux false s edges

/-- The main loop: up to `fuel = V - 1` passes with early termination when a
pass changes nothing. -/
def bfLoop (edges : List STNEdge) : Nat → BFState → BFState
  | 0, s => s
  | n + 1, s =>
      match bfPass edges s with
      | (s2, true) => bfLoop edges n s2
      | (s2, false) => s2

/-- Whether an edge can still be relaxed in the final state (the negative
cycle check). -/
def bfRelaxable (s : BFState) (e : STNEdge) : Bool :=
  match mapGet s.distances e.«from» with
  | none => false
  | some distFrom =>
      match mapGet s.distances e.«to» with
      | none => true
      | some distTo => distFrom + e.weight < distTo

/-- propagation.ts: the first phase of `extractNegativeCycle` — walk back `V`
predecessor steps (stopping early at a vertex without predecessor). -/
def walkBack (pred : List (String × Option String)) : Nat → String → String
  | 0, current => current
  | n + 1, current =>
      match mapGet pred current with
      | none => current
      | some p => walkBack pred n p

/-- propagation.ts: the do-while tracing loop of `extractNegativeCycle`.
Accumulates the cycle's edges and the de-duplicated non-empty relationship
tags.  The fuel only guards the recursion: every iteration past the first
visits a new vertex, so `V + 2` fuel is never exhausted. -/
def traceCycle (pred : List (String × Option String))
    (predEdge : List (String × Option STNEdge)) (cycleStart : String) :
    Nat → String → List String → List STNEdge → List String →
    List STNEdge × List String
  | 0, _, _, cycleEdges, relationshipIds => (cycleEdges, relationshipIds)
  | fuel + 1, current, visited, cycleEdges, relationshipIds =>
      let visited2 := if current ∈ visited then visited else visited ++ [current]
      let step :=
        match mapGet predEdge current with
        | some e =>
            (cycleEdges ++ [e],
             match e.relationshipId with
             | some r =>
                 if r ≠ "" ∧ r ∉ relationshipIds then relationshipIds ++ [r]
                 else relationshipIds
             | none => relationshipIds)
        | none => (cycleEdges, relationshipIds)
      match mapGet pred current with
      | none => step
      | some p =>
          if p ≠ cycleStart ∧ p ∉ visited2 then
            traceCycle pred predEdge cycleStart fuel p visited2 step.1 step.2
          else step

/-- propagation.ts: `extractNegativeCycle`. -/
def extractNegativeCycle (startVertex : String)
    (pred : List (String × Option String))
    (predEdge : List (String × Option STNEdge)) (V : Nat) :
    List STNEdge × List String :=
  let cycleStart := walkBack pred V startVertex
  traceCycle pred predEdge cycleStart (V + 2) cycleStart [] [] []

/-- propagation.ts: `BellmanFordResult`. -/
structure BellmanFordResult where
  feasible : Bool
  distances : List (String × Option ℚ)
  predecessors : List (String × Option String)
  negativeCycleEdges : Option (List STNEdge)
  conflictingRelationshipIds : Option (List String)
deriving Repr

/-- propagation.ts: `bellmanFord`. -/
def bellmanFord (network : SimpleTemporalNetwork) (source : String) :
    BellmanFordResult :=
  let vertices := network.getVertices
  let edges := network.getEdges
  let V := vertices.length
  let init : BFState :=
    { distances := vertices.map fun v => (v, if v == source then some 0 else none),
      predecessors := vertices.map fun v => (v, none),
      predecessorEdge := vertices.map fun v => (v, none) }
  let final := bfLoop edges (V - 1) init
  match edges.find? (bfRelaxable final) with
  | some e =>
      let c := extractNegativeCycle e.«to» final.predecessors final.predecessorEdge V
      { feasible := false, distances := final.distances,
        predecessors := final.predecessors,
        negativeCycleEdges := some c.1, conflictingRelationshipIds := some c.2 }
  | none =>
      { feasible := true, distances := final.distances,
        predecessors := final.predecessors,
        negativeCycleEdges := none, conflictingRelationshipIds := none }

/-- propagation.ts: `checkNetworkConsistency`. -/
def checkNetworkConsistency (network : SimpleTemporalNetwork) : BellmanFordResult :=
  bellmanFord network VIRTUAL_SOURCE

/-! ## Placer (solver/positioning.ts) -/

/-- positioning.ts: `DEFAULT_SCALE = 1000`. -/
def DEFAULT_SCALE : ℚ := 1000

/-- positioning.ts: `MIN_INTERVAL_WIDTH = 20`. -/
def MIN_INTERVAL_WIDTH : ℚ := 20

/-- positioning.ts: `EDGE_PADDING = 50`. -/
def EDGE_PADDING : ℚ := 50

/-- positioning.ts: `assignDefaultPositions` — evenly spaced fallback. -/
def assignDefaultPositions (nodes : List TimelineNode) (scale : ℚ := DEFAULT_SCALE) :
    List SolvedPosition :=
  if nodes.isEmpty then []
  else
    let spacing := (scale - 2 * EDGE_PADDING) / (nodes.length + 1)
    nodes.enum.map fun iv =>
      let start := EDGE_PADDING + spacing * (iv.1 + 1)
      let e :=
        if iv.2.durationType == DurationType.interval then start + spacing * (8 / 10)
        else start
      { nodeId := iv.2.id, start := start,
        «end» := max e (start + (if iv.2.durationType == DurationType.interval then MIN_INTERVAL_WIDTH else 0)) }

/-- `Map.set` with insertion for the `nodeValues` map of `assignPositions`
(overwrite the first entry with the key, else append). -/
def nvSet (m : List (String × (Option ℚ × Option ℚ))) (k : String)
    (v : Option ℚ × Option ℚ) : List (String × (Option ℚ × Option ℚ)) :=
  match m with
  | [] => [(k, v)]
  | kv :: rest => if kv.1 == k then (k, v) :: rest else kv :: nvSet rest k v

/-- Lookup in the `nodeValues` map. -/
def nvGet (m : List (String × (Option ℚ × Option ℚ))) (k : String) :
    Option (Option ℚ × Option ℚ) :=
  (m.find? (·.1 == k)).map (·.2)

/-- One step of the first loop of `assignPositions`: append the node's
finite start/end distances to the value list and record them in the map. -/
def cvStep (distances : List (String × Option ℚ))
    (acc : List ℚ × List (String × (Option ℚ × Option ℚ)))
    (node : TimelineNode) : List ℚ × List (String × (Option ℚ × Option ℚ)) :=
  let vars := getNodeVariables node.id
  let startVal := mapGet distances vars.1
  let endVal := mapGet distances vars.2
  let values2 :=
    match startVal with
    | some q => acc.1 ++ [q]
    | none => acc.1
  let values3 :=
    match endVal with
    | some q => values2 ++ [q]
    | none => values2
  (values3, nvSet acc.2 node.id (startVal, endVal))

/-- First pass of `assignPositions`: collect the finite start/end distances
of every node (in node order: start pushed before end) and the per-node map. -/
def collectValues (nodes : List TimelineNode)
    (distances : List (String × Option ℚ)) :
    List ℚ × List (String × (Option ℚ × Option ℚ)) :=
  nodes.foldl (cvStep distances) ([], [])

/-- The `normalize` closure of `assignPositions`: `minVal`/`maxVal` are the
minimum and maximum of the collected finite values `v0 :: vrest`. -/
def normalizeValue (scale v0 : ℚ) (vrest : List ℚ) (v : ℚ) : ℚ :=
  let minVal := vrest.foldl min v0
  let maxVal := vrest.foldl max v0
  let range := maxVal - minVal
  if range = 0 then scale / 2 + EDGE_PADDING
  else EDGE_PADDING + ((v - minVal) / range) * (scale - 2 * EDGE_PADDING)

/-- The body of the second loop of `assignPositions`: the position emitted
for one node (`none` when the node is skipped for lack of a start value). -/
def emitPosition (normalize : ℚ → ℚ)
    (nv : List (String × (Option ℚ × Option ℚ))) (node : TimelineNode) :
    Option SolvedPosition :=
  match nvGet nv node.id with
  | none => none
  | some vals =>
      match vals.1 with
      | none => none
      | some sv =>
          let startPos := normalize sv
          let endPos :=
            if node.durationType == DurationType.instant ∨ vals.2 = none then
              startPos
            else
              match vals.2 with
              | some ev =>
                  let ep := normalize ev
                  if ep - startPos < MIN_INTERVAL_WIDTH then
                    startPos + MIN_INTERVAL_WIDTH
                  else ep
              | none => startPos
          some { nodeId := node.id, start := startPos, «end» := endPos }

/-- positioning.ts: `assignPositions` — normalize Bellman-Ford distances to
display coordinates (`isFinite` holds of every rational, so only missing or
`Infinity` distances are `none` here). -/
def assignPositions (nodes : List TimelineNode) (bellmanFordResult : BellmanFordResult)
    (scale : ℚ := DEFAULT_SCALE) : List SolvedPosition :=
  if nodes.isEmpty then []
  else
    let c := collectValues nodes bellmanFordResult.distances
    match c.1 with
    | [] => assignDefaultPositions nodes scale
    | v0 :: vrest =>
        nodes.foldl
          (fun positions node =>
            match emitPosition (normalizeValue scale v0 vrest) c.2 node with
            | some p => positions ++ [p]
            | none => positions)
          []

/-! ## Relaxer (solver/relaxation.ts) -/

/-- relaxation.ts: `WeightedRelationship`. -/
structure WeightedRelationship where
  relationship : TemporalRelationship
  weight : Nat
deriving DecidableEq, Repr

/-- Stable ascending insertion by weight (the model of the stable
`Array.prototype.sort` with comparator `a.weight - b.weight`, built by a
right fold): the inserted element precedes every element so far in input
order, so it is placed before the first element of greater or equal weight,
keeping ties in input order. -/
def insertWR (x : WeightedRelationship) : List WeightedRelationship →
    List WeightedRelationship
  | [] => [x]
  | y :: ys => if x.weight ≤ y.weight then x :: y :: ys else y :: insertWR x ys

/-- Stable sort of weighted relationships by ascending weight. -/
def sortWR (l : List WeightedRelationship) : List WeightedRelationship :=
  l.foldr insertWR []

/-- relaxation.ts: `RelaxationResult`. -/
structure RelaxationResult where
  network : SimpleTemporalNetwork
  bellmanFordResult : BellmanFordResult
  violatedRelationshipIds : List String
  satisfiedRelationshipIds : List String
  isFullySatisfied : Bool
  iterations : Nat
deriving Repr

/-- relaxation.ts: `buildNetwork` — node variables with internal constraints
tagged `__internal_<id>`, then the relationship constraints. -/
def buildNetwork (nodes : List TimelineNode)
    (relationships : List TemporalRelationship) : SimpleTemporalNetwork :=
  let withNodes := nodes.foldl
    (fun network node =>
      let vars := getNodeVariables node.id
      let n1 := (network.addVertex vars.1).addVertex vars.2
      n1.addConstraints
        (getNodeInternalConstraints node.id
          (node.durationType == DurationType.interval))
        (some ("__internal_" ++ node.id)))
    SimpleTemporalNetwork.empty
  relationships.foldl
    (fun network rel =>
      network.addConstraints
        (allenToConstraints rel.sourceId rel.targetId rel.relation)
        (some rel.id))
    withNodes

/-- `new Set(relationships.map(r => r.id))`: de-duplicate keeping first
occurrences in order. -/
def dedupIds (l : List String) : List String :=
  l.foldl (fun acc x => if x ∈ acc then acc else acc ++ [x]) []

/-- The selection step of the relaxation loop: the first (lowest-weight, ties
by input order) relationship that is both in the conflict set and still
active. -/
def pickToRemove (sorted : List WeightedRelationship)
    (conflictIds active : List String) : Option String :=
  (sorted.find? fun wr =>
    conflictIds.contains wr.relationship.id && active.contains wr.relationship.id).map
    (·.relationship.id)

/-- Exit of the relaxation loop without a feasible in-loop result (loop cap
reached or `break`): one final consistency check on the current network. -/
def relaxFinish (network : SimpleTemporalNetwork) (active violated : List String)
    (iters : Nat) : RelaxationResult :=
  let finalResult := checkNetworkConsistency network
  { network := network, bellmanFordResult := finalResult,
    violatedRelationshipIds := violated, satisfiedRelationshipIds := active,
    isFullySatisfied := finalResult.feasible && violated.isEmpty,
    iterations := iters }

/-- The while-loop of `relaxConstraints`, with the remaining iteration budget
as fuel. -/
def relaxGo (nodes : List TimelineNode) (rels : List TemporalRelationship)
    (sorted : List WeightedRelationship) :
    Nat → List String → List String → SimpleTemporalNetwork → Nat →
    RelaxationResult
  | 0, active, violated, network, iters => relaxFinish network active violated iters
  | fuel + 1, active, violated, network, iters =>
      let result := checkNetworkConsistency network
      let iters2 := iters + 1
      if result.feasible then
        { network := network, bellmanFordResult := result,
          violatedRelationshipIds := violated, satisfiedRelationshipIds := active,
          isFullySatisfied := violated.isEmpty, iterations := iters2 }
      else
        match result.conflictingRelationshipIds with
        | none => relaxFinish network active violated iters2
        | some conflictIds =>
            if conflictIds.isEmpty then relaxFinish network active violated iters2
            else
              match pickToRemove sorted conflictIds active with
              | none => relaxFinish network active violated iters2
              | some toRemove =>
                  let active2 := active.erase toRemove
                  let violated2 := violated ++ [toRemove]
                  let activeRels := rels.filter fun r => active2.contains r.id
                  let network2 := addVirtualSource (buildNetwork nodes activeRels)
                  relaxGo nodes rels sorted fuel active2 violated2 network2 iters2

/-- relaxation.ts: `relaxConstraints`. -/
def relaxConstraints (nodes : List TimelineNode)
    (relationships : List TemporalRelationship) (maxIterations : Nat := 100) :
    RelaxationResult :=
  let weighted := relationships.map fun r =>
    WeightedRelationship.mk r (CONFIDENCE_WEIGHTS r.confidence)
  let sorted := sortWR weighted
  let active := dedupIds (relationships.map (·.id))
  let network := addVirtualSource (buildNetwork nodes relationships)
  relaxGo nodes relationships sorted maxIterations active [] network 0

/-! ## Orchestrator (solver/solver.ts) -/

/-- solver.ts: `SolverInput`. -/
structure SolverInput where
  nodes : List TimelineNode
  relationships : List TemporalRelationship
deriving Repr

/-- The violation message built for a relaxed relationship that is found in
the input list. -/
def relaxedMessage (relation : AllenRelation) : String :=
  "Constraint \"" ++ relation.str ++ "\" between nodes was relaxed due to conflicts"

/-- solver.ts: `buildSolverResult`. -/
def buildSolverResult (nodes : List TimelineNode)
    (relationships : List TemporalRelationship)
    (relaxationResult : RelaxationResult) : SolverResult :=
  let br := relaxationResult.bellmanFordResult
  let violatedIds := relaxationResult.violatedRelationshipIds
  let status : SolverStatus :=
    if !br.feasible then .unsatisfiable
    else if violatedIds.length > 0 then .relaxed
    else .satisfiable
  let positions :=
    if br.feasible then assignPositions nodes br
    else assignDefaultPositions nodes
  let violations : List ConstraintViolation := violatedIds.map fun id =>
    match relationships.find? (·.id == id) with
    | some rel =>
        { relationshipId := id,
          severity := if rel.confidence == ConfidenceLevel.speculation then .soft else .hard,
          message := relaxedMessage rel.relation }
    | none =>
        { relationshipId := id, severity := .hard, message := "Constraint was relaxed" }
  let conflicts : List ConflictSet :=
    if !br.feasible then
      match br.conflictingRelationshipIds with
      | some ids => [{ relationshipIds := ids,
                       description := "These constraints form a contradictory cycle" }]
      | none => []
    else []
  { status := status, positions := positions, violations := violations,
    conflicts := conflicts }

/-- Specification-side property of a single stored edge relative to the
constraints added so far: its weight is a lower bound on every added bound
for its `(from, to)` pair, and some added constraint for that pair attains
the weight and supplies the stored provenance tag. -/
def edgeMinSpec (cs : List (DifferenceConstraint × Option String)) (e : STNEdge) : Prop :=
  (∀ p ∈ cs, p.1.«from» = e.«from» → p.1.«to» = e.«to» → e.weight ≤ p.1.maxDiff) ∧
  ∃ p ∈ cs, p.1.«from» = e.«from» ∧ p.1.«to» = e.«to» ∧
    p.1.maxDiff = e.weight ∧ p.2 = e.relationshipId

/-- Invariant of one adjacency bucket: every edge leaves the bucket's key,
targets are duplicate-free, and every edge satisfies `edgeMinSpec`. -/
def bucketInv (cs : List (DifferenceConstraint × Option String)) (k : String)
    (b : List STNEdge) : Prop :=
  (∀ e ∈ b, e.«from» = k) ∧ (b.map (fun e => e.«to»)).Nodup ∧ ∀ e ∈ b, edgeMinSpec cs e

/-- Invariant of a network built by `addConstraint` calls: duplicate-free
vertex keys, every bucket well-formed, and every added constraint is
represented by an edge for its `(from, to)` pair. -/
def netInv (cs : List (DifferenceConstraint × Option String))
    (n : SimpleTemporalNetwork) : Prop :=
  (n.adj.map (·.1)).Nodup ∧ (∀ kb ∈ n.adj, bucketInv cs kb.1 kb.2) ∧
  ∀ p ∈ cs, ∃ kb ∈ n.adj, kb.1 = p.1.«from» ∧ ∃ e ∈ kb.2, e.«to» = p.1.«to»

/-- Specification-side description of the relaxation pick: scanning the
unsorted input from the left, keep the first element satisfying the
predicate that has minimal weight (a later element wins only with a
strictly smaller weight). -/
def firstMinWR (p : WeightedRelationship → Bool) :
    List WeightedRelationship → Option WeightedRelationship
  | [] => none
  | a :: l =>
      match firstMinWR p l with
      | none => if p a then some a else none
      | some b =>
          if p a then (if a.weight ≤ b.weight then some a else some b) else some b

/-- Iterating full Bellman-Ford passes without the early-termination test
(used to reason about the loop's behaviour when no pass stabilizes). -/
def passIter (edges : List STNEdge) : Nat → BFState → BFState
  | 0, s => s
  | n + 1, s => passIter edges n (bfPass edges s).1

/-- Specification-side Allen semantics of a relation on the four endpoint
coordinates of the two events (strict inequalities strict, equalities
exact), mirroring the spec's reading of the encoding table. -/
def allenSemHolds (rel : AllenRelation) (aStart aEnd bStart bEnd : ℚ) : Prop :=
  match rel with
  | .before => aEnd < bStart
  | .after => bEnd < aStart
  | .meets => aEnd = bStart
  | .metBy => aStart = bEnd
  | .overlaps => aStart < bStart ∧ bStart < aEnd ∧ aEnd < bEnd
  | .overlappedBy => bStart < aStart ∧ aStart < bEnd ∧ bEnd < aEnd
  | .starts => aStart = bStart ∧ aEnd < bEnd
  | .startedBy => aStart = bStart ∧ bEnd < aEnd
  | .finishes => bStart < aStart ∧ aEnd = bEnd
  | .finishedBy => aStart < bStart ∧ aEnd = bEnd
  | .during => bStart < aStart ∧ aEnd < bEnd
  | .contains => aStart < bStart ∧ bEnd < aEnd
  | .equals => aStart = bStart ∧ aEnd = bEnd

/-- solver.ts: `solve` — the public entry point. -/
def solve (input : SolverInput) : SolverResult :=
  if input.nodes.isEmpty then
    { status := .satisfiable, positions := [], violations := [], conflicts := [] }
  else if input.relationships.isEmpty then
    { status := .satisfiable, positions := assignDefaultPositions input.nodes,
      violations := [], conflicts := [] }
  else
    buildSolverResult input.nodes input.relationships
      (relaxConstraints input.nodes input.relationships)

/-! ## Theorems

The development below settles the frozen claims about the solver.  Helper
lemmas are shared; each claim has exactly one named theorem (plus a witness
or counterexample where required). -/

/-- Claim C3: for every pair of distinct event ids and each of the 13 Allen
relations, `allenToConstraints` emits exactly the encoding table's difference
constraints: each strict inequality `x - y < 0` as a single constraint
`{from := y, to := x, maxDiff := -EPSILON}` and each equality as the two
opposite zero-bound constraints; in particular `before` yields exactly
`Ae - Bs ≤ -ε` and `equals` yields exactly the four zero-bound constraints. -/
theorem C3_allen_encoding_table (A B : String) (_hAB : A ≠ B) :
    allenToConstraints A B .before =
      [⟨B ++ "_start", A ++ "_end", -EPSILON⟩] ∧
    allenToConstraints A B .after =
      [⟨A ++ "_start", B ++ "_end", -EPSILON⟩] ∧
    allenToConstraints A B .meets =
      [⟨B ++ "_start", A ++ "_end", 0⟩, ⟨A ++ "_end", B ++ "_start", 0⟩] ∧
    allenToConstraints A B .metBy =
      [⟨A ++ "_start", B ++ "_end", 0⟩, ⟨B ++ "_end", A ++ "_start", 0⟩] ∧
    allenToConstraints A B .overlaps =
      [⟨B ++ "_start", A ++ "_start", -EPSILON⟩,
       ⟨A ++ "_end", B ++ "_start", -EPSILON⟩,
       ⟨B ++ "_end", A ++ "_end", -EPSILON⟩] ∧
    allenToConstraints A B .overlappedBy =
      [⟨A ++ "_start", B ++ "_start", -EPSILON⟩,
       ⟨B ++ "_end", A ++ "_start", -EPSILON⟩,
       ⟨A ++ "_end", B ++ "_end", -EPSILON⟩] ∧
    allenToConstraints A B .starts =
      [⟨B ++ "_start", A ++ "_start", 0⟩, ⟨A ++ "_start", B ++ "_start", 0⟩,
       ⟨B ++ "_end", A ++ "_end", -EPSILON⟩] ∧
    allenToConstraints A B .startedBy =
      [⟨B ++ "_start", A ++ "_start", 0⟩, ⟨A ++ "_start", B ++ "_start", 0⟩,
       ⟨A ++ "_end", B ++ "_end", -EPSILON⟩] ∧
    allenToConstraints A B .finishes =
      [⟨A ++ "_start", B ++ "_start", -EPSILON⟩,
       ⟨B ++ "_end", A ++ "_end", 0⟩, ⟨A ++ "_end", B ++ "_end", 0⟩] ∧
    allenToConstraints A B .finishedBy =
      [⟨B ++ "_start", A ++ "_start", -EPSILON⟩,
       ⟨B ++ "_end", A ++ "_end", 0⟩, ⟨A ++ "_end", B ++ "_end", 0⟩] ∧
    allenToConstraints A B .during =
      [⟨A ++ "_start", B ++ "_start", -EPSILON⟩,
       ⟨B ++ "_end", A ++ "_end", -EPSILON⟩] ∧
    allenToConstraints A B .contains =
      [⟨B ++ "_start", A ++ "_start", -EPSILON⟩,
       ⟨A ++ "_end", B ++ "_end", -EPSILON⟩] ∧
    allenToConstraints A B .equals =
      [⟨B ++ "_start", A ++ "_start", 0⟩, ⟨A ++ "_start", B ++ "_start", 0⟩,
       ⟨B ++ "_end", A ++ "_end", 0⟩, ⟨A ++ "_end", B ++ "_end", 0⟩] :=
  ⟨rfl, rfl, rfl, rfl, rfl, rfl, rfl, rfl, rfl, rfl, rfl, rfl, rfl⟩

/-- Witness for C3 at the concrete ids `"a" ≠ "b"`: the `before` row. -/
theorem C3_allen_encoding_table_witness :
    allenToConstraints "a" "b" .before = [⟨"b_start", "a_end", -EPSILON⟩] :=
  (C3_allen_encoding_table "a" "b" (by decide)).1

/-! ### Association-list and fold lemmas -/

theorem nvGet_set_eq (m : List (String × (Option ℚ × Option ℚ))) (k : String)
    (v : Option ℚ × Option ℚ) : nvGet (nvSet m k v) k = some v := by
  induction m with
  | nil => simp [nvSet, nvGet]
  | cons kv rest ih =>
      by_cases h : kv.1 = k
      · simp [nvSet, nvGet, h]
      · simpa [nvSet, nvGet, h] using ih

theorem nvGet_set_ne (m : List (String × (Option ℚ × Option ℚ))) (k k' : String)
    (v : Option ℚ × Option ℚ) (h : k' ≠ k) :
    nvGet (nvSet m k v) k' = nvGet m k' := by
  induction m with
  | nil =>
      have hkk : (k == k') = false := beq_eq_false_iff_ne.mpr (Ne.symm h)
      simp [nvSet, nvGet, List.find?, hkk]
  | cons kv rest ih =>
      by_cases hk : kv.1 = k
      · have hkk : (k == k') = false := beq_eq_false_iff_ne.mpr (Ne.symm h)
        have hkv : (kv.1 == k') = false := by
          rw [hk]; exact hkk
        simp [nvSet, nvGet, List.find?, hk, hkk, hkv]
      · by_cases hk2 : kv.1 = k'
        · simp [nvSet, nvGet, List.find?, hk, hk2, h]
        · have ha : (kv.1 == k) = false := beq_eq_false_iff_ne.mpr hk
          have hb : (kv.1 == k') = false := beq_eq_false_iff_ne.mpr hk2
          simp only [nvSet, ha, Bool.false_eq_true, if_false]
          simp only [nvGet, List.find?, hb] at ih ⊢
          exact ih

theorem foldl_min_le_init (l : List ℚ) (a : ℚ) : l.foldl min a ≤ a := by
  induction l generalizing a with
  | nil => simp
  | cons x rest ih => exact le_trans (ih (min a x)) (min_le_left a x)

theorem foldl_min_le_mem (l : List ℚ) (x : ℚ) :
    ∀ a : ℚ, x ∈ l → l.foldl min a ≤ x := by
  induction l with
  | nil => intro a hx; cases hx
  | cons y rest ih =>
      intro a hx
      rcases List.mem_cons.mp hx with rfl | hx2
      · exact le_trans (foldl_min_le_init rest (min a x)) (min_le_right a x)
      · exact ih (min a y) hx2

theorem init_le_foldl_max (l : List ℚ) (a : ℚ) : a ≤ l.foldl max a := by
  induction l generalizing a with
  | nil => simp
  | cons x rest ih => exact le_trans (le_max_left a x) (ih (max a x))

theorem mem_le_foldl_max (l : List ℚ) (x : ℚ) :
    ∀ a : ℚ, x ∈ l → x ≤ l.foldl max a := by
  induction l with
  | nil => intro a hx; cases hx
  | cons y rest ih =>
      intro a hx
      rcases List.mem_cons.mp hx with rfl | hx2
      · exact le_trans (le_max_right a x) (init_le_foldl_max rest (max a x))
      · exact ih (max a y) hx2

/-- The emitting fold of `assignPositions` is a `filterMap`. -/
theorem emit_foldl_eq_filterMap (f : TimelineNode → Option SolvedPosition)
    (l : List TimelineNode) (acc : List SolvedPosition) :
    l.foldl (fun positions node =>
      match f node with
      | some p => positions ++ [p]
      | none => positions) acc = acc ++ l.filterMap f := by
  induction l generalizing acc with
  | nil => simp
  | cons n rest ih =>
      simp only [List.foldl_cons, List.filterMap_cons]
      cases h : f n with
      | none => simp [h, ih]
      | some p => simp [h, ih, List.append_assoc]

/-- `assignPositions` in the normalized branch, as a `filterMap`. -/
theorem assignPositions_eq_filterMap (nodes : List TimelineNode)
    (bfr : BellmanFordResult) (scale v0 : ℚ) (vrest : List ℚ)
    (hv : (collectValues nodes bfr.distances).1 = v0 :: vrest) :
    assignPositions nodes bfr scale =
      nodes.filterMap
        (emitPosition (normalizeValue scale v0 vrest)
          (collectValues nodes bfr.distances).2) := by
  have hne : nodes.isEmpty = false := by
    cases nodes with
    | nil => simp [collectValues] at hv
    | cons a l => rfl
  unfold assignPositions
  rw [hne]
  simp only [Bool.false_eq_true, if_false, hv]
  exact emit_foldl_eq_filterMap _ nodes []

/-! ### `collectValues` lemmas -/

theorem cvFold_nv_untouched (d : List (String × Option ℚ))
    (l : List TimelineNode) (id : String) (hid : id ∉ l.map (·.id)) :
    ∀ acc, nvGet (l.foldl (cvStep d) acc).2 id = nvGet acc.2 id := by
  induction l with
  | nil => intro acc; rfl
  | cons n rest ih =>
      intro acc
      have hne : id ∉ rest.map (·.id) := by
        intro hmem; exact hid (List.mem_cons_of_mem _ hmem)
      have hn : id ≠ n.id := by
        intro he; exact hid (by simp [he])
      rw [List.foldl_cons, ih hne]
      exact nvGet_set_ne _ _ _ _ hn

theorem collectValues_nv (d : List (String × Option ℚ))
    (nodes : List TimelineNode) (hnd : (nodes.map (·.id)).Nodup)
    (n : TimelineNode) (hn : n ∈ nodes) :
    nvGet (collectValues nodes d).2 n.id =
      some (mapGet d (n.id ++ "_start"), mapGet d (n.id ++ "_end")) := by
  unfold collectValues
  suffices h : ∀ (l : List TimelineNode), (l.map (·.id)).Nodup → n ∈ l →
      ∀ acc, nvGet (l.foldl (cvStep d) acc).2 n.id =
        some (mapGet d (n.id ++ "_start"), mapGet d (n.id ++ "_end")) by
    exact h nodes hnd hn ([], [])
  intro l
  induction l with
  | nil => intro _ hmem; cases hmem
  | cons m rest ih =>
      intro hnodup hmem acc
      rcases List.mem_cons.mp hmem with rfl | hmem2
      · have hni : n.id ∉ rest.map (·.id) := by
          have := hnodup
          rw [List.map_cons, List.nodup_cons] at this
          exact this.1
        rw [List.foldl_cons, cvFold_nv_untouched d rest n.id hni]
        simp only [cvStep, getNodeVariables]
        exact nvGet_set_eq _ _ _
      · have : (rest.map (·.id)).Nodup := by
          rw [List.map_cons, List.nodup_cons] at hnodup
          exact hnodup.2
        rw [List.foldl_cons]
        exact ih this hmem2 _

theorem cvFold_values_mono (d : List (String × Option ℚ))
    (l : List TimelineNode) (x : ℚ) :
    ∀ acc, x ∈ acc.1 → x ∈ (l.foldl (cvStep d) acc).1 := by
  induction l with
  | nil => intro acc hx; exact hx
  | cons n rest ih =>
      intro acc hx
      rw [List.foldl_cons]
      refine ih _ ?_
      simp only [cvStep]
      cases mapGet d (getNodeVariables n.id).1 <;>
        cases mapGet d (getNodeVariables n.id).2 <;>
        simp [hx]

theorem collectValues_mem_start (d : List (String × Option ℚ))
    (nodes : List TimelineNode) (n : TimelineNode) (hn : n ∈ nodes) (q : ℚ)
    (hq : mapGet d (n.id ++ "_start") = some q) :
    q ∈ (collectValues nodes d).1 := by
  unfold collectValues
  suffices h : ∀ (l : List TimelineNode), n ∈ l →
      ∀ acc, q ∈ (l.foldl (cvStep d) acc).1 by
    exact h nodes hn ([], [])
  intro l
  induction l with
  | nil => intro hmem; cases hmem
  | cons m rest ih =>
      intro hmem acc
      rcases List.mem_cons.mp hmem with rfl | hmem2
      · rw [List.foldl_cons]
        refine cvFold_values_mono d rest q _ ?_
        simp only [cvStep, getNodeVariables, hq]
        cases mapGet d (n.id ++ "_end") <;> simp
      · rw [List.foldl_cons]; exact ih hmem2 _

theorem collectValues_mem_end (d : List (String × Option ℚ))
    (nodes : List TimelineNode) (n : TimelineNode) (hn : n ∈ nodes) (q : ℚ)
    (hq : mapGet d (n.id ++ "_end") = some q) :
    q ∈ (collectValues nodes d).1 := by
  unfold collectValues
  suffices h : ∀ (l : List TimelineNode), n ∈ l →
      ∀ acc, q ∈ (l.foldl (cvStep d) acc).1 by
    exact h nodes hn ([], [])
  intro l
  induction l with
  | nil => intro hmem; cases hmem
  | cons m rest ih =>
      intro hmem acc
      rcases List.mem_cons.mp hmem with rfl | hmem2
      · rw [List.foldl_cons]
        refine cvFold_values_mono d rest q _ ?_
        simp only [cvStep, getNodeVariables, hq]
        cases mapGet d (n.id ++ "_start") <;> simp
      · rw [List.foldl_cons]; exact ih hmem2 _

/-! ### Claim C9 -/

/-- When the collected values all coincide, `normalize` is constant. -/
theorem normalizeValue_const (scale v0 : ℚ) (vrest : List ℚ)
    (hrange : vrest.foldl max v0 = vrest.foldl min v0) (v : ℚ) :
    normalizeValue scale v0 vrest v = scale / 2 + EDGE_PADDING := by
  unfold normalizeValue
  simp [hrange]

/-- Claim C9, amended: in `assignPositions`, when the maximum and minimum of
the collected finite distances coincide, every emitted position has its start
at `scale / 2 + EDGE_PADDING` (550 with defaults) — a constant offset of
`EDGE_PADDING` above the true midpoint `scale / 2` of the display range — and
instants get the same value as their end coordinate. -/
theorem C9_degenerate_layout_constant (nodes : List TimelineNode)
    (bfr : BellmanFordResult) (scale v0 : ℚ) (vrest : List ℚ)
    (hnd : (nodes.map (·.id)).Nodup)
    (hv : (collectValues nodes bfr.distances).1 = v0 :: vrest)
    (hrange : vrest.foldl max v0 = vrest.foldl min v0) :
    ∀ p ∈ assignPositions nodes bfr scale,
      p.start = scale / 2 + EDGE_PADDING ∧
      (∀ n ∈ nodes, n.id = p.nodeId → n.durationType = DurationType.instant →
        p.«end» = scale / 2 + EDGE_PADDING) := by
  intro p hp
  rw [assignPositions_eq_filterMap nodes bfr scale v0 vrest hv] at hp
  rcases List.mem_filterMap.mp hp with ⟨m, hm, hemit⟩
  simp only [emitPosition] at hemit
  cases hnv : nvGet (collectValues nodes bfr.distances).2 m.id with
  | none => simp [hnv] at hemit
  | some vals =>
      simp only [hnv] at hemit
      cases hsv : vals.1 with
      | none => simp [hsv] at hemit
      | some sv =>
          simp only [hsv] at hemit
          rw [normalizeValue_const scale v0 vrest hrange sv] at hemit
          by_cases hcond :
              (m.durationType == DurationType.instant) = true ∨ vals.2 = none
          · rw [if_pos hcond] at hemit
            simp only [Option.some.injEq] at hemit
            constructor
            · rw [← hemit]
            · intro n hn hid hinstant
              rw [← hemit]
          · rw [if_neg hcond] at hemit
            push_neg at hcond
            simp only [Option.some.injEq] at hemit
            constructor
            · rw [← hemit]
            · intro n hn hid hinstant
              exfalso
              have hpid : p.nodeId = m.id := by rw [← hemit]
              have hmn : m = n :=
                List.inj_on_of_nodup_map hnd hm hn ((hid.trans hpid).symm)
              apply hcond.1
              rw [hmn, hinstant]
              rfl

/-- Counterexample to claim C9 as stated: two instants related by `meets`
produce the degenerate layout, and every coordinate is 550 — not the midpoint
of the display range `[EDGE_PADDING, scale − EDGE_PADDING]`, which is 500. -/
theorem C9_counterexample :
    (solve ⟨[⟨"A", DurationType.instant⟩, ⟨"B", DurationType.instant⟩],
        [⟨"r1", "A", "B", AllenRelation.meets, ConfidenceLevel.explicitLevel⟩]⟩).positions =
      [⟨"A", 550, 550⟩, ⟨"B", 550, 550⟩] ∧
    (550 : ℚ) ≠ (EDGE_PADDING + (DEFAULT_SCALE - EDGE_PADDING)) / 2 := by
  constructor
  · with_unfolding_all decide
  · with_unfolding_all decide

/-- Witness for the amended C9 at a concrete degenerate input. -/
theorem C9_degenerate_layout_constant_witness :
    (⟨"A", 550, 550⟩ : SolvedPosition).start = DEFAULT_SCALE / 2 + EDGE_PADDING :=
  (C9_degenerate_layout_constant
    [⟨"A", DurationType.instant⟩, ⟨"B", DurationType.instant⟩]
    (checkNetworkConsistency (addVirtualSource (buildNetwork
      [⟨"A", DurationType.instant⟩, ⟨"B", DurationType.instant⟩]
      [⟨"r1", "A", "B", AllenRelation.meets, ConfidenceLevel.explicitLevel⟩])))
    DEFAULT_SCALE 0 [0, 0, 0]
    (by with_unfolding_all decide)
    (by with_unfolding_all decide)
    (by with_unfolding_all decide)
    ⟨"A", 550, 550⟩
    (by with_unfolding_all decide)).1

/-! ### Claim C8 -/

/-- Every entry of the `nodeValues` map is determined by its key: it holds
the distance lookups for that id's variables, and the key is a node id. -/
theorem cvFold_nv_shape (d : List (String × Option ℚ)) :
    ∀ (l : List TimelineNode) acc (k : String) (vals : Option ℚ × Option ℚ),
      nvGet (l.foldl (cvStep d) acc).2 k = some vals →
      (vals = (mapGet d (k ++ "_start"), mapGet d (k ++ "_end")) ∧
        ∃ n ∈ l, n.id = k) ∨
      nvGet acc.2 k = some vals := by
  intro l
  induction l with
  | nil => intro acc k vals h; exact Or.inr h
  | cons n rest ih =>
      intro acc k vals h
      rw [List.foldl_cons] at h
      rcases ih _ k vals h with ⟨hshape, m, hm, hid⟩ | hacc
      · exact Or.inl ⟨hshape, m, List.mem_cons_of_mem _ hm, hid⟩
      · by_cases hk : k = n.id
        · subst hk
          rw [show (cvStep d acc n).2 =
              nvSet acc.2 n.id (mapGet d (n.id ++ "_start"), mapGet d (n.id ++ "_end"))
              from rfl] at hacc
          rw [nvGet_set_eq] at hacc
          have := (Option.some.injEq _ _).mp hacc
          exact Or.inl ⟨this.symm ▸ rfl, n, List.mem_cons_self n rest, rfl⟩
        · rw [show (cvStep d acc n).2 =
              nvSet acc.2 n.id (mapGet d (n.id ++ "_start"), mapGet d (n.id ++ "_end"))
              from rfl] at hacc
          rw [nvGet_set_ne _ _ _ _ hk] at hacc
          exact Or.inr hacc

/-- `collectValues`-level version of `cvFold_nv_shape`. -/
theorem collectValues_nv_shape (d : List (String × Option ℚ))
    (nodes : List TimelineNode) (k : String) (vals : Option ℚ × Option ℚ)
    (h : nvGet (collectValues nodes d).2 k = some vals) :
    vals = (mapGet d (k ++ "_start"), mapGet d (k ++ "_end")) ∧
      ∃ n ∈ nodes, n.id = k := by
  rcases cvFold_nv_shape d nodes ([], []) k vals h with hl | hr
  · exact hl
  · simp [nvGet] at hr

/-- Bounds of the `normalize` closure over the collected values. -/
theorem normalizeValue_bounds (scale v0 : ℚ) (vrest : List ℚ)
    (hs : 4 * EDGE_PADDING ≤ scale) (v : ℚ)
    (hlo : vrest.foldl min v0 ≤ v) (hhi : v ≤ vrest.foldl max v0) :
    EDGE_PADDING ≤ normalizeValue scale v0 vrest v ∧
      normalizeValue scale v0 vrest v ≤ scale - EDGE_PADDING := by
  have hpad : EDGE_PADDING = (50 : ℚ) := rfl
  unfold normalizeValue
  set lo := vrest.foldl min v0 with hlodef
  set hi := vrest.foldl max v0 with hhidef
  by_cases h0 : hi - lo = 0
  · rw [if_pos h0]
    constructor <;> [skip; skip] <;> rw [hpad] <;> linarith
  · rw [if_neg h0]
    have hrange : 0 < hi - lo := lt_of_le_of_ne (by linarith) (Ne.symm h0)
    have ht0 : 0 ≤ (v - lo) / (hi - lo) := div_nonneg (by linarith) (le_of_lt hrange)
    have ht1 : (v - lo) / (hi - lo) ≤ 1 := (div_le_one hrange).mpr (by linarith)
    have hw : 0 ≤ scale - 2 * EDGE_PADDING := by rw [hpad]; linarith [hs, hpad]
    constructor
    · nlinarith [mul_nonneg ht0 hw]
    · nlinarith [mul_le_mul_of_nonneg_right ht1 hw]

/-- Bounds of the fallback placement: starts stay within the padded range,
ends may exceed it by at most `MIN_INTERVAL_WIDTH`. -/
theorem assignDefaultPositions_range (nodes : List TimelineNode) (scale : ℚ)
    (hs : 4 * EDGE_PADDING ≤ scale) :
    ∀ p ∈ assignDefaultPositions nodes scale,
      (EDGE_PADDING ≤ p.start ∧ p.start ≤ scale - EDGE_PADDING) ∧
      (EDGE_PADDING ≤ p.«end» ∧
        p.«end» ≤ scale - EDGE_PADDING + MIN_INTERVAL_WIDTH) := by
  intro p hp
  unfold assignDefaultPositions at hp
  by_cases hne : nodes.isEmpty
  · rw [if_pos hne] at hp; cases hp
  · rw [if_neg hne] at hp
    rcases List.mem_map.mp hp with ⟨iv, hiv, hpdef⟩
    have hi : iv.1 < nodes.length := by
      have h1 := List.mem_enum_iff_getElem?.mp hiv
      exact (List.getElem?_eq_some.mp h1).1
    have hpad : EDGE_PADDING = (50 : ℚ) := rfl
    have hmw : MIN_INTERVAL_WIDTH = (20 : ℚ) := rfl
    have hiL : ((iv.1 : ℚ)) + 1 ≤ (nodes.length : ℚ) := by
      exact_mod_cast Nat.succ_le_of_lt hi
    have hi0 : (0 : ℚ) ≤ (iv.1 : ℚ) := by positivity
    have hL0 : (0 : ℚ) < (nodes.length : ℚ) + 1 := by positivity
    have hw : (0 : ℚ) ≤ scale - 2 * EDGE_PADDING := by rw [hpad]; linarith
    have key : ∀ t : ℚ, 0 ≤ t → t ≤ (nodes.length : ℚ) + 1 →
        (scale - 2 * EDGE_PADDING) / ((nodes.length : ℚ) + 1) * t ≤
          scale - 2 * EDGE_PADDING := by
      intro t ht0 htL
      rw [div_mul_eq_mul_div, div_le_iff₀ hL0]
      nlinarith
    have hsp0 : (0 : ℚ) ≤ (scale - 2 * EDGE_PADDING) / ((nodes.length : ℚ) + 1) :=
      div_nonneg hw (le_of_lt hL0)
    subst hpdef
    dsimp only
    set spacing := (scale - 2 * EDGE_PADDING) / ((nodes.length : ℚ) + 1) with hspdef
    have hstart_lo : EDGE_PADDING ≤ EDGE_PADDING + spacing * ((iv.1 : ℚ) + 1) := by
      nlinarith
    have hstart_hi :
        EDGE_PADDING + spacing * ((iv.1 : ℚ) + 1) ≤ scale - EDGE_PADDING := by
      have := key ((iv.1 : ℚ) + 1) (by linarith) (by linarith)
      linarith
    cases hb : (iv.2.durationType == DurationType.interval) with
    | false =>
        simp only [hb, Bool.false_eq_true, if_false]
        refine ⟨⟨hstart_lo, hstart_hi⟩, ?_, ?_⟩
        · simp only [add_zero, max_self]
          exact hstart_lo
        · simp only [add_zero, max_self]
          rw [hmw] at *
          linarith
    | true =>
        simp only [hb, if_true]
        have he0 : EDGE_PADDING + spacing * ((iv.1 : ℚ) + 1) + spacing * (8 / 10) ≤
            scale - EDGE_PADDING := by
          have := key ((iv.1 : ℚ) + 1 + 8 / 10) (by linarith) (by linarith)
          nlinarith
        refine ⟨⟨hstart_lo, hstart_hi⟩, ?_, ?_⟩
        · refine le_trans ?_ (le_max_right _ _)
          rw [hmw]
          linarith
        · refine max_le ?_ ?_
          · rw [hmw]
            linarith
          · rw [hmw]
            linarith

/-- Bounds of any collected value relative to the fold minimum/maximum. -/
theorem mem_values_bounds (v0 : ℚ) (vrest : List ℚ) (x : ℚ) (hx : x ∈ v0 :: vrest) :
    vrest.foldl min v0 ≤ x ∧ x ≤ vrest.foldl max v0 := by
  rcases List.mem_cons.mp hx with rfl | hx2
  · exact ⟨foldl_min_le_init vrest x, init_le_foldl_max vrest x⟩
  · exact ⟨foldl_min_le_mem vrest x v0 hx2, mem_le_foldl_max vrest x v0 hx2⟩

/-- Bounds of `assignPositions` (both the normalized and the fallback branch):
starts lie in the padded range, ends exceed it by at most
`MIN_INTERVAL_WIDTH`. -/
theorem assignPositions_range (nodes : List TimelineNode) (bfr : BellmanFordResult)
    (scale : ℚ) (hs : 4 * EDGE_PADDING ≤ scale) :
    ∀ p ∈ assignPositions nodes bfr scale,
      (EDGE_PADDING ≤ p.start ∧ p.start ≤ scale - EDGE_PADDING) ∧
      (EDGE_PADDING ≤ p.«end» ∧
        p.«end» ≤ scale - EDGE_PADDING + MIN_INTERVAL_WIDTH) := by
  intro p hp
  have hmw : MIN_INTERVAL_WIDTH = (20 : ℚ) := rfl
  cases hv : (collectValues nodes bfr.distances).1 with
  | nil =>
      unfold assignPositions at hp
      by_cases hne : nodes.isEmpty
      · rw [if_pos hne] at hp; cases hp
      · rw [if_neg hne] at hp
        simp only [hv] at hp
        exact assignDefaultPositions_range nodes scale hs p hp
  | cons v0 vrest =>
      rw [assignPositions_eq_filterMap nodes bfr scale v0 vrest hv] at hp
      rcases List.mem_filterMap.mp hp with ⟨m, hm, hemit⟩
      simp only [emitPosition] at hemit
      cases hnv : nvGet (collectValues nodes bfr.distances).2 m.id with
      | none => simp [hnv] at hemit
      | some vals =>
          simp only [hnv] at hemit
          cases hsv : vals.1 with
          | none => simp [hsv] at hemit
          | some sv =>
              simp only [hsv] at hemit
              rcases collectValues_nv_shape bfr.distances nodes m.id vals hnv with
                ⟨hshape, n2, hn2, hid2⟩
              have hsvmap : mapGet bfr.distances (m.id ++ "_start") = some sv := by
                rw [hshape] at hsv
                simpa using hsv
              have hsvmem : sv ∈ v0 :: vrest := by
                rw [← hv]
                refine collectValues_mem_start bfr.distances nodes n2 hn2 sv ?_
                rw [hid2]
                exact hsvmap
              have hsb := mem_values_bounds v0 vrest sv hsvmem
              have hstart := normalizeValue_bounds scale v0 vrest hs sv hsb.1 hsb.2
              by_cases hcond :
                  (m.durationType == DurationType.instant) = true ∨ vals.2 = none
              · rw [if_pos hcond] at hemit
                simp only [Option.some.injEq] at hemit
                rw [← hemit]
                refine ⟨hstart, hstart.1, ?_⟩
                rw [hmw]
                linarith [hstart.2]
              · rw [if_neg hcond] at hemit
                push_neg at hcond
                cases hev : vals.2 with
                | none => exact absurd hev hcond.2
                | some ev =>
                    simp only [hev] at hemit
                    have hevmap : mapGet bfr.distances (m.id ++ "_end") = some ev := by
                      rw [hshape] at hev
                      simpa using hev
                    have hevmem : ev ∈ v0 :: vrest := by
                      rw [← hv]
                      refine collectValues_mem_end bfr.distances nodes n2 hn2 ev ?_
                      rw [hid2]
                      exact hevmap
                    have heb := mem_values_bounds v0 vrest ev hevmem
                    have hend := normalizeValue_bounds scale v0 vrest hs ev heb.1 heb.2
                    by_cases hext :
                        normalizeValue scale v0 vrest ev -
                          normalizeValue scale v0 vrest sv < MIN_INTERVAL_WIDTH
                    · rw [if_pos hext] at hemit
                      simp only [Option.some.injEq] at hemit
                      rw [← hemit]
                      dsimp only
                      refine ⟨hstart, ?_, ?_⟩
                      · rw [hmw]
                        linarith [hstart.1]
                      · rw [hmw]
                        linarith [hstart.2]
                    · rw [if_neg hext] at hemit
                      simp only [Option.some.injEq] at hemit
                      rw [← hemit]
                      refine ⟨hstart, hend.1, ?_⟩
                      rw [hmw]
                      linarith [hend.2]

/-- Claim C8, amended: every coordinate returned by `solve` has its start in
`[EDGE_PADDING, scale − EDGE_PADDING]` (`[50, 950]` with defaults), while end
coordinates may exceed the padded range by up to `MIN_INTERVAL_WIDTH` (20)
because of the minimum-interval-width extension, so they lie in
`[EDGE_PADDING, scale − EDGE_PADDING + MIN_INTERVAL_WIDTH]` (`[50, 970]`). -/
theorem C8_returned_positions_range (input : SolverInput) :
    ∀ p ∈ (solve input).positions,
      (EDGE_PADDING ≤ p.start ∧ p.start ≤ DEFAULT_SCALE - EDGE_PADDING) ∧
      (EDGE_PADDING ≤ p.«end» ∧
        p.«end» ≤ DEFAULT_SCALE - EDGE_PADDING + MIN_INTERVAL_WIDTH) := by
  have hs : 4 * EDGE_PADDING ≤ DEFAULT_SCALE := by
    rw [show EDGE_PADDING = (50 : ℚ) from rfl, show DEFAULT_SCALE = (1000 : ℚ) from rfl]
    norm_num
  intro p hp
  unfold solve at hp
  by_cases h1 : input.nodes.isEmpty
  · rw [if_pos h1] at hp
    simp at hp
  · rw [if_neg h1] at hp
    by_cases h2 : input.relationships.isEmpty
    · rw [if_pos h2] at hp
      dsimp only at hp
      exact assignDefaultPositions_range _ _ hs p hp
    · rw [if_neg h2] at hp
      unfold buildSolverResult at hp
      dsimp only at hp
      by_cases h3 : (relaxConstraints input.nodes
          input.relationships).bellmanFordResult.feasible = true
      · rw [if_pos h3] at hp
        exact assignPositions_range _ _ _ hs p hp
      · rw [if_neg h3] at hp
        exact assignDefaultPositions_range _ _ hs p hp

/-- Witness for the amended C8 at a one-instant input. -/
theorem C8_returned_positions_range_witness :
    (EDGE_PADDING ≤ (⟨"A", 500, 500⟩ : SolvedPosition).start ∧
      (⟨"A", 500, 500⟩ : SolvedPosition).start ≤ DEFAULT_SCALE - EDGE_PADDING) ∧
    (EDGE_PADDING ≤ (⟨"A", 500, 500⟩ : SolvedPosition).«end» ∧
      (⟨"A", 500, 500⟩ : SolvedPosition).«end» ≤
        DEFAULT_SCALE - EDGE_PADDING + MIN_INTERVAL_WIDTH) :=
  C8_returned_positions_range ⟨[⟨"A", DurationType.instant⟩], []⟩
    ⟨"A", 500, 500⟩ (by with_unfolding_all decide)


/-- Counterexample to claim C8 as stated: 45 interval events with no
assertions get fallback positions; the last one's end coordinate
(`21860/23 ≈ 950.43`) exceeds `scale − pad = 950` because of the
minimum-width adjustment, while the solve still returns positions. -/
theorem C8_counterexample :
    ((solve ⟨[⟨"a", DurationType.interval⟩, ⟨"b", DurationType.interval⟩,
      ⟨"c", DurationType.interval⟩, ⟨"d", DurationType.interval⟩,
      ⟨"e", DurationType.interval⟩, ⟨"f", DurationType.interval⟩,
      ⟨"g", DurationType.interval⟩, ⟨"h", DurationType.interval⟩,
      ⟨"i", DurationType.interval⟩, ⟨"j", DurationType.interval⟩,
      ⟨"k", DurationType.interval⟩, ⟨"l", DurationType.interval⟩,
      ⟨"m", DurationType.interval⟩, ⟨"n", DurationType.interval⟩,
      ⟨"o", DurationType.interval⟩, ⟨"p", DurationType.interval⟩,
      ⟨"q", DurationType.interval⟩, ⟨"r", DurationType.interval⟩,
      ⟨"s", DurationType.interval⟩, ⟨"t", DurationType.interval⟩,
      ⟨"u", DurationType.interval⟩, ⟨"v", DurationType.interval⟩,
      ⟨"w", DurationType.interval⟩, ⟨"x", DurationType.interval⟩,
      ⟨"y", DurationType.interval⟩, ⟨"z", DurationType.interval⟩,
      ⟨"A", DurationType.interval⟩, ⟨"B", DurationType.interval⟩,
      ⟨"C", DurationType.interval⟩, ⟨"D", DurationType.interval⟩,
      ⟨"E", DurationType.interval⟩, ⟨"F", DurationType.interval⟩,
      ⟨"G", DurationType.interval⟩, ⟨"H", DurationType.interval⟩,
      ⟨"I", DurationType.interval⟩, ⟨"J", DurationType.interval⟩,
      ⟨"K", DurationType.interval⟩, ⟨"L", DurationType.interval⟩,
      ⟨"M", DurationType.interval⟩, ⟨"N", DurationType.interval⟩,
      ⟨"O", DurationType.interval⟩, ⟨"P", DurationType.interval⟩,
      ⟨"Q", DurationType.interval⟩, ⟨"R", DurationType.interval⟩,
      ⟨"S", DurationType.interval⟩], []⟩).positions.getLast?).map
        (fun p => decide ((DEFAULT_SCALE - EDGE_PADDING) < p.«end»)) = some true := by
  with_unfolding_all decide

/-! ### Claim C5 -/

/-- A successful pick is an active id. -/
theorem pickToRemove_mem_active (sorted : List WeightedRelationship)
    (conflictIds active : List String) (r : String)
    (h : pickToRemove sorted conflictIds active = some r) : r ∈ active := by
  unfold pickToRemove at h
  cases hfind : sorted.find? (fun wr =>
      conflictIds.contains wr.relationship.id && active.contains wr.relationship.id) with
  | none => rw [hfind] at h; cases h
  | some wr =>
      rw [hfind] at h
      have hpred := List.find?_some hfind
      have hr : wr.relationship.id = r := by
        simpa using h
      rw [← hr]
      have := (Bool.and_eq_true _ _).mp hpred
      exact List.mem_of_elem_eq_true this.2

/-- Each non-returning iteration of the relaxation loop strictly shrinks the
active set, so the iteration counter is bounded by the remaining budget and
by `|active| + 1`. -/
theorem relaxGo_iterations_le (nodes : List TimelineNode)
    (rels : List TemporalRelationship) (sorted : List WeightedRelationship) :
    ∀ (fuel : Nat) (active violated : List String)
      (network : SimpleTemporalNetwork) (iters : Nat),
      (relaxGo nodes rels sorted fuel active violated network iters).iterations ≤
        iters + min fuel (active.length + 1) := by
  intro fuel
  induction fuel with
  | zero =>
      intro active violated network iters
      simp [relaxGo, relaxFinish]
  | succ fuel ih =>
      intro active violated network iters
      simp only [relaxGo]
      by_cases hf : (checkNetworkConsistency network).feasible = true
      · rw [if_pos hf]
        simp only []
        omega
      · rw [if_neg hf]
        cases hc : (checkNetworkConsistency network).conflictingRelationshipIds with
        | none => simp only [relaxFinish]; omega
        | some conflictIds =>
            simp only []
            by_cases hemp : conflictIds.isEmpty = true
            · rw [if_pos hemp]
              simp only [relaxFinish]
              omega
            · rw [if_neg hemp]
              cases hpick : pickToRemove sorted conflictIds active with
              | none => simp only [relaxFinish]; omega
              | some toRemove =>
                  simp only []
                  have hmem := pickToRemove_mem_active sorted conflictIds active
                    toRemove hpick
                  have hlen : (active.erase toRemove).length = active.length - 1 :=
                    List.length_erase_of_mem hmem
                  have hlen1 : 1 ≤ active.length := by
                    cases active with
                    | nil => cases hmem
                    | cons a l => simp
                  have := ih (active.erase toRemove) (violated ++ [toRemove])
                    (addVirtualSource (buildNetwork nodes
                      (rels.filter fun r => (active.erase toRemove).contains r.id)))
                    (iters + 1)
                  rw [hlen] at this
                  omega

/-- Claim C5, amended: the relaxation loop always terminates (it is a
bounded loop), and the returned iteration count is at most
`min maxIterations (|assertions| + 1)` — one more than the number of
assertions, because the final, feasible (or conflict-free) check also counts
one iteration. -/
theorem C5_iteration_bound (nodes : List TimelineNode)
    (rels : List TemporalRelationship) (maxIterations : Nat) :
    (relaxConstraints nodes rels maxIterations).iterations ≤
      min maxIterations (rels.length + 1) := by
  unfold relaxConstraints
  dsimp only
  have hded : (dedupIds (rels.map (·.id))).length ≤ rels.length := by
    have haux : ∀ (l : List String) (acc : List String),
        (l.foldl (fun acc x => if x ∈ acc then acc else acc ++ [x]) acc).length ≤
          acc.length + l.length := by
      intro l
      induction l with
      | nil => intro acc; simp
      | cons x rest ihl =>
          intro acc
          rw [List.foldl_cons]
          have hcons : (x :: rest).length = rest.length + 1 := rfl
          by_cases hx : x ∈ acc
          · rw [if_pos hx]
            have := ihl acc
            omega
          · rw [if_neg hx]
            have := ihl (acc ++ [x])
            simp at this
            omega
    have := haux (rels.map (·.id)) []
    simpa [dedupIds] using this
  have := relaxGo_iterations_le nodes rels
    (sortWR (rels.map fun r => WeightedRelationship.mk r (CONFIDENCE_WEIGHTS r.confidence)))
    maxIterations (dedupIds (rels.map (·.id))) []
    (addVirtualSource (buildNetwork nodes rels)) 0
  omega

/-- Counterexample to claim C5 as stated: one instant with a single
self-referential `before` assertion needs the assertion removed and then a
second (feasible) iteration, so the loop performs 2 > 1 = `|assertions|`
iterations. -/
theorem C5_counterexample :
    (relaxConstraints [⟨"A", DurationType.instant⟩]
      [⟨"r1", "A", "A", AllenRelation.before, ConfidenceLevel.explicitLevel⟩]).iterations = 2 ∧
    ([⟨"r1", "A", "A", AllenRelation.before,
      ConfidenceLevel.explicitLevel⟩] : List TemporalRelationship).length = 1 := by
  constructor
  · with_unfolding_all decide
  · rfl

/-! ### Claim C6 -/

/-- Membership in the concatenated edge list is membership in some bucket. -/
theorem mem_foldr_append (l : List (String × List STNEdge)) (e : STNEdge) :
    e ∈ l.foldr (fun kv acc => kv.2 ++ acc) [] ↔ ∃ kb ∈ l, e ∈ kb.2 := by
  induction l with
  | nil => simp
  | cons kb rest ih =>
      simp only [List.foldr_cons, List.mem_append, ih, List.mem_cons]
      constructor
      · rintro (h | ⟨kb2, h2, h3⟩)
        · exact ⟨kb, Or.inl rfl, h⟩
        · exact ⟨kb2, Or.inr h2, h3⟩
      · rintro ⟨kb2, (rfl | h2), h3⟩
        · exact Or.inl h3
        · exact Or.inr ⟨kb2, h2, h3⟩

/-- Edge membership in `getEdges`, bucket by bucket. -/
theorem mem_getEdges (n : SimpleTemporalNetwork) (e : STNEdge) :
    e ∈ n.getEdges ↔ ∃ kb ∈ n.adj, e ∈ kb.2 :=
  mem_foldr_append n.adj e

/-- `hasVertex` is key membership. -/
theorem hasVertex_iff (n : SimpleTemporalNetwork) (v : String) :
    n.hasVertex v = true ↔ ∃ kb ∈ n.adj, kb.1 = v := by
  unfold SimpleTemporalNetwork.hasVertex
  rw [List.any_eq_true]
  simp only [beq_iff_eq]

/-- `addVertex` makes its vertex present. -/
theorem hasVertex_addVertex_self (n : SimpleTemporalNetwork) (v : String) :
    (n.addVertex v).hasVertex v = true := by
  unfold SimpleTemporalNetwork.addVertex
  by_cases hv : n.hasVertex v = true
  · rw [if_pos hv]; exact hv
  · rw [if_neg hv]
    rw [hasVertex_iff]
    exact ⟨(v, []), List.mem_append_right _ (List.mem_singleton_self _), rfl⟩

/-- `addVertex` keeps every present vertex present. -/
theorem hasVertex_addVertex_mono (n : SimpleTemporalNetwork) (v w : String)
    (h : n.hasVertex w = true) : (n.addVertex v).hasVertex w = true := by
  unfold SimpleTemporalNetwork.addVertex
  by_cases hv : n.hasVertex v = true
  · rw [if_pos hv]; exact h
  · rw [if_neg hv]
    rw [hasVertex_iff] at h ⊢
    obtain ⟨kb, hkb, hk⟩ := h
    exact ⟨kb, List.mem_append_left _ hkb, hk⟩

/-- `addVertex` preserves the construction invariant. -/
theorem addVertex_netInv (cs : List (DifferenceConstraint × Option String))
    (n : SimpleTemporalNetwork) (v : String) (h : netInv cs n) :
    netInv cs (n.addVertex v) := by
  unfold SimpleTemporalNetwork.addVertex
  by_cases hv : n.hasVertex v = true
  · rw [if_pos hv]; exact h
  · rw [if_neg hv]
    obtain ⟨h1, h2, h3⟩ := h
    refine ⟨?_, ?_, ?_⟩
    · rw [List.map_append]
      refine List.Nodup.append h1 (List.nodup_singleton v) ?_
      intro k hk1 hk2
      simp only [List.map_cons, List.map_nil, List.mem_singleton] at hk2
      subst hk2
      obtain ⟨kb, hkb, hkey⟩ := List.mem_map.mp hk1
      exact hv ((hasVertex_iff n _).mpr ⟨kb, hkb, hkey⟩)
    · intro kb hkb
      rcases List.mem_append.mp hkb with hkb | hkb
      · exact h2 kb hkb
      · rw [List.mem_singleton] at hkb
        subst hkb
        exact ⟨fun e he => absurd he (List.not_mem_nil e), List.nodup_nil,
          fun e he => absurd he (List.not_mem_nil e)⟩
    · intro p hp
      obtain ⟨kb, hkb, hkey, he⟩ := h3 p hp
      exact ⟨kb, List.mem_append_left _ hkb, hkey, he⟩

/-- `overwriteFirstEdge` leaves the target list of the bucket unchanged. -/
theorem overwrite_map_to (t : String) (w : ℚ) (rid : Option String) :
    ∀ b : List STNEdge,
      (overwriteFirstEdge t w rid b).map (fun e => e.«to») = b.map (fun e => e.«to») := by
  intro b
  induction b with
  | nil => rfl
  | cons e es ih =>
      unfold overwriteFirstEdge
      by_cases he : (e.«to» == t) = true
      · rw [if_pos he]; rfl
      · rw [if_neg he]
        simp only [List.map_cons, ih]

/-- A member of an overwritten bucket with duplicate-free targets is either
an untouched edge not aimed at the overwritten target, or the rewrite of a
bucket edge aimed at it. -/
theorem overwrite_mem_spec (t : String) (w : ℚ) (rid : Option String) :
    ∀ b : List STNEdge, (b.map (fun e => e.«to»)).Nodup →
      ∀ e' ∈ overwriteFirstEdge t w rid b,
        (e' ∈ b ∧ e'.«to» ≠ t) ∨
        ∃ e ∈ b, e.«to» = t ∧ e' = { e with weight := w, relationshipId := rid } := by
  intro b
  induction b with
  | nil => intro _ e' he'; cases he'
  | cons e es ih =>
      intro hnd e' he'
      unfold overwriteFirstEdge at he'
      have hnd2 : (es.map (fun e => e.«to»)).Nodup := (List.nodup_cons.mp hnd).2
      have hhead : e.«to» ∉ es.map (fun e => e.«to») := (List.nodup_cons.mp hnd).1
      by_cases hb : (e.«to» == t) = true
      · rw [if_pos hb] at he'
        have ht : e.«to» = t := beq_iff_eq.mp hb
        rcases List.mem_cons.mp he' with rfl | hmem
        · exact Or.inr ⟨e, List.mem_cons_self _ _, ht, rfl⟩
        · refine Or.inl ⟨List.mem_cons_of_mem _ hmem, ?_⟩
          intro hto
          exact hhead (by rw [ht, ← hto]; exact List.mem_map_of_mem _ hmem)
      · rw [if_neg hb] at he'
        rcases List.mem_cons.mp he' with rfl | hmem
        · exact Or.inl ⟨List.mem_cons_self _ _, by simpa using hb⟩
        · rcases ih hnd2 e' hmem with ⟨hm, hne⟩ | ⟨e2, hm2, ht2, heq2⟩
          · exact Or.inl ⟨List.mem_cons_of_mem _ hm, hne⟩
          · exact Or.inr ⟨e2, List.mem_cons_of_mem _ hm2, ht2, heq2⟩

/-- The bucket update of `addConstraint` preserves the bucket invariant for
the extended constraint list, preserves every existing target, and
guarantees a stored edge for the new constraint's target. -/
theorem addEdgeToBucket_spec (cs : List (DifferenceConstraint × Option String))
    (c : DifferenceConstraint) (rid : Option String) (k : String) (b : List STNEdge)
    (hb : bucketInv cs k b) (hk : c.«from» = k)
    (hnone : b.find? (fun e => e.«to» == c.«to») = none →
      ∀ p ∈ cs, ¬(p.1.«from» = c.«from» ∧ p.1.«to» = c.«to»)) :
    bucketInv (cs ++ [(c, rid)]) k (addEdgeToBucket c rid b) ∧
    (∀ e ∈ b, ∃ e' ∈ addEdgeToBucket c rid b, e'.«to» = e.«to») ∧
    (∃ e' ∈ addEdgeToBucket c rid b, e'.«to» = c.«to») := by
  obtain ⟨hfrom, hnd, hmin⟩ := hb
  unfold addEdgeToBucket
  cases hfind : b.find? (fun e => e.«to» == c.«to») with
  | none =>
      dsimp only
      have hto_not : ∀ e ∈ b, e.«to» ≠ c.«to» := by
        intro e he hto
        exact List.find?_eq_none.mp hfind e he (beq_iff_eq.mpr hto)
      have hnomatch := hnone hfind
      refine ⟨⟨?_, ?_, ?_⟩, ?_, ?_⟩
      · intro e he
        rcases List.mem_append.mp he with he | he
        · exact hfrom e he
        · rw [List.mem_singleton] at he
          subst he
          exact hk
      · rw [List.map_append]
        refine List.Nodup.append hnd (List.nodup_singleton _) ?_
        intro t ht1 ht2
        simp only [List.map_cons, List.map_nil, List.mem_singleton] at ht2
        subst ht2
        obtain ⟨e, he, hte⟩ := List.mem_map.mp ht1
        exact hto_not e he hte
      · intro e' he'
        rcases List.mem_append.mp he' with he' | he'
        · refine ⟨?_, ?_⟩
          · intro p hp hpf hpt
            rcases List.mem_append.mp hp with hp | hp
            · exact (hmin e' he').1 p hp hpf hpt
            · rw [List.mem_singleton] at hp
              subst hp
              exact absurd hpt.symm (hto_not e' he')
          · obtain ⟨p, hp, hrest⟩ := (hmin e' he').2
            exact ⟨p, List.mem_append_left _ hp, hrest⟩
        · rw [List.mem_singleton] at he'
          subst he'
          refine ⟨?_, ?_⟩
          · intro p hp hpf hpt
            rcases List.mem_append.mp hp with hp | hp
            · exact absurd ⟨hpf, hpt⟩ (hnomatch p hp)
            · rw [List.mem_singleton] at hp
              subst hp
              exact le_refl _
          · exact ⟨(c, rid), List.mem_append_right _ (List.mem_singleton_self _),
              rfl, rfl, rfl, rfl⟩
      · intro e he
        exact ⟨e, List.mem_append_left _ he, rfl⟩
      · exact ⟨⟨c.«from», c.«to», c.maxDiff, rid⟩,
          List.mem_append_right _ (List.mem_singleton_self _), rfl⟩
  | some e0 =>
      dsimp only
      have he0b : e0 ∈ b := List.mem_of_find?_eq_some hfind
      have hp0 := List.find?_some hfind
      have he0t : e0.«to» = c.«to» := by simpa using hp0
      have huniq : ∀ e ∈ b, e.«to» = c.«to» → e = e0 := by
        intro e he hto
        exact List.inj_on_of_nodup_map hnd he he0b (by rw [hto, he0t])
      by_cases hlt : c.maxDiff < e0.weight
      · rw [if_pos hlt]
        have hmap := overwrite_map_to c.«to» c.maxDiff rid b
        have hspec := overwrite_mem_spec c.«to» c.maxDiff rid b hnd
        refine ⟨⟨?_, ?_, ?_⟩, ?_, ?_⟩
        · intro e' he'
          rcases hspec e' he' with ⟨hm, _⟩ | ⟨e, hm, ht, heq⟩
          · exact hfrom e' hm
          · subst heq
            exact hfrom e hm
        · rw [hmap]
          exact hnd
        · intro e' he'
          rcases hspec e' he' with ⟨hm, hne⟩ | ⟨e, hm, ht, heq⟩
          · refine ⟨?_, ?_⟩
            · intro p hp hpf hpt
              rcases List.mem_append.mp hp with hp | hp
              · exact (hmin e' hm).1 p hp hpf hpt
              · rw [List.mem_singleton] at hp
                subst hp
                exact absurd hpt.symm hne
            · obtain ⟨p, hp, hrest⟩ := (hmin e' hm).2
              exact ⟨p, List.mem_append_left _ hp, hrest⟩
          · have heq0 : e = e0 := huniq e hm ht
            subst heq0
            subst heq
            refine ⟨?_, ?_⟩
            · intro p hp hpf hpt
              rcases List.mem_append.mp hp with hp | hp
              · exact le_trans (le_of_lt hlt) ((hmin e he0b).1 p hp hpf hpt)
              · rw [List.mem_singleton] at hp
                subst hp
                exact le_refl _
            · exact ⟨(c, rid), List.mem_append_right _ (List.mem_singleton_self _),
                by rw [hk]; exact (hfrom e he0b).symm, ht.symm, rfl, rfl⟩
        · intro e he
          have : e.«to» ∈ (overwriteFirstEdge c.«to» c.maxDiff rid b).map
              (fun e => e.«to») := by
            rw [hmap]
            exact List.mem_map_of_mem _ he
          obtain ⟨e', he', ht'⟩ := List.mem_map.mp this
          exact ⟨e', he', ht'⟩
        · have : e0.«to» ∈ (overwriteFirstEdge c.«to» c.maxDiff rid b).map
              (fun e => e.«to») := by
            rw [hmap]
            exact List.mem_map_of_mem _ he0b
          obtain ⟨e', he', ht'⟩ := List.mem_map.mp this
          exact ⟨e', he', by rw [ht', he0t]⟩
      · rw [if_neg hlt]
        have hwle : e0.weight ≤ c.maxDiff := not_lt.mp hlt
        refine ⟨⟨hfrom, hnd, ?_⟩, ?_, ?_⟩
        · intro e' he'
          refine ⟨?_, ?_⟩
          · intro p hp hpf hpt
            rcases List.mem_append.mp hp with hp | hp
            · exact (hmin e' he').1 p hp hpf hpt
            · rw [List.mem_singleton] at hp
              subst hp
              have : e' = e0 := huniq e' he' hpt.symm
              subst this
              exact hwle
          · obtain ⟨p, hp, hrest⟩ := (hmin e' he').2
            exact ⟨p, List.mem_append_left _ hp, hrest⟩
        · intro e he
          exact ⟨e, he, rfl⟩
        · exact ⟨e0, he0b, he0t⟩

/-- `addConstraint` preserves the construction invariant, extended by the
added constraint. -/
theorem addConstraint_netInv (cs : List (DifferenceConstraint × Option String))
    (n : SimpleTemporalNetwork) (c : DifferenceConstraint) (rid : Option String)
    (h : netInv cs n) : netInv (cs ++ [(c, rid)]) (n.addConstraint c rid) := by
  have h1 : netInv cs ((n.addVertex c.«from»).addVertex c.«to») :=
    addVertex_netInv cs _ _ (addVertex_netInv cs _ _ h)
  have hhas : ((n.addVertex c.«from»).addVertex c.«to»).hasVertex c.«from» = true :=
    hasVertex_addVertex_mono _ _ _ (hasVertex_addVertex_self n c.«from»)
  obtain ⟨h1n, h1b, h1c⟩ := h1
  have hspec : ∀ kb ∈ ((n.addVertex c.«from»).addVertex c.«to»).adj,
      kb.1 = c.«from» →
      bucketInv (cs ++ [(c, rid)]) kb.1 (addEdgeToBucket c rid kb.2) ∧
      (∀ e ∈ kb.2, ∃ e' ∈ addEdgeToBucket c rid kb.2, e'.«to» = e.«to») ∧
      (∃ e' ∈ addEdgeToBucket c rid kb.2, e'.«to» = c.«to») := by
    intro kb hkb hkeq
    refine addEdgeToBucket_spec cs c rid kb.1 kb.2 (h1b kb hkb) hkeq.symm ?_
    intro hfind p hp hmatch
    obtain ⟨kb2, hkb2, hk2, e, he, hte⟩ := h1c p hp
    have hkb2eq : kb2 = kb :=
      List.inj_on_of_nodup_map h1n hkb2 hkb (by rw [hk2, hmatch.1, hkeq])
    subst hkb2eq
    exact List.find?_eq_none.mp hfind e he (beq_iff_eq.mpr (by rw [hte, hmatch.2]))
  unfold SimpleTemporalNetwork.addConstraint
  dsimp only
  refine ⟨?_, ?_, ?_⟩
  · rw [List.map_map]
    have : ((fun kb : String × List STNEdge => kb.1) ∘ fun kv =>
        if kv.1 == c.«from» then (kv.1, addEdgeToBucket c rid kv.2) else kv) =
        fun kb : String × List STNEdge => kb.1 := by
      funext kv
      by_cases hkv : (kv.1 == c.«from») = true
      · simp [Function.comp, hkv]
      · simp [Function.comp, hkv]
    rw [this]
    exact h1n
  · intro kb' hkb'
    obtain ⟨kb, hkb, hg⟩ := List.mem_map.mp hkb'
    by_cases hkv : (kb.1 == c.«from») = true
    · rw [if_pos hkv] at hg
      subst hg
      exact (hspec kb hkb (beq_iff_eq.mp hkv)).1
    · rw [if_neg hkv] at hg
      subst hg
      obtain ⟨hf, hn, hm⟩ := h1b kb hkb
      refine ⟨hf, hn, ?_⟩
      intro e he
      refine ⟨?_, ?_⟩
      · intro p hp hpf hpt
        rcases List.mem_append.mp hp with hp | hp
        · exact (hm e he).1 p hp hpf hpt
        · rw [List.mem_singleton] at hp
          subst hp
          exact absurd (beq_iff_eq.mpr (by rw [hpf, hf e he])) hkv
      · obtain ⟨p, hp, hrest⟩ := (hm e he).2
        exact ⟨p, List.mem_append_left _ hp, hrest⟩
  · intro p hp
    rcases List.mem_append.mp hp with hp | hp
    · obtain ⟨kb, hkb, hk2, e, he, hte⟩ := h1c p hp
      by_cases hkv : (kb.1 == c.«from») = true
      · refine ⟨(kb.1, addEdgeToBucket c rid kb.2), ?_, hk2, ?_⟩
        · have := List.mem_map_of_mem (fun kv =>
            if kv.1 == c.«from» then (kv.1, addEdgeToBucket c rid kv.2) else kv) hkb
          dsimp only at this
          rwa [if_pos hkv] at this
        · obtain ⟨e', he', hte'⟩ := (hspec kb hkb (beq_iff_eq.mp hkv)).2.1 e he
          exact ⟨e', he', by rw [hte', hte]⟩
      · refine ⟨kb, ?_, hk2, e, he, hte⟩
        have := List.mem_map_of_mem (fun kv =>
          if kv.1 == c.«from» then (kv.1, addEdgeToBucket c rid kv.2) else kv) hkb
        dsimp only at this
        rwa [if_neg hkv] at this
    · rw [List.mem_singleton] at hp
      subst hp
      obtain ⟨kb, hkb, hkeq⟩ := (hasVertex_iff _ _).mp hhas
      have hkv : (kb.1 == c.«from») = true := beq_iff_eq.mpr hkeq
      refine ⟨(kb.1, addEdgeToBucket c rid kb.2), ?_, hkeq, ?_⟩
      · have := List.mem_map_of_mem (fun kv =>
          if kv.1 == c.«from» then (kv.1, addEdgeToBucket c rid kv.2) else kv) hkb
        dsimp only at this
        rwa [if_pos hkv] at this
      · exact (hspec kb hkb hkeq).2.2

/-- Folding `addConstraint` over a constraint list preserves the invariant. -/
theorem foldl_addConstraint_netInv :
    ∀ (cs2 cs1 : List (DifferenceConstraint × Option String))
      (n : SimpleTemporalNetwork), netInv cs1 n →
      netInv (cs1 ++ cs2)
        (cs2.foldl (fun m p => m.addConstraint p.1 p.2) n) := by
  intro cs2
  induction cs2 with
  | nil =>
      intro cs1 n h
      simpa using h
  | cons p rest ih =>
      intro cs1 n h
      rw [List.foldl_cons]
      have := ih (cs1 ++ [p]) _ (addConstraint_netInv cs1 n p.1 p.2 h)
      simpa [List.append_assoc] using this

/-- The empty network satisfies the invariant for the empty history. -/
theorem netInv_empty : netInv [] SimpleTemporalNetwork.empty := by
  refine ⟨List.nodup_nil, ?_, ?_⟩
  · intro kb hkb
    cases hkb
  · intro p hp
    cases hp

/-- A network with duplicate-free keys, bucket-local sources and
duplicate-free bucket targets has at most one edge per ordered vertex pair. -/
theorem buckets_pairwise :
    ∀ l : List (String × List STNEdge),
      (l.map (·.1)).Nodup →
      (∀ kb ∈ l, (∀ e ∈ kb.2, e.«from» = kb.1) ∧ (kb.2.map (fun e => e.«to»)).Nodup) →
      (l.foldr (fun kv acc => kv.2 ++ acc) []).Pairwise
        (fun e1 e2 => ¬(e1.«from» = e2.«from» ∧ e1.«to» = e2.«to»)) := by
  intro l
  induction l with
  | nil => intro _ _; simp
  | cons kb rest ih =>
      intro hnd hb
      rw [List.foldr_cons, List.pairwise_append]
      refine ⟨?_, ?_, ?_⟩
      · have hto := (hb kb (List.mem_cons_self _ _)).2
        have hpw : kb.2.Pairwise (fun e1 e2 => e1.«to» ≠ e2.«to») :=
          List.pairwise_map.mp hto
        exact hpw.imp (fun h hc => h hc.2)
      · exact ih (by rw [List.map_cons] at hnd; exact (List.nodup_cons.mp hnd).2)
          (fun kb2 h2 => hb kb2 (List.mem_cons_of_mem _ h2))
      · intro e1 h1 e2 h2 hc
        obtain ⟨kb2, hkb2, he2⟩ := (mem_foldr_append rest e2).mp h2
        have hf1 : e1.«from» = kb.1 := (hb kb (List.mem_cons_self _ _)).1 e1 h1
        have hf2 : e2.«from» = kb2.1 :=
          (hb kb2 (List.mem_cons_of_mem _ hkb2)).1 e2 he2
        rw [List.map_cons] at hnd
        apply (List.nodup_cons.mp hnd).1
        have : kb.1 = kb2.1 := by rw [← hf1, hc.1, hf2]
        rw [this]
        exact List.mem_map_of_mem _ hkb2

/-- Claim C7: for every sequence of `addConstraint` calls on a fresh network,
the resulting network holds at most one edge per ordered `(from, to)` vertex
pair; every stored edge's weight is the minimum bound over all constraints
added for its pair, with provenance pointing at a constraint attaining it;
and every added constraint's pair is represented by an edge. -/
theorem C7_edge_tightening (cs : List (DifferenceConstraint × Option String)) :
    ((cs.foldl (fun m p => m.addConstraint p.1 p.2)
        SimpleTemporalNetwork.empty).getEdges).Pairwise
      (fun e1 e2 => ¬(e1.«from» = e2.«from» ∧ e1.«to» = e2.«to»)) ∧
    (∀ e ∈ (cs.foldl (fun m p => m.addConstraint p.1 p.2)
        SimpleTemporalNetwork.empty).getEdges, edgeMinSpec cs e) ∧
    (∀ p ∈ cs, ∃ e ∈ (cs.foldl (fun m p => m.addConstraint p.1 p.2)
        SimpleTemporalNetwork.empty).getEdges,
      e.«from» = p.1.«from» ∧ e.«to» = p.1.«to») := by
  have hinv := foldl_addConstraint_netInv cs [] SimpleTemporalNetwork.empty netInv_empty
  rw [List.nil_append] at hinv
  obtain ⟨hn, hb, hc⟩ := hinv
  refine ⟨?_, ?_, ?_⟩
  · exact buckets_pairwise _ hn (fun kb hkb => ⟨(hb kb hkb).1, (hb kb hkb).2.1⟩)
  · intro e he
    obtain ⟨kb, hkb, hekb⟩ := (mem_getEdges _ e).mp he
    exact (hb kb hkb).2.2 e hekb
  · intro p hp
    obtain ⟨kb, hkb, hk, e, he, hte⟩ := hc p hp
    refine ⟨e, (mem_getEdges _ e).mpr ⟨kb, hkb, he⟩, ?_, hte⟩
    rw [(hb kb hkb).1 e he, hk]

/-- Concrete instantiation: after adding bounds 5 then 3 then 7 for pairs
(a, b), (a, b) and (a, c), the stored (a, b) edge weighs 3 with provenance
r2, and it satisfies the minimality property. -/
theorem C7_edge_tightening_witness :
    ((⟨"a", "b", 3, some "r2"⟩ : STNEdge) ∈
      ([((⟨"a", "b", 5⟩ : DifferenceConstraint), some "r1"),
        (⟨"a", "b", 3⟩, some "r2"), (⟨"a", "c", 7⟩, none)].foldl
        (fun m p => m.addConstraint p.1 p.2) SimpleTemporalNetwork.empty).getEdges) ∧
    edgeMinSpec [(⟨"a", "b", 5⟩, some "r1"), (⟨"a", "b", 3⟩, some "r2"),
        (⟨"a", "c", 7⟩, none)] ⟨"a", "b", 3, some "r2"⟩ :=
  ⟨by with_unfolding_all decide,
   (C7_edge_tightening _).2.1 _ (by with_unfolding_all decide)⟩

/-! ### Claim C2 -/

/-- The relaxation loop always reports the Bellman-Ford result of the very
network it returns. -/
theorem relaxGo_br (nodes : List TimelineNode) (rels : List TemporalRelationship)
    (sorted : List WeightedRelationship) :
    ∀ (fuel : Nat) (active violated : List String)
      (network : SimpleTemporalNetwork) (iters : Nat),
      (relaxGo nodes rels sorted fuel active violated network iters).bellmanFordResult =
        checkNetworkConsistency
          (relaxGo nodes rels sorted fuel active violated network iters).network := by
  intro fuel
  induction fuel with
  | zero => intro a v n i; rfl
  | succ fuel ih =>
      intro a v n i
      simp only [relaxGo]
      by_cases hf : (checkNetworkConsistency n).feasible = true
      · rw [if_pos hf]
      · rw [if_neg hf]
        cases hc : (checkNetworkConsistency n).conflictingRelationshipIds with
        | none => rfl
        | some conflictIds =>
            simp only []
            by_cases he : conflictIds.isEmpty = true
            · rw [if_pos he]; rfl
            · rw [if_neg he]
              cases hpick : pickToRemove sorted conflictIds a with
              | none => rfl
              | some r => exact ih _ _ _ _

/-- Likewise for the whole relaxation entry point. -/
theorem relaxConstraints_br (nodes : List TimelineNode)
    (rels : List TemporalRelationship) (m : Nat) :
    (relaxConstraints nodes rels m).bellmanFordResult =
      checkNetworkConsistency (relaxConstraints nodes rels m).network := by
  unfold relaxConstraints
  dsimp only
  exact relaxGo_br nodes rels _ m _ _ _ _

/-- An infeasible consistency check always carries a conflicting-tag set. -/
theorem checkNC_infeasible_some (n : SimpleTemporalNetwork)
    (h : (checkNetworkConsistency n).feasible = false) :
    ∃ ids, (checkNetworkConsistency n).conflictingRelationshipIds = some ids := by
  unfold checkNetworkConsistency bellmanFord at h ⊢
  dsimp only at h ⊢
  split at h
  next e heq => exact ⟨_, rfl⟩
  next heq => cases h

/-- Claim C2: with at least one event and one assertion, `solve` reports
`satisfiable` exactly when the final propagation is feasible with nothing
discarded, `relaxed` exactly when feasible with a nonempty discarded list
(one violation entry per discarded assertion, in order), and `unsatisfiable`
exactly when infeasible — in which case `conflicts` holds exactly one
witness built from the last propagation's cycle tags and positions fall back
to even spacing; both feasible cases report no conflicts. -/
theorem C2_solver_status (input : SolverInput)
    (hn : input.nodes ≠ []) (hr : input.relationships ≠ []) :
    ((solve input).status = SolverStatus.satisfiable ↔
      (relaxConstraints input.nodes input.relationships).bellmanFordResult.feasible = true ∧
      (relaxConstraints input.nodes input.relationships).violatedRelationshipIds = []) ∧
    ((solve input).status = SolverStatus.relaxed ↔
      (relaxConstraints input.nodes input.relationships).bellmanFordResult.feasible = true ∧
      (relaxConstraints input.nodes input.relationships).violatedRelationshipIds ≠ []) ∧
    ((solve input).status = SolverStatus.unsatisfiable ↔
      (relaxConstraints input.nodes input.relationships).bellmanFordResult.feasible = false) ∧
    ((solve input).violations.map (fun v => v.relationshipId) =
      (relaxConstraints input.nodes input.relationships).violatedRelationshipIds) ∧
    ((relaxConstraints input.nodes input.relationships).bellmanFordResult.feasible = false →
      ∃ ids,
        (relaxConstraints input.nodes
          input.relationships).bellmanFordResult.conflictingRelationshipIds = some ids ∧
        (solve input).conflicts =
          [⟨ids, "These constraints form a contradictory cycle"⟩] ∧
        (solve input).positions = assignDefaultPositions input.nodes) ∧
    ((relaxConstraints input.nodes input.relationships).bellmanFordResult.feasible = true →
      (solve input).conflicts = [] ∧
      (solve input).positions = assignPositions input.nodes
        (relaxConstraints input.nodes input.relationships).bellmanFordResult) := by
  have hne : input.nodes.isEmpty = false := by
    cases hnn : input.nodes with
    | nil => exact absurd hnn hn
    | cons a l => rfl
  have hre : input.relationships.isEmpty = false := by
    cases hrr : input.relationships with
    | nil => exact absurd hrr hr
    | cons a l => rfl
  have hsolve : solve input = buildSolverResult input.nodes input.relationships
      (relaxConstraints input.nodes input.relationships) := by
    unfold solve
    rw [if_neg (by rw [hne]; exact Bool.false_ne_true),
       if_neg (by rw [hre]; exact Bool.false_ne_true)]
  rw [hsolve]
  unfold buildSolverResult
  dsimp only
  have hgen : ∀ (g : String → ConstraintViolation),
      (∀ id, (g id).relationshipId = id) →
      ∀ l : List String, (l.map g).map (fun v => v.relationshipId) = l := by
    intro g hg l
    induction l with
    | nil => rfl
    | cons a l ih => simp only [List.map_cons, hg, ih]
  have hbr := relaxConstraints_br input.nodes input.relationships 100
  cases hf : (relaxConstraints input.nodes input.relationships).bellmanFordResult.feasible with
  | false =>
      have hfc : (checkNetworkConsistency
          (relaxConstraints input.nodes input.relationships).network).feasible = false := by
        rw [← hbr]
        exact hf
      obtain ⟨ids, hids⟩ := checkNC_infeasible_some _ hfc
      have hids' : (relaxConstraints input.nodes
          input.relationships).bellmanFordResult.conflictingRelationshipIds = some ids := by
        rw [hbr]
        exact hids
      refine ⟨by simp, by simp, by simp, ?_, ?_, ?_⟩
      · refine hgen _ ?_ _
        intro id
        dsimp only
        cases input.relationships.find? (fun r => r.id == id) <;> rfl
      · intro _
        refine ⟨ids, hids', ?_, by simp⟩
        rw [hids']
        simp
      · intro habs
        cases habs
  | true =>
      cases hv : (relaxConstraints input.nodes input.relationships).violatedRelationshipIds with
      | nil =>
          refine ⟨by simp, by simp, by simp, by simp, ?_, by simp⟩
          intro habs
          cases habs
      | cons a l =>
          refine ⟨by simp, by simp, by simp, ?_, ?_, by simp⟩
          · refine hgen _ ?_ _
            intro id
            dsimp only
            cases input.relationships.find? (fun r => r.id == id) <;> rfl
          · intro habs
            cases habs

/-- Concrete instantiation: one instant with a self-contradictory `before`
assertion solves to `relaxed` exactly because the final propagation is
feasible and the discarded list is nonempty. -/
theorem C2_solver_status_witness :
    (([⟨"A", DurationType.instant⟩] : List TimelineNode) ≠ []) ∧
    ((solve ⟨[⟨"A", DurationType.instant⟩],
        [⟨"r1", "A", "A", AllenRelation.before, ConfidenceLevel.explicitLevel⟩]⟩).status =
          SolverStatus.relaxed ↔
      (relaxConstraints [⟨"A", DurationType.instant⟩]
        [⟨"r1", "A", "A", AllenRelation.before,
          ConfidenceLevel.explicitLevel⟩]).bellmanFordResult.feasible = true ∧
      (relaxConstraints [⟨"A", DurationType.instant⟩]
        [⟨"r1", "A", "A", AllenRelation.before,
          ConfidenceLevel.explicitLevel⟩]).violatedRelationshipIds ≠ []) :=
  ⟨by decide,
   (C2_solver_status ⟨[⟨"A", DurationType.instant⟩],
      [⟨"r1", "A", "A", AllenRelation.before, ConfidenceLevel.explicitLevel⟩]⟩
     (by decide) (by decide)).2.1⟩

/-! ### Claim C4 -/

/-- Membership after weighted insertion. -/
theorem mem_insertWR (x z : WeightedRelationship) :
    ∀ s : List WeightedRelationship, z ∈ insertWR x s ↔ z = x ∨ z ∈ s := by
  intro s
  induction s with
  | nil => simp [insertWR]
  | cons y ys ih =>
      unfold insertWR
      by_cases hxy : x.weight ≤ y.weight
      · rw [if_pos hxy]
        simp [List.mem_cons]
      · rw [if_neg hxy]
        simp only [List.mem_cons, ih]
        tauto

/-- Weighted insertion preserves ascending order. -/
theorem insertWR_sorted (x : WeightedRelationship) :
    ∀ s : List WeightedRelationship,
      s.Pairwise (fun a b => a.weight ≤ b.weight) →
      (insertWR x s).Pairwise (fun a b => a.weight ≤ b.weight) := by
  intro s
  induction s with
  | nil => intro _; simp [insertWR]
  | cons y ys ih =>
      intro hs
      obtain ⟨hy, hys⟩ := List.pairwise_cons.mp hs
      unfold insertWR
      by_cases hxy : x.weight ≤ y.weight
      · rw [if_pos hxy]
        refine List.pairwise_cons.mpr ⟨?_, hs⟩
        intro z hz
        rcases List.mem_cons.mp hz with rfl | hz
        · exact hxy
        · exact le_trans hxy (hy z hz)
      · rw [if_neg hxy]
        refine List.pairwise_cons.mpr ⟨?_, ih hys⟩
        intro z hz
        rcases (mem_insertWR x z ys).mp hz with rfl | hz
        · exact le_of_lt (Nat.lt_of_not_le hxy)
        · exact hy z hz

/-- The sorting model produces an ascending list. -/
theorem sortWR_sorted (l : List WeightedRelationship) :
    (sortWR l).Pairwise (fun a b => a.weight ≤ b.weight) := by
  induction l with
  | nil => simp [sortWR]
  | cons a l ih => exact insertWR_sorted a (sortWR l) ih

/-- Searching an ascending list after one stable insertion. -/
theorem find?_insertWR (p : WeightedRelationship → Bool) (x : WeightedRelationship) :
    ∀ s : List WeightedRelationship,
      s.Pairwise (fun a b => a.weight ≤ b.weight) →
      (insertWR x s).find? p =
        match s.find? p with
        | none => if p x then some x else none
        | some b =>
            if p x then (if x.weight ≤ b.weight then some x else some b) else some b := by
  intro s
  induction s with
  | nil =>
      intro _
      by_cases hp : p x = true
      · simp [insertWR, List.find?, hp]
      · simp [insertWR, List.find?, hp]
  | cons y ys ih =>
      intro hs
      obtain ⟨hy, hys⟩ := List.pairwise_cons.mp hs
      unfold insertWR
      by_cases hxy : x.weight ≤ y.weight
      · rw [if_pos hxy]
        by_cases hp : p x = true
        · rw [List.find?_cons_of_pos _ hp]
          cases hfind : (y :: ys).find? p with
          | none => simp [hp]
          | some b =>
              have hb : b = y ∨ b ∈ ys := List.mem_cons.mp (List.mem_of_find?_eq_some hfind)
              have hxb : x.weight ≤ b.weight := by
                rcases hb with rfl | hb
                · exact hxy
                · exact le_trans hxy (hy b hb)
              simp [hp, hxb]
        · rw [List.find?_cons_of_neg _ hp]
          cases hfind : (y :: ys).find? p with
          | none => simp [hp]
          | some b => simp [hp]
      · rw [if_neg hxy]
        by_cases hpy : p y = true
        · rw [List.find?_cons_of_pos _ hpy, List.find?_cons_of_pos _ hpy]
          by_cases hp : p x = true
          · simp [hp, hxy]
          · simp [hp]
        · rw [List.find?_cons_of_neg _ hpy, List.find?_cons_of_neg _ hpy]
          exact ih hys

/-- Searching the sorted list equals the first-minimal scan of the input. -/
theorem find?_sortWR (p : WeightedRelationship → Bool) (l : List WeightedRelationship) :
    (sortWR l).find? p = firstMinWR p l := by
  induction l with
  | nil => rfl
  | cons a l ih =>
      show (insertWR a (sortWR l)).find? p = _
      rw [find?_insertWR p a (sortWR l) (sortWR_sorted l), ih]
      rfl

/-- A failed first-minimal scan means no element satisfies the predicate. -/
theorem firstMinWR_none (p : WeightedRelationship → Bool) :
    ∀ l : List WeightedRelationship, firstMinWR p l = none →
      ∀ x ∈ l, ¬ p x = true := by
  intro l
  induction l with
  | nil => intro _ x hx; cases hx
  | cons a l ih =>
      intro h x hx
      unfold firstMinWR at h
      cases hrec : firstMinWR p l with
      | none =>
          rw [hrec] at h
          dsimp only at h
          by_cases hp : p a = true
          · rw [if_pos hp] at h; cases h
          · rw [if_neg hp] at h
            rcases List.mem_cons.mp hx with rfl | hx
            · exact hp
            · exact ih hrec x hx
      | some b0 =>
          rw [hrec] at h
          dsimp only at h
          by_cases hp : p a = true
          · rw [if_pos hp] at h
            by_cases hw : a.weight ≤ b0.weight
            · rw [if_pos hw] at h; cases h
            · rw [if_neg hw] at h; cases h
          · rw [if_neg hp] at h; cases h

/-- The first-minimal scan returns a satisfying element of minimal weight,
positioned before every satisfying element of equal weight. -/
theorem firstMinWR_spec (p : WeightedRelationship → Bool) :
    ∀ (l : List WeightedRelationship) (b : WeightedRelationship),
      firstMinWR p l = some b →
      p b = true ∧
      (∀ x ∈ l, p x = true → b.weight ≤ x.weight) ∧
      ∃ l1 l2, l = l1 ++ b :: l2 ∧
        ∀ x ∈ l1, p x = true → b.weight < x.weight := by
  intro l
  induction l with
  | nil => intro b hb; cases hb
  | cons a l ih =>
      intro b hb
      unfold firstMinWR at hb
      cases hrec : firstMinWR p l with
      | none =>
          rw [hrec] at hb
          dsimp only at hb
          by_cases hp : p a = true
          · rw [if_pos hp] at hb
            injection hb with hb
            subst hb
            refine ⟨hp, ?_, [], l, rfl, by intro x hx; cases hx⟩
            intro x hx hpx
            rcases List.mem_cons.mp hx with rfl | hx
            · exact le_refl _
            · exact absurd hpx (firstMinWR_none p l hrec x hx)
          · rw [if_neg hp] at hb
            cases hb
      | some b0 =>
          rw [hrec] at hb
          dsimp only at hb
          obtain ⟨hpb0, hmin0, l1, l2, hsplit, hpre⟩ := ih b0 hrec
          by_cases hp : p a = true
          · rw [if_pos hp] at hb
            by_cases hw : a.weight ≤ b0.weight
            · rw [if_pos hw] at hb
              injection hb with hb
              subst hb
              refine ⟨hp, ?_, [], l, rfl, by intro x hx; cases hx⟩
              intro x hx hpx
              rcases List.mem_cons.mp hx with rfl | hx
              · exact le_refl _
              · exact le_trans hw (hmin0 x hx hpx)
            · rw [if_neg hw] at hb
              injection hb with hb
              subst hb
              refine ⟨hpb0, ?_, a :: l1, l2, by rw [hsplit, List.cons_append], ?_⟩
              · intro x hx hpx
                rcases List.mem_cons.mp hx with rfl | hx
                · exact le_of_lt (Nat.lt_of_not_le hw)
                · exact hmin0 x hx hpx
              · intro x hx hpx
                rcases List.mem_cons.mp hx with rfl | hx
                · exact Nat.lt_of_not_le hw
                · exact hpre x hx hpx
          · rw [if_neg hp] at hb
            injection hb with hb
            subst hb
            refine ⟨hpb0, ?_, a :: l1, l2, by rw [hsplit, List.cons_append], ?_⟩
            · intro x hx hpx
              rcases List.mem_cons.mp hx with rfl | hx
              · exact absurd hpx hp
              · exact hmin0 x hx hpx
            · intro x hx hpx
              rcases List.mem_cons.mp hx with rfl | hx
              · exact absurd hpx hp
              · exact hpre x hx hpx

/-- Claim C4: whenever the relaxation pick selects an assertion id out of a
conflict witness, the selected assertion occurs in the input, is in the
witness and still active, has minimal confidence weight among the still
active assertions of the witness, and every such candidate earlier in input
order weighs strictly more — ties are broken by stable input order, and no
discarded assertion outweighs a same-witness candidate. -/
theorem C4_relaxation_priority (rels : List TemporalRelationship)
    (conflictIds active : List String) (rid : String)
    (h : pickToRemove (sortWR (rels.map fun r =>
        WeightedRelationship.mk r (CONFIDENCE_WEIGHTS r.confidence)))
      conflictIds active = some rid) :
    ∃ (r : TemporalRelationship) (rpre rpost : List TemporalRelationship),
      rels = rpre ++ r :: rpost ∧ r.id = rid ∧
      conflictIds.contains r.id = true ∧ active.contains r.id = true ∧
      (∀ r' ∈ rels, conflictIds.contains r'.id = true →
        active.contains r'.id = true →
        CONFIDENCE_WEIGHTS r.confidence ≤ CONFIDENCE_WEIGHTS r'.confidence) ∧
      (∀ r' ∈ rpre, conflictIds.contains r'.id = true →
        active.contains r'.id = true →
        CONFIDENCE_WEIGHTS r.confidence < CONFIDENCE_WEIGHTS r'.confidence) := by
  unfold pickToRemove at h
  rw [find?_sortWR] at h
  cases hfind : firstMinWR (fun wr => conflictIds.contains wr.relationship.id &&
      active.contains wr.relationship.id) (rels.map fun r =>
        WeightedRelationship.mk r (CONFIDENCE_WEIGHTS r.confidence)) with
  | none => rw [hfind] at h; cases h
  | some wr =>
      rw [hfind] at h
      have hrid : wr.relationship.id = rid := by simpa using h
      obtain ⟨hpwr, hmin, l1, l2, hsplit, hpre⟩ := firstMinWR_spec _ _ _ hfind
      obtain ⟨rpre, rest, hrels, hmap1, hmap2⟩ := List.map_eq_append_iff.mp hsplit
      obtain ⟨r, rpost, hrest, hfr, hmap3⟩ := List.map_eq_cons_iff.mp hmap2
      subst hfr
      dsimp only at hrid
      have hpwr2 : conflictIds.contains r.id = true ∧ active.contains r.id = true := by
        simpa using hpwr
      obtain ⟨hcontc, hconta⟩ := hpwr2
      refine ⟨r, rpre, rpost, by rw [hrels, hrest], hrid, hcontc, hconta, ?_, ?_⟩
      · intro r' hr' hc' ha'
        have := hmin (WeightedRelationship.mk r' (CONFIDENCE_WEIGHTS r'.confidence))
          (List.mem_map_of_mem _ hr')
          (by dsimp only; rw [hc', ha']; rfl)
        simpa using this
      · intro r' hr' hc' ha'
        have hm : (WeightedRelationship.mk r' (CONFIDENCE_WEIGHTS r'.confidence)) ∈ l1 := by
          rw [← hmap1]
          exact List.mem_map_of_mem _ hr'
        have := hpre _ hm (by dsimp only; rw [hc', ha']; rfl)
        simpa using this

/-- Concrete instantiation: with an explicit assertion followed by two
speculation assertions all in the conflict witness and active, the pick
selects the earlier speculation, r2. -/
theorem C4_relaxation_priority_witness :
    pickToRemove (sortWR
      (([⟨"r1", "A", "B", AllenRelation.before, ConfidenceLevel.explicitLevel⟩,
         ⟨"r2", "B", "C", AllenRelation.before, ConfidenceLevel.speculation⟩,
         ⟨"r3", "C", "D", AllenRelation.before, ConfidenceLevel.speculation⟩] :
        List TemporalRelationship).map fun r =>
          WeightedRelationship.mk r (CONFIDENCE_WEIGHTS r.confidence)))
      ["r1", "r2", "r3"] ["r1", "r2", "r3"] = some "r2" ∧
    ∃ (r : TemporalRelationship) (rpre rpost : List TemporalRelationship),
      ([⟨"r1", "A", "B", AllenRelation.before, ConfidenceLevel.explicitLevel⟩,
        ⟨"r2", "B", "C", AllenRelation.before, ConfidenceLevel.speculation⟩,
        ⟨"r3", "C", "D", AllenRelation.before, ConfidenceLevel.speculation⟩] :
        List TemporalRelationship) = rpre ++ r :: rpost ∧ r.id = "r2" ∧
      (["r1", "r2", "r3"] : List String).contains r.id = true ∧
      (["r1", "r2", "r3"] : List String).contains r.id = true ∧
      (∀ r' ∈ ([⟨"r1", "A", "B", AllenRelation.before, ConfidenceLevel.explicitLevel⟩,
          ⟨"r2", "B", "C", AllenRelation.before, ConfidenceLevel.speculation⟩,
          ⟨"r3", "C", "D", AllenRelation.before, ConfidenceLevel.speculation⟩] :
          List TemporalRelationship),
        (["r1", "r2", "r3"] : List String).contains r'.id = true →
        (["r1", "r2", "r3"] : List String).contains r'.id = true →
        CONFIDENCE_WEIGHTS r.confidence ≤ CONFIDENCE_WEIGHTS r'.confidence) ∧
      (∀ r' ∈ rpre,
        (["r1", "r2", "r3"] : List String).contains r'.id = true →
        (["r1", "r2", "r3"] : List String).contains r'.id = true →
        CONFIDENCE_WEIGHTS r.confidence < CONFIDENCE_WEIGHTS r'.confidence) :=
  ⟨by decide,
   C4_relaxation_priority
     [⟨"r1", "A", "B", AllenRelation.before, ConfidenceLevel.explicitLevel⟩,
      ⟨"r2", "B", "C", AllenRelation.before, ConfidenceLevel.speculation⟩,
      ⟨"r3", "C", "D", AllenRelation.before, ConfidenceLevel.speculation⟩]
     ["r1", "r2", "r3"] ["r1", "r2", "r3"] "r2" (by decide)⟩

/-! ### Claim C10 -/

/-- Reading back the key just set. -/
theorem mapGet_mapSet_eq {α : Type} (m : List (String × Option α)) (k : String)
    (v : Option α) : mapGet (mapSet m k v) k = v := by
  induction m with
  | nil => simp [mapSet, mapGet, List.find?_cons]
  | cons kv rest ih =>
      unfold mapSet
      by_cases hk : (kv.1 == k) = true
      · rw [if_pos hk]
        simp [mapGet, List.find?_cons]
      · rw [if_neg hk]
        simp only [mapGet, List.find?_cons, hk] at ih ⊢
        exact ih

/-- Setting one key leaves the others unchanged. -/
theorem mapGet_mapSet_ne {α : Type} (m : List (String × Option α)) (k k' : String)
    (v : Option α) (h : k' ≠ k) : mapGet (mapSet m k v) k' = mapGet m k' := by
  have hkk : (k == k') = false := by
    simp only [beq_eq_false_iff_ne]
    exact Ne.symm h
  induction m with
  | nil => simp [mapSet, mapGet, List.find?_cons, hkk]
  | cons kv rest ih =>
      unfold mapSet
      by_cases hk : (kv.1 == k) = true
      · rw [if_pos hk]
        have hkv : kv.1 = k := beq_iff_eq.mp hk
        simp only [mapGet, List.find?_cons, hkk, hkv]
      · rw [if_neg hk]
        by_cases hk' : (kv.1 == k') = true
        · simp only [mapGet, List.find?_cons, hk']
        · simp only [mapGet, List.find?_cons, hk'] at ih ⊢
          exact ih

/-- Lookup in a map built by tabulating a function over present keys. -/
theorem mapGet_of_mem_mapfn {α : Type} (f : String → Option α) :
    ∀ (vs : List String) (k : String), k ∈ vs →
      mapGet (vs.map fun v => (v, f v)) k = f k := by
  intro vs
  induction vs with
  | nil => intro k hk; cases hk
  | cons v rest ih =>
      intro k hk
      unfold mapGet
      rw [List.map_cons]
      by_cases hv : (v == k) = true
      · rw [List.find?_cons_of_pos _ (by simpa using hv)]
        have : v = k := beq_iff_eq.mp hv
        rw [this]
      · rw [List.find?_cons_of_neg _ (by simpa using hv)]
        have hk2 : k ∈ rest := by
          rcases List.mem_cons.mp hk with rfl | hk2
          · exact absurd (beq_self_eq_true k) (by simpa using hv)
          · exact hk2
        exact ih k hk2

/-- One Bellman-Ford relaxation never increases a finite distance and never
loses finiteness. -/
theorem bfStep_mono (s : BFState) (e : STNEdge) (k : String) (q : ℚ)
    (hq : mapGet s.distances k = some q) :
    ∃ q', mapGet (bfStep s e).1.distances k = some q' ∧ q' ≤ q := by
  unfold bfStep
  cases hfrom : mapGet s.distances e.«from» with
  | none => exact ⟨q, hq, le_refl q⟩
  | some distFrom =>
      dsimp only
      cases hto : mapGet s.distances e.«to» with
      | none =>
          dsimp only
          by_cases hk : k = e.«to»
          · rw [hk] at hq
            rw [hq] at hto
            cases hto
          · rw [if_pos rfl]
            dsimp only
            rw [mapGet_mapSet_ne _ _ _ _ hk]
            exact ⟨q, hq, le_refl q⟩
      | some distTo =>
          dsimp only
          by_cases hlt : distFrom + e.weight < distTo
          · rw [if_pos (decide_eq_true hlt)]
            dsimp only
            by_cases hk : k = e.«to»
            · subst hk
              rw [hq] at hto
              injection hto with hto
              subst hto
              rw [mapGet_mapSet_eq]
              exact ⟨distFrom + e.weight, rfl, le_of_lt hlt⟩
            · rw [mapGet_mapSet_ne _ _ _ _ hk]
              exact ⟨q, hq, le_refl q⟩
          · rw [if_neg (by simpa using hlt)]
            exact ⟨q, hq, le_refl q⟩

/-- One full pass never increases a finite distance. -/
theorem bfPassAux_mono :
    ∀ (es : List STNEdge) (anyChange : Bool) (s : BFState) (k : String) (q : ℚ),
      mapGet s.distances k = some q →
      ∃ q', mapGet (bfPassAux anyChange s es).1.distances k = some q' ∧ q' ≤ q := by
  intro es
  induction es with
  | nil => intro a s k q hq; exact ⟨q, hq, le_refl q⟩
  | cons e rest ih =>
      intro a s k q hq
      obtain ⟨q1, hq1, hle1⟩ := bfStep_mono s e k q hq
      rcases hstep : bfStep s e with ⟨s2, changed⟩
      rw [hstep] at hq1
      dsimp only at hq1
      simp only [bfPassAux, hstep]
      obtain ⟨q', hq', hle'⟩ := ih (if changed then true else a) s2 k q1 hq1
      exact ⟨q', hq', le_trans hle' hle1⟩

/-- The Bellman-Ford loop never increases a finite distance. -/
theorem bfLoop_mono (edges : List STNEdge) :
    ∀ (fuel : Nat) (s : BFState) (k : String) (q : ℚ),
      mapGet s.distances k = some q →
      ∃ q', mapGet (bfLoop edges fuel s).distances k = some q' ∧ q' ≤ q := by
  intro fuel
  induction fuel with
  | zero => intro s k q hq; exact ⟨q, hq, le_refl q⟩
  | succ fuel ih =>
      intro s k q hq
      obtain ⟨q1, hq1, hle1⟩ := bfPassAux_mono edges false s k q hq
      rcases hpass : bfPass edges s with ⟨s2, changed⟩
      have hq1' : mapGet s2.distances k = some q1 := by
        have : bfPassAux false s edges = (s2, changed) := hpass
        rw [this] at hq1
        exact hq1
      simp only [bfLoop, hpass]
      cases changed with
      | true =>
          obtain ⟨q', hq', hle'⟩ := ih s2 k q1 hq1'
          exact ⟨q', hq', le_trans hle' hle1⟩
      | false => exact ⟨q1, hq1', hle1⟩

/-- The distances reported by `bellmanFord` are those of its final state. -/
theorem bellmanFord_distances (n : SimpleTemporalNetwork) (source : String) :
    (bellmanFord n source).distances =
      (bfLoop n.getEdges (n.getVertices.length - 1)
        { distances := n.getVertices.map fun v =>
            (v, if v == source then some 0 else none),
          predecessors := n.getVertices.map fun v => (v, none),
          predecessorEdge := n.getVertices.map fun v => (v, none) }).distances := by
  unfold bellmanFord
  dsimp only
  split <;> rfl

/-- In a feasible run no edge is left relaxable: a finite source-endpoint
distance forces a finite target distance within the edge bound. -/
theorem bellmanFord_feasible_edges (n : SimpleTemporalNetwork) (source : String)
    (h : (bellmanFord n source).feasible = true) :
    ∀ e ∈ n.getEdges, ∀ qf,
      mapGet (bellmanFord n source).distances e.«from» = some qf →
      ∃ qt, mapGet (bellmanFord n source).distances e.«to» = some qt ∧
        qt ≤ qf + e.weight := by
  unfold bellmanFord at h ⊢
  dsimp only at h ⊢
  split at h
  next e0 heq => cases h
  next heq =>
      intro e he qf hqf
      have hnr := List.find?_eq_none.mp heq e he
      unfold bfRelaxable at hnr
      dsimp only at hqf ⊢
      rw [hqf] at hnr
      dsimp only at hnr
      cases hto : mapGet (bfLoop n.getEdges (n.getVertices.length - 1)
          { distances := n.getVertices.map fun v =>
              (v, if v == source then some 0 else none),
            predecessors := n.getVertices.map fun v => (v, none),
            predecessorEdge := n.getVertices.map fun v => (v, none) }).distances
          e.«to» with
      | none =>
          rw [hto] at hnr
          exact absurd rfl hnr
      | some distTo =>
          rw [hto] at hnr
          dsimp only at hnr
          refine ⟨distTo, rfl, ?_⟩
          exact not_lt.mp (fun hc => hnr (decide_eq_true hc))

/-- Adding a vertex that is present is a no-op. -/
theorem addVertex_of_has (m : SimpleTemporalNetwork) (v : String)
    (h : m.hasVertex v = true) : m.addVertex v = m := by
  unfold SimpleTemporalNetwork.addVertex
  rw [if_pos h]

/-- `addConstraint` keeps exactly the keys present after the two vertex
insertions. -/
theorem addConstraint_keys (m : SimpleTemporalNetwork) (c : DifferenceConstraint)
    (rid : Option String) :
    (m.addConstraint c rid).adj.map (·.1) =
      ((m.addVertex c.«from»).addVertex c.«to»).adj.map (·.1) := by
  unfold SimpleTemporalNetwork.addConstraint
  dsimp only
  rw [List.map_map]
  have : ((fun kb : String × List STNEdge => kb.1) ∘ fun kv =>
      if kv.1 == c.«from» then (kv.1, addEdgeToBucket c rid kv.2) else kv) =
      fun kb : String × List STNEdge => kb.1 := by
    funext kv
    by_cases hkv : (kv.1 == c.«from») = true
    · simp [Function.comp, hkv]
    · simp [Function.comp, hkv]
  rw [this]

/-- Vertices survive `addConstraint`. -/
theorem hasVertex_addConstraint_mono (m : SimpleTemporalNetwork)
    (c : DifferenceConstraint) (rid : Option String) (w : String)
    (h : m.hasVertex w = true) : (m.addConstraint c rid).hasVertex w = true := by
  have h1 := hasVertex_addVertex_mono _ c.«to» w
    (hasVertex_addVertex_mono _ c.«from» w h)
  rw [hasVertex_iff] at h1 ⊢
  obtain ⟨kb, hkb, hk⟩ := h1
  have : kb.1 ∈ (m.addConstraint c rid).adj.map (·.1) := by
    rw [addConstraint_keys]
    exact List.mem_map_of_mem _ hkb
  obtain ⟨kb2, hkb2, hk2⟩ := List.mem_map.mp this
  exact ⟨kb2, hkb2, by rw [hk2, hk]⟩

/-- Vertices survive `addConstraints`. -/
theorem hasVertex_addConstraints_mono :
    ∀ (cs : List DifferenceConstraint) (m : SimpleTemporalNetwork)
      (rid : Option String) (w : String),
      m.hasVertex w = true → (m.addConstraints cs rid).hasVertex w = true := by
  intro cs
  induction cs with
  | nil => intro m rid w h; exact h
  | cons c rest ih =>
      intro m rid w h
      unfold SimpleTemporalNetwork.addConstraints at ih ⊢
      rw [List.foldl_cons]
      exact ih _ rid w (hasVertex_addConstraint_mono m c rid w h)

/-- `addConstraints` preserves the construction invariant, extended by the
tagged constraints. -/
theorem addConstraints_netInv :
    ∀ (csnew : List DifferenceConstraint)
      (cs : List (DifferenceConstraint × Option String))
      (m : SimpleTemporalNetwork) (rid : Option String), netInv cs m →
      netInv (cs ++ csnew.map (fun c => (c, rid))) (m.addConstraints csnew rid) := by
  intro csnew
  induction csnew with
  | nil =>
      intro cs m rid h
      simpa [SimpleTemporalNetwork.addConstraints] using h
  | cons c rest ih =>
      intro cs m rid h
      unfold SimpleTemporalNetwork.addConstraints at ih ⊢
      rw [List.foldl_cons]
      have := ih (cs ++ [(c, rid)]) (m.addConstraint c rid) rid
        (addConstraint_netInv cs m c rid h)
      simpa [List.append_assoc] using this

/-- The network built from the input holds every node's start and end
variables as vertices, and satisfies the construction invariant for some
constraint history. -/
theorem buildNetwork_inv (nodes : List TimelineNode)
    (rels : List TemporalRelationship) :
    ∃ cs, netInv cs (buildNetwork nodes rels) ∧
      ∀ nd ∈ nodes,
        (buildNetwork nodes rels).hasVertex (nd.id ++ "_start") = true ∧
        (buildNetwork nodes rels).hasVertex (nd.id ++ "_end") = true := by
  have hfold1 : ∀ (ns : List TimelineNode) (m : SimpleTemporalNetwork)
      (cs : List (DifferenceConstraint × Option String)), netInv cs m →
      ∃ cs2, netInv (cs ++ cs2) (ns.foldl
        (fun network node =>
          let vars := getNodeVariables node.id
          let n1 := (network.addVertex vars.1).addVertex vars.2
          n1.addConstraints
            (getNodeInternalConstraints node.id
              (node.durationType == DurationType.interval))
            (some ("__internal_" ++ node.id))) m) ∧
      (∀ w, m.hasVertex w = true → (ns.foldl
        (fun network node =>
          let vars := getNodeVariables node.id
          let n1 := (network.addVertex vars.1).addVertex vars.2
          n1.addConstraints
            (getNodeInternalConstraints node.id
              (node.durationType == DurationType.interval))
            (some ("__internal_" ++ node.id))) m).hasVertex w = true) ∧
      ∀ nd ∈ ns, (ns.foldl
        (fun network node =>
          let vars := getNodeVariables node.id
          let n1 := (network.addVertex vars.1).addVertex vars.2
          n1.addConstraints
            (getNodeInternalConstraints node.id
              (node.durationType == DurationType.interval))
            (some ("__internal_" ++ node.id))) m).hasVertex (nd.id ++ "_start") = true ∧
        (ns.foldl
        (fun network node =>
          let vars := getNodeVariables node.id
          let n1 := (network.addVertex vars.1).addVertex vars.2
          n1.addConstraints
            (getNodeInternalConstraints node.id
              (node.durationType == DurationType.interval))
            (some ("__internal_" ++ node.id))) m).hasVertex (nd.id ++ "_end") = true := by
    intro ns
    induction ns with
    | nil =>
        intro m cs h
        exact ⟨[], by simpa using h, fun w hw => hw, fun nd hnd => absurd hnd (List.not_mem_nil nd)⟩
    | cons nd rest ih =>
        intro m cs h
        rw [List.foldl_cons]
        have hstep : netInv (cs ++ (getNodeInternalConstraints nd.id
            (nd.durationType == DurationType.interval)).map
              (fun c => (c, some ("__internal_" ++ nd.id)))) _ :=
          addConstraints_netInv _ cs
            ((m.addVertex (getNodeVariables nd.id).1).addVertex (getNodeVariables nd.id).2)
            (some ("__internal_" ++ nd.id))
            (addVertex_netInv cs _ _ (addVertex_netInv cs _ _ h))
        obtain ⟨cs2, hinv2, hmono2, hcov2⟩ := ih _ _ hstep
        refine ⟨_, by rw [List.append_assoc] at hinv2; exact hinv2, ?_, ?_⟩
        · intro w hw
          refine hmono2 w ?_
          exact hasVertex_addConstraints_mono _ _ _ w
            (hasVertex_addVertex_mono _ _ w (hasVertex_addVertex_mono _ _ w hw))
        · intro nd2 hnd2
          rcases List.mem_cons.mp hnd2 with rfl | hnd2
          · constructor
            · refine hmono2 _ ?_
              exact hasVertex_addConstraints_mono _ _ _ _
                (hasVertex_addVertex_mono _ _ _ (hasVertex_addVertex_self m _))
            · refine hmono2 _ ?_
              exact hasVertex_addConstraints_mono _ _ _ _
                (hasVertex_addVertex_self _ _)
          · exact hcov2 nd2 hnd2
  have hfold2 : ∀ (rs : List TemporalRelationship) (m : SimpleTemporalNetwork)
      (cs : List (DifferenceConstraint × Option String)), netInv cs m →
      ∃ cs2, netInv (cs ++ cs2) (rs.foldl
        (fun network rel =>
          network.addConstraints
            (allenToConstraints rel.sourceId rel.targetId rel.relation)
            (some rel.id)) m) ∧
      ∀ w, m.hasVertex w = true → (rs.foldl
        (fun network rel =>
          network.addConstraints
            (allenToConstraints rel.sourceId rel.targetId rel.relation)
            (some rel.id)) m).hasVertex w = true := by
    intro rs
    induction rs with
    | nil => intro m cs h; exact ⟨[], by simpa using h, fun w hw => hw⟩
    | cons rel rest ih =>
        intro m cs h
        rw [List.foldl_cons]
        have hstep := addConstraints_netInv
          (allenToConstraints rel.sourceId rel.targetId rel.relation) cs m
          (some rel.id) h
        obtain ⟨cs2, hinv2, hmono2⟩ := ih _ _ hstep
        refine ⟨_, by rw [List.append_assoc] at hinv2; exact hinv2, ?_⟩
        intro w hw
        exact hmono2 w (hasVertex_addConstraints_mono _ _ _ w hw)
  obtain ⟨cs1, hinv1, _, hcov1⟩ := hfold1 nodes SimpleTemporalNetwork.empty [] netInv_empty
  obtain ⟨cs2, hinv2, hmono2⟩ := hfold2 rels _ _ hinv1
  refine ⟨_, hinv2, ?_⟩
  intro nd hnd
  exact ⟨hmono2 _ (hcov1 nd hnd).1, hmono2 _ (hcov1 nd hnd).2⟩

/-- Vertex presence only depends on the key list. -/
theorem hasVertex_keys (m : SimpleTemporalNetwork) (v : String) :
    m.hasVertex v = (m.adj.map (·.1)).any (· == v) := by
  unfold SimpleTemporalNetwork.hasVertex
  induction m.adj with
  | nil => rfl
  | cons kv rest ih => simp [List.any_cons, ih]

/-- The virtual-source fold: invariant preservation, exact key preservation,
and a recorded zero-weight source constraint for every processed vertex. -/
theorem avs_fold :
    ∀ (vs : List String) (m : SimpleTemporalNetwork)
      (cs : List (DifferenceConstraint × Option String)),
      netInv cs m →
      m.hasVertex VIRTUAL_SOURCE = true →
      (∀ v ∈ vs, m.hasVertex v = true) →
      ∃ cs2, netInv (cs ++ cs2) (vs.foldl
          (fun m v => if v ≠ VIRTUAL_SOURCE then
            m.addConstraint ⟨VIRTUAL_SOURCE, v, 0⟩ none else m) m) ∧
        (vs.foldl
          (fun m v => if v ≠ VIRTUAL_SOURCE then
            m.addConstraint ⟨VIRTUAL_SOURCE, v, 0⟩ none else m) m).adj.map (·.1) =
          m.adj.map (·.1) ∧
        ∀ v ∈ vs, v ≠ VIRTUAL_SOURCE →
          ((⟨VIRTUAL_SOURCE, v, 0⟩ : DifferenceConstraint), (none : Option String)) ∈ cs2 := by
  intro vs
  induction vs with
  | nil =>
      intro m cs h _ _
      exact ⟨[], by simpa using h, rfl, fun v hv => absurd hv (List.not_mem_nil v)⟩
  | cons v rest ih =>
      intro m cs h hsv hall
      rw [List.foldl_cons]
      by_cases hv : v ≠ VIRTUAL_SOURCE
      · rw [if_pos hv]
        have hkeysstep : (m.addConstraint ⟨VIRTUAL_SOURCE, v, 0⟩ none).adj.map (·.1) =
            m.adj.map (·.1) := by
          rw [addConstraint_keys]
          dsimp only
          rw [addVertex_of_has m VIRTUAL_SOURCE hsv,
              addVertex_of_has m v (hall v (List.mem_cons_self _ _))]
        have htrans : ∀ w, (m.addConstraint ⟨VIRTUAL_SOURCE, v, 0⟩ none).hasVertex w =
            m.hasVertex w := by
          intro w
          rw [hasVertex_keys, hasVertex_keys, hkeysstep]
        obtain ⟨cs2, hinv2, hkeys2, hmem2⟩ :=
          ih (m.addConstraint ⟨VIRTUAL_SOURCE, v, 0⟩ none) (cs ++ [(⟨VIRTUAL_SOURCE, v, 0⟩, none)])
            (addConstraint_netInv cs m _ none h)
            (by rw [htrans]; exact hsv)
            (by intro w hw; rw [htrans]; exact hall w (List.mem_cons_of_mem _ hw))
        refine ⟨(⟨VIRTUAL_SOURCE, v, 0⟩, none) :: cs2, ?_, ?_, ?_⟩
        · rw [List.append_assoc] at hinv2
          simpa using hinv2
        · rw [hkeys2, hkeysstep]
        · intro w hw hwne
          rcases List.mem_cons.mp hw with rfl | hw
          · exact List.mem_cons_self _ _
          · exact List.mem_cons_of_mem _ (hmem2 w hw hwne)
      · rw [if_neg hv]
        obtain ⟨cs2, hinv2, hkeys2, hmem2⟩ := ih m cs h hsv
          (fun w hw => hall w (List.mem_cons_of_mem _ hw))
        refine ⟨cs2, hinv2, hkeys2, ?_⟩
        intro w hw hwne
        rcases List.mem_cons.mp hw with rfl | hw
        · exact absurd hwne hv
        · exact hmem2 w hw hwne

/-- `addVirtualSource` preserves the construction invariant, keeps exactly
the vertices plus the source, and records a zero-weight source constraint
for every other vertex. -/
theorem addVirtualSource_inv (n : SimpleTemporalNetwork)
    (cs : List (DifferenceConstraint × Option String)) (h : netInv cs n) :
    ∃ cs2, netInv (cs ++ cs2) (addVirtualSource n) ∧
      (addVirtualSource n).adj.map (·.1) =
        (n.addVertex VIRTUAL_SOURCE).adj.map (·.1) ∧
      ∀ v, (n.addVertex VIRTUAL_SOURCE).hasVertex v = true → v ≠ VIRTUAL_SOURCE →
        ((⟨VIRTUAL_SOURCE, v, 0⟩ : DifferenceConstraint), (none : Option String)) ∈ cs2 := by
  unfold addVirtualSource
  dsimp only
  have hn1 : netInv cs (n.addVertex VIRTUAL_SOURCE) := addVertex_netInv _ _ _ h
  have hsv := hasVertex_addVertex_self n VIRTUAL_SOURCE
  have hall : ∀ v ∈ (n.addVertex VIRTUAL_SOURCE).getVertices,
      (n.addVertex VIRTUAL_SOURCE).hasVertex v = true := by
    intro v hv
    rw [hasVertex_iff]
    simp only [SimpleTemporalNetwork.getVertices] at hv
    obtain ⟨kb, hkb, hk⟩ := List.mem_map.mp hv
    exact ⟨kb, hkb, hk⟩
  obtain ⟨cs2, hinv, hkeys, hmem⟩ :=
    avs_fold (n.addVertex VIRTUAL_SOURCE).getVertices _ cs hn1 hsv hall
  refine ⟨cs2, hinv, hkeys, ?_⟩
  intro v hv hne
  refine hmem v ?_ hne
  rw [hasVertex_iff] at hv
  obtain ⟨kb, hkb, hk⟩ := hv
  simp only [SimpleTemporalNetwork.getVertices]
  rw [← hk]
  exact List.mem_map_of_mem _ hkb

/-- Present vertices are listed. -/
theorem hasVertex_mem_getVertices (m : SimpleTemporalNetwork) (v : String)
    (h : m.hasVertex v = true) : v ∈ m.getVertices := by
  rw [hasVertex_iff] at h
  obtain ⟨kb, hkb, hk⟩ := h
  simp only [SimpleTemporalNetwork.getVertices]
  rw [← hk]
  exact List.mem_map_of_mem _ hkb

/-- A feasible consistency check over a source-augmented, invariant-built
network gives every vertex a finite distance at most 0. -/
theorem avs_feasible_bounds (n : SimpleTemporalNetwork)
    (cs : List (DifferenceConstraint × Option String)) (hinv : netInv cs n)
    (hfeas : (checkNetworkConsistency (addVirtualSource n)).feasible = true) :
    ∀ v ∈ (addVirtualSource n).getVertices,
      ∃ q : ℚ,
        mapGet (checkNetworkConsistency (addVirtualSource n)).distances v = some q ∧
        q ≤ 0 := by
  obtain ⟨cs2, hinvN, hkeys, hcov⟩ := addVirtualSource_inv n cs hinv
  have hsrcN : (addVirtualSource n).hasVertex VIRTUAL_SOURCE = true := by
    rw [hasVertex_keys, hkeys, ← hasVertex_keys]
    exact hasVertex_addVertex_self n VIRTUAL_SOURCE
  have hsrcmem := hasVertex_mem_getVertices _ _ hsrcN
  have hinit : mapGet ((addVirtualSource n).getVertices.map fun v =>
      (v, if v == VIRTUAL_SOURCE then some (0 : ℚ) else none)) VIRTUAL_SOURCE =
      some 0 := by
    rw [mapGet_of_mem_mapfn _ _ _ hsrcmem]
    simp
  obtain ⟨d0, hd0, hd0le⟩ := bfLoop_mono (addVirtualSource n).getEdges
    ((addVirtualSource n).getVertices.length - 1)
    { distances := (addVirtualSource n).getVertices.map fun v =>
        (v, if v == VIRTUAL_SOURCE then some (0 : ℚ) else none),
      predecessors := (addVirtualSource n).getVertices.map fun v => (v, none),
      predecessorEdge := (addVirtualSource n).getVertices.map fun v => (v, none) }
    VIRTUAL_SOURCE 0 hinit
  have hd0' : mapGet (checkNetworkConsistency
      (addVirtualSource n)).distances VIRTUAL_SOURCE = some d0 := by
    unfold checkNetworkConsistency
    rw [bellmanFord_distances]
    exact hd0
  intro v hvmem
  by_cases hvs : v = VIRTUAL_SOURCE
  · subst hvs
    exact ⟨d0, hd0', hd0le⟩
  · have hvN : (addVirtualSource n).hasVertex v = true := by
      rw [hasVertex_iff]
      simp only [SimpleTemporalNetwork.getVertices] at hvmem
      obtain ⟨kb, hkb, hk⟩ := List.mem_map.mp hvmem
      exact ⟨kb, hkb, hk⟩
    have hvn1 : (n.addVertex VIRTUAL_SOURCE).hasVertex v = true := by
      rw [hasVertex_keys] at hvN ⊢
      rw [hkeys] at hvN
      exact hvN
    have hc := hcov v hvn1 hvs
    obtain ⟨h1n, h1b, h1c⟩ := hinvN
    obtain ⟨kb, hkb, hk1, e, hekb, hev⟩ := h1c (⟨VIRTUAL_SOURCE, v, 0⟩, none)
      (List.mem_append_right _ hc)
    have hbk := h1b kb hkb
    have hef : e.«from» = VIRTUAL_SOURCE := by rw [hbk.1 e hekb, hk1]
    have hwle : e.weight ≤ 0 := by
      have := (hbk.2.2 e hekb).1 (⟨VIRTUAL_SOURCE, v, 0⟩, none)
        (List.mem_append_right _ hc) (by rw [hef]) (by rw [hev])
      simpa using this
    have heN : e ∈ (addVirtualSource n).getEdges :=
      (mem_getEdges _ e).mpr ⟨kb, hkb, hekb⟩
    obtain ⟨qt, hqt, hqtle⟩ := bellmanFord_feasible_edges (addVirtualSource n)
      VIRTUAL_SOURCE hfeas e heN d0 (by rw [hef]; exact hd0')
    have hev2 : e.«to» = v := by simpa using hev
    refine ⟨qt, ?_, ?_⟩
    · rw [← hev2]
      exact hqt
    · linarith

/-- The first pass keeps fully-finite map entries fully finite. -/
theorem cv_nv_pres (d : List (String × Option ℚ)) :
    ∀ (ns : List TimelineNode) (acc : List ℚ × List (String × (Option ℚ × Option ℚ)))
      (k : String),
      (∀ nd ∈ ns, (∃ q, mapGet d (nd.id ++ "_start") = some q) ∧
        ∃ q, mapGet d (nd.id ++ "_end") = some q) →
      (∃ s e, nvGet acc.2 k = some (some s, some e)) →
      ∃ s e, nvGet ((ns.foldl (cvStep d) acc)).2 k = some (some s, some e) := by
  intro ns
  induction ns with
  | nil => intro acc k _ h; exact h
  | cons nd rest ih =>
      intro acc k hfin h
      rw [List.foldl_cons]
      refine ih _ k (fun nd2 h2 => hfin nd2 (List.mem_cons_of_mem _ h2)) ?_
      obtain ⟨⟨qs, hqs⟩, ⟨qe, hqe⟩⟩ := hfin nd (List.mem_cons_self _ _)
      by_cases hk : k = nd.id
      · subst hk
        refine ⟨qs, qe, ?_⟩
        simp only [cvStep, getNodeVariables]
        rw [nvGet_set_eq, hqs, hqe]
      · obtain ⟨s, e, hse⟩ := h
        refine ⟨s, e, ?_⟩
        simp only [cvStep, getNodeVariables]
        rw [nvGet_set_ne _ _ _ _ hk]
        exact hse

/-- Every listed node ends with a fully finite map entry when every node's
variables have finite distances. -/
theorem cv_nv_covers (d : List (String × Option ℚ)) :
    ∀ (ns : List TimelineNode) (acc : List ℚ × List (String × (Option ℚ × Option ℚ)))
      (nd : TimelineNode), nd ∈ ns →
      (∀ nd' ∈ ns, (∃ q, mapGet d (nd'.id ++ "_start") = some q) ∧
        ∃ q, mapGet d (nd'.id ++ "_end") = some q) →
      ∃ s e, nvGet ((ns.foldl (cvStep d) acc)).2 nd.id = some (some s, some e) := by
  intro ns
  induction ns with
  | nil => intro acc nd hnd; cases hnd
  | cons nd0 rest ih =>
      intro acc nd hnd hfin
      rcases List.mem_cons.mp hnd with rfl | hnd2
      · rw [List.foldl_cons]
        refine cv_nv_pres d rest _ nd.id
          (fun nd2 h2 => hfin nd2 (List.mem_cons_of_mem _ h2)) ?_
        obtain ⟨⟨qs, hqs⟩, ⟨qe, hqe⟩⟩ := hfin nd (List.mem_cons_self _ _)
        refine ⟨qs, qe, ?_⟩
        simp only [cvStep, getNodeVariables]
        rw [nvGet_set_eq, hqs, hqe]
      · rw [List.foldl_cons]
        exact ih _ nd hnd2 (fun nd2 h2 => hfin nd2 (List.mem_cons_of_mem _ h2))

/-- A node whose map entry has a start value is always emitted, under its
own id. -/
theorem emitPosition_nodeId (f : ℚ → ℚ)
    (nv : List (String × (Option ℚ × Option ℚ))) (node : TimelineNode)
    (s : ℚ) (e : Option ℚ) (h : nvGet nv node.id = some (some s, e)) :
    ∃ p, emitPosition f nv node = some p ∧ p.nodeId = node.id := by
  unfold emitPosition
  rw [h]
  exact ⟨_, rfl, rfl⟩

/-- Mapping the id out of a totally-emitting `filterMap`. -/
theorem filterMap_total_map (g : TimelineNode → Option SolvedPosition) :
    ∀ ns : List TimelineNode,
      (∀ nd ∈ ns, ∃ p, g nd = some p ∧ p.nodeId = nd.id) →
      (ns.filterMap g).map (fun p => p.nodeId) = ns.map (fun nd => nd.id) := by
  intro ns
  induction ns with
  | nil => intro _; rfl
  | cons nd rest ih =>
      intro h
      obtain ⟨p, hp, hpid⟩ := h nd (List.mem_cons_self _ _)
      rw [List.filterMap_cons, hp, List.map_cons, List.map_cons,
        ih (fun nd2 h2 => h nd2 (List.mem_cons_of_mem _ h2)), hpid]

/-- Claim C10: once the virtual source is injected, a feasible Bellman-Ford
run from it gives every vertex a finite distance at most 0; consequently
`assignPositions` on the feasible result emits exactly one position per
input node, in order — the node-omission and even-spacing fallback branches
are not taken. -/
theorem C10_feasible_distances_and_positions (nodes : List TimelineNode)
    (rels : List TemporalRelationship)
    (hfeas : (checkNetworkConsistency
      (addVirtualSource (buildNetwork nodes rels))).feasible = true) :
    (∀ v ∈ (addVirtualSource (buildNetwork nodes rels)).getVertices,
      ∃ q : ℚ,
        mapGet (checkNetworkConsistency
          (addVirtualSource (buildNetwork nodes rels))).distances v = some q ∧
        q ≤ 0) ∧
    (assignPositions nodes (checkNetworkConsistency
      (addVirtualSource (buildNetwork nodes rels)))).map (fun p => p.nodeId) =
      nodes.map (fun nd => nd.id) := by
  obtain ⟨cs, hinv, hcov⟩ := buildNetwork_inv nodes rels
  have hbounds := avs_feasible_bounds _ cs hinv hfeas
  refine ⟨hbounds, ?_⟩
  obtain ⟨cs2, hinvN, hkeys, _⟩ := addVirtualSource_inv _ cs hinv
  have hvarN : ∀ w : String, (buildNetwork nodes rels).hasVertex w = true →
      w ∈ (addVirtualSource (buildNetwork nodes rels)).getVertices := by
    intro w hw
    apply hasVertex_mem_getVertices
    rw [hasVertex_keys, hkeys, ← hasVertex_keys]
    exact hasVertex_addVertex_mono _ _ _ hw
  have hfin : ∀ nd ∈ nodes,
      (∃ q, mapGet (checkNetworkConsistency
        (addVirtualSource (buildNetwork nodes rels))).distances
        (nd.id ++ "_start") = some q) ∧
      ∃ q, mapGet (checkNetworkConsistency
        (addVirtualSource (buildNetwork nodes rels))).distances
        (nd.id ++ "_end") = some q := by
    intro nd hnd
    obtain ⟨hs, he⟩ := hcov nd hnd
    obtain ⟨qs, hqs, _⟩ := hbounds _ (hvarN _ hs)
    obtain ⟨qe, hqe, _⟩ := hbounds _ (hvarN _ he)
    exact ⟨⟨qs, hqs⟩, ⟨qe, hqe⟩⟩
  by_cases hnodes : nodes = []
  · subst hnodes
    simp [assignPositions]
  · have hvals : ∃ v0 vrest, (collectValues nodes (checkNetworkConsistency
        (addVirtualSource (buildNetwork nodes rels))).distances).1 = v0 :: vrest := by
      cases hcv : (collectValues nodes (checkNetworkConsistency
          (addVirtualSource (buildNetwork nodes rels))).distances).1 with
      | cons v0 vrest => exact ⟨v0, vrest, rfl⟩
      | nil =>
          obtain ⟨nd0, rest, hnd0⟩ : ∃ nd0 rest, nodes = nd0 :: rest := by
            cases nodes with
            | nil => exact absurd rfl hnodes
            | cons a l => exact ⟨a, l, rfl⟩
          obtain ⟨⟨qs, hqs⟩, _⟩ := hfin nd0 (by rw [hnd0]; exact List.mem_cons_self _ _)
          have hmem := collectValues_mem_start _ nodes nd0
            (by rw [hnd0]; exact List.mem_cons_self _ _) qs hqs
          rw [hcv] at hmem
          cases hmem
    obtain ⟨v0, vrest, hv⟩ := hvals
    rw [assignPositions_eq_filterMap nodes _ DEFAULT_SCALE v0 vrest hv]
    apply filterMap_total_map
    intro nd hnd
    obtain ⟨s, e, hse⟩ := cv_nv_covers _ nodes ([], []) nd hnd hfin
    exact emitPosition_nodeId _ _ nd s (some e) hse

/-- Concrete instantiation: a single instant with no assertions is feasible
and receives exactly one position, labelled with its id. -/
theorem C10_feasible_distances_and_positions_witness :
    (checkNetworkConsistency (addVirtualSource
      (buildNetwork [⟨"A", DurationType.instant⟩] []))).feasible = true ∧
    (assignPositions [⟨"A", DurationType.instant⟩]
      (checkNetworkConsistency (addVirtualSource
        (buildNetwork [⟨"A", DurationType.instant⟩] [])))).map (fun p => p.nodeId) =
      ([⟨"A", DurationType.instant⟩] : List TimelineNode).map (fun nd => nd.id) :=
  ⟨by with_unfolding_all decide,
   (C10_feasible_distances_and_positions [⟨"A", DurationType.instant⟩] []
     (by with_unfolding_all decide)).2⟩

/-! ### Claim C1 -/

/-- If every emitted difference constraint of a relation is satisfied by a
valuation, the relation's Allen semantics hold on that valuation. -/
theorem allenSem_of_constraints (A B : String) (rel : AllenRelation)
    (val : String → ℚ)
    (h : ∀ c ∈ allenToConstraints A B rel, val c.«to» ≤ val c.«from» + c.maxDiff) :
    allenSemHolds rel (val (A ++ "_start")) (val (A ++ "_end"))
      (val (B ++ "_start")) (val (B ++ "_end")) := by
  have heps : (0 : ℚ) < EPSILON := by norm_num [EPSILON]
  cases rel with
  | before =>
      have h1 := h _ (List.mem_cons_self _ _)
      simp only [allenSemHolds]
      simp only [getNodeVariables] at h1
      linarith
  | after =>
      have h1 := h _ (List.mem_cons_self _ _)
      simp only [allenSemHolds]
      simp only [getNodeVariables] at h1
      linarith
  | meets =>
      have h1 := h _ (List.mem_cons_self _ _)
      have h2 := h _ (List.mem_cons_of_mem _ (List.mem_cons_self _ _))
      simp only [allenSemHolds]
      simp only [getNodeVariables] at h1 h2
      linarith
  | metBy =>
      have h1 := h _ (List.mem_cons_self _ _)
      have h2 := h _ (List.mem_cons_of_mem _ (List.mem_cons_self _ _))
      simp only [allenSemHolds]
      simp only [getNodeVariables] at h1 h2
      linarith
  | overlaps =>
      have h1 := h _ (List.mem_cons_self _ _)
      have h2 := h _ (List.mem_cons_of_mem _ (List.mem_cons_self _ _))
      have h3 := h _ (List.mem_cons_of_mem _ (List.mem_cons_of_mem _
        (List.mem_cons_self _ _)))
      simp only [allenSemHolds]
      simp only [getNodeVariables] at h1 h2 h3
      exact ⟨by linarith, by linarith, by linarith⟩
  | overlappedBy =>
      have h1 := h _ (List.mem_cons_self _ _)
      have h2 := h _ (List.mem_cons_of_mem _ (List.mem_cons_self _ _))
      have h3 := h _ (List.mem_cons_of_mem _ (List.mem_cons_of_mem _
        (List.mem_cons_self _ _)))
      simp only [allenSemHolds]
      simp only [getNodeVariables] at h1 h2 h3
      exact ⟨by linarith, by linarith, by linarith⟩
  | starts =>
      have h1 := h _ (List.mem_cons_self _ _)
      have h2 := h _ (List.mem_cons_of_mem _ (List.mem_cons_self _ _))
      have h3 := h _ (List.mem_cons_of_mem _ (List.mem_cons_of_mem _
        (List.mem_cons_self _ _)))
      simp only [allenSemHolds]
      simp only [getNodeVariables] at h1 h2 h3
      exact ⟨by linarith, by linarith⟩
  | startedBy =>
      have h1 := h _ (List.mem_cons_self _ _)
      have h2 := h _ (List.mem_cons_of_mem _ (List.mem_cons_self _ _))
      have h3 := h _ (List.mem_cons_of_mem _ (List.mem_cons_of_mem _
        (List.mem_cons_self _ _)))
      simp only [allenSemHolds]
      simp only [getNodeVariables] at h1 h2 h3
      exact ⟨by linarith, by linarith⟩
  | finishes =>
      have h1 := h _ (List.mem_cons_self _ _)
      have h2 := h _ (List.mem_cons_of_mem _ (List.mem_cons_self _ _))
      have h3 := h _ (List.mem_cons_of_mem _ (List.mem_cons_of_mem _
        (List.mem_cons_self _ _)))
      simp only [allenSemHolds]
      simp only [getNodeVariables] at h1 h2 h3
      exact ⟨by linarith, by linarith⟩
  | finishedBy =>
      have h1 := h _ (List.mem_cons_self _ _)
      have h2 := h _ (List.mem_cons_of_mem _ (List.mem_cons_self _ _))
      have h3 := h _ (List.mem_cons_of_mem _ (List.mem_cons_of_mem _
        (List.mem_cons_self _ _)))
      simp only [allenSemHolds]
      simp only [getNodeVariables] at h1 h2 h3
      exact ⟨by linarith, by linarith⟩
  | during =>
      have h1 := h _ (List.mem_cons_self _ _)
      have h2 := h _ (List.mem_cons_of_mem _ (List.mem_cons_self _ _))
      simp only [allenSemHolds]
      simp only [getNodeVariables] at h1 h2
      exact ⟨by linarith, by linarith⟩
  | contains =>
      have h1 := h _ (List.mem_cons_self _ _)
      have h2 := h _ (List.mem_cons_of_mem _ (List.mem_cons_self _ _))
      simp only [allenSemHolds]
      simp only [getNodeVariables] at h1 h2
      exact ⟨by linarith, by linarith⟩
  | equals =>
      have h1 := h _ (List.mem_cons_self _ _)
      have h2 := h _ (List.mem_cons_of_mem _ (List.mem_cons_self _ _))
      have h3 := h _ (List.mem_cons_of_mem _ (List.mem_cons_of_mem _
        (List.mem_cons_self _ _)))
      have h4 := h _ (List.mem_cons_of_mem _ (List.mem_cons_of_mem _
        (List.mem_cons_of_mem _ (List.mem_cons_self _ _))))
      simp only [allenSemHolds]
      simp only [getNodeVariables] at h1 h2 h3 h4
      exact ⟨by linarith, by linarith⟩


/-- Like `buildNetwork_inv`, but also recording that every relationship's
emitted constraints are in the construction history, tagged with the
relationship's id. -/
theorem buildNetwork_full_inv (nodes : List TimelineNode)
    (rels : List TemporalRelationship) :
    ∃ cs, netInv cs (buildNetwork nodes rels) ∧
      (∀ nd ∈ nodes,
        (buildNetwork nodes rels).hasVertex (nd.id ++ "_start") = true ∧
        (buildNetwork nodes rels).hasVertex (nd.id ++ "_end") = true) ∧
      ∀ rel ∈ rels, ∀ c ∈ allenToConstraints rel.sourceId rel.targetId rel.relation,
        (c, some rel.id) ∈ cs := by
  have hfold1 : ∀ (ns : List TimelineNode) (m : SimpleTemporalNetwork)
      (cs : List (DifferenceConstraint × Option String)), netInv cs m →
      ∃ cs2, netInv (cs ++ cs2) (ns.foldl
        (fun network node =>
          let vars := getNodeVariables node.id
          let n1 := (network.addVertex vars.1).addVertex vars.2
          n1.addConstraints
            (getNodeInternalConstraints node.id
              (node.durationType == DurationType.interval))
            (some ("__internal_" ++ node.id))) m) ∧
      (∀ w, m.hasVertex w = true → (ns.foldl
        (fun network node =>
          let vars := getNodeVariables node.id
          let n1 := (network.addVertex vars.1).addVertex vars.2
          n1.addConstraints
            (getNodeInternalConstraints node.id
              (node.durationType == DurationType.interval))
            (some ("__internal_" ++ node.id))) m).hasVertex w = true) ∧
      ∀ nd ∈ ns, (ns.foldl
        (fun network node =>
          let vars := getNodeVariables node.id
          let n1 := (network.addVertex vars.1).addVertex vars.2
          n1.addConstraints
            (getNodeInternalConstraints node.id
              (node.durationType == DurationType.interval))
            (some ("__internal_" ++ node.id))) m).hasVertex (nd.id ++ "_start") = true ∧
        (ns.foldl
        (fun network node =>
          let vars := getNodeVariables node.id
          let n1 := (network.addVertex vars.1).addVertex vars.2
          n1.addConstraints
            (getNodeInternalConstraints node.id
              (node.durationType == DurationType.interval))
            (some ("__internal_" ++ node.id))) m).hasVertex (nd.id ++ "_end") = true := by
    intro ns
    induction ns with
    | nil =>
        intro m cs h
        exact ⟨[], by simpa using h, fun w hw => hw,
          fun nd hnd => absurd hnd (List.not_mem_nil nd)⟩
    | cons nd rest ih =>
        intro m cs h
        rw [List.foldl_cons]
        have hstep : netInv (cs ++ (getNodeInternalConstraints nd.id
            (nd.durationType == DurationType.interval)).map
              (fun c => (c, some ("__internal_" ++ nd.id)))) _ :=
          addConstraints_netInv _ cs
            ((m.addVertex (getNodeVariables nd.id).1).addVertex (getNodeVariables nd.id).2)
            (some ("__internal_" ++ nd.id))
            (addVertex_netInv cs _ _ (addVertex_netInv cs _ _ h))
        obtain ⟨cs2, hinv2, hmono2, hcov2⟩ := ih _ _ hstep
        refine ⟨_, by rw [List.append_assoc] at hinv2; exact hinv2, ?_, ?_⟩
        · intro w hw
          refine hmono2 w ?_
          exact hasVertex_addConstraints_mono _ _ _ w
            (hasVertex_addVertex_mono _ _ w (hasVertex_addVertex_mono _ _ w hw))
        · intro nd2 hnd2
          rcases List.mem_cons.mp hnd2 with rfl | hnd2
          · constructor
            · refine hmono2 _ ?_
              exact hasVertex_addConstraints_mono _ _ _ _
                (hasVertex_addVertex_mono _ _ _ (hasVertex_addVertex_self m _))
            · refine hmono2 _ ?_
              exact hasVertex_addConstraints_mono _ _ _ _
                (hasVertex_addVertex_self _ _)
          · exact hcov2 nd2 hnd2
  have hfold2 : ∀ (rs : List TemporalRelationship) (m : SimpleTemporalNetwork)
      (cs : List (DifferenceConstraint × Option String)), netInv cs m →
      ∃ cs2, netInv (cs ++ cs2) (rs.foldl
        (fun network rel =>
          network.addConstraints
            (allenToConstraints rel.sourceId rel.targetId rel.relation)
            (some rel.id)) m) ∧
      (∀ w, m.hasVertex w = true → (rs.foldl
        (fun network rel =>
          network.addConstraints
            (allenToConstraints rel.sourceId rel.targetId rel.relation)
            (some rel.id)) m).hasVertex w = true) ∧
      ∀ rel ∈ rs, ∀ c ∈ allenToConstraints rel.sourceId rel.targetId rel.relation,
        (c, some rel.id) ∈ cs2 := by
    intro rs
    induction rs with
    | nil =>
        intro m cs h
        exact ⟨[], by simpa using h, fun w hw => hw,
          fun rel hrel => absurd hrel (List.not_mem_nil rel)⟩
    | cons rel rest ih =>
        intro m cs h
        rw [List.foldl_cons]
        have hstep := addConstraints_netInv
          (allenToConstraints rel.sourceId rel.targetId rel.relation) cs m
          (some rel.id) h
        obtain ⟨cs2, hinv2, hmono2, hmem2⟩ := ih _ _ hstep
        refine ⟨(allenToConstraints rel.sourceId rel.targetId rel.relation).map
          (fun c => (c, some rel.id)) ++ cs2, ?_, ?_, ?_⟩
        · rw [List.append_assoc] at hinv2
          exact hinv2
        · intro w hw
          exact hmono2 w (hasVertex_addConstraints_mono _ _ _ w hw)
        · intro rel2 hrel2 c hc
          rcases List.mem_cons.mp hrel2 with rfl | hrel2
          · exact List.mem_append_left _ (List.mem_map_of_mem _ hc)
          · exact List.mem_append_right _ (hmem2 rel2 hrel2 c hc)
  obtain ⟨cs1, hinv1, _, hcov1⟩ := hfold1 nodes SimpleTemporalNetwork.empty [] netInv_empty
  obtain ⟨cs2, hinv2, hmono2, hmem2⟩ := hfold2 rels _ _ hinv1
  refine ⟨_, hinv2, ?_, ?_⟩
  · intro nd hnd
    exact ⟨hmono2 _ (hcov1 nd hnd).1, hmono2 _ (hcov1 nd hnd).2⟩
  · intro rel hrel c hc
    exact List.mem_append_right _ (hmem2 rel hrel c hc)

/-- Every constraint in the construction history is satisfied by a feasible
run's distances: both endpoints get finite distances within the bound. -/
theorem network_constraint_sat (n : SimpleTemporalNetwork)
    (cs : List (DifferenceConstraint × Option String)) (hinv : netInv cs n)
    (hfeas : (checkNetworkConsistency (addVirtualSource n)).feasible = true)
    (c : DifferenceConstraint) (rid : Option String) (hc : (c, rid) ∈ cs) :
    ∃ qf qt : ℚ,
      mapGet (checkNetworkConsistency (addVirtualSource n)).distances c.«from» =
        some qf ∧
      mapGet (checkNetworkConsistency (addVirtualSource n)).distances c.«to» =
        some qt ∧
      qt ≤ qf + c.maxDiff := by
  obtain ⟨cs2, hinvN, _, _⟩ := addVirtualSource_inv n cs hinv
  obtain ⟨h1n, h1b, h1c⟩ := hinvN
  obtain ⟨kb, hkb, hk1, e, hekb, hev⟩ := h1c (c, rid) (List.mem_append_left _ hc)
  have hbk := h1b kb hkb
  have hk1' : kb.1 = c.«from» := by simpa using hk1
  have hev' : e.«to» = c.«to» := by simpa using hev
  have hef : e.«from» = c.«from» := by rw [hbk.1 e hekb, hk1']
  have hwle : e.weight ≤ c.maxDiff := by
    have := (hbk.2.2 e hekb).1 (c, rid) (List.mem_append_left _ hc)
      (by simpa using hef.symm) (by simpa using hev'.symm)
    simpa using this
  have heN : e ∈ (addVirtualSource n).getEdges :=
    (mem_getEdges _ e).mpr ⟨kb, hkb, hekb⟩
  have hvmem : c.«from» ∈ (addVirtualSource n).getVertices := by
    simp only [SimpleTemporalNetwork.getVertices]
    rw [← hk1']
    exact List.mem_map_of_mem _ hkb
  obtain ⟨qf, hqf, _⟩ := avs_feasible_bounds n cs hinv hfeas _ hvmem
  obtain ⟨qt, hqt, hle⟩ := bellmanFord_feasible_edges (addVirtualSource n)
    VIRTUAL_SOURCE hfeas e heN qf (by rw [hef]; exact hqf)
  refine ⟨qf, qt, hqf, ?_, by linarith⟩
  rw [← hev']
  exact hqt

/-- De-duplication keeps every element. -/
theorem mem_dedupIds (l : List String) (x : String) (hx : x ∈ l) :
    x ∈ dedupIds l := by
  unfold dedupIds
  suffices h : ∀ (l2 : List String) (acc : List String), (x ∈ acc ∨ x ∈ l2) →
      x ∈ l2.foldl (fun acc x => if x ∈ acc then acc else acc ++ [x]) acc by
    exact h l [] (Or.inr hx)
  intro l2
  induction l2 with
  | nil =>
      intro acc h
      rcases h with h | h
      · exact h
      · cases h
  | cons y ys ih =>
      intro acc h
      rw [List.foldl_cons]
      have hsub : ∀ z ∈ acc, z ∈ (if y ∈ acc then acc else acc ++ [y]) := by
        intro z hz
        by_cases hy : y ∈ acc
        · rw [if_pos hy]; exact hz
        · rw [if_neg hy]; exact List.mem_append_left _ hz
      rcases h with h | h
      · exact ih _ (Or.inl (hsub x h))
      · rcases List.mem_cons.mp h with rfl | h
        · refine ih _ (Or.inl ?_)
          by_cases hy : x ∈ acc
          · rw [if_pos hy]; exact hy
          · rw [if_neg hy]
            exact List.mem_append_right _ (List.mem_singleton_self _)
        · exact ih _ (Or.inr h)

/-- The relaxation loop keeps its network in lockstep with the still-active
assertion set, and never loses an assertion: each ends active or discarded. -/
theorem relaxGo_sound (nodes : List TimelineNode) (rels : List TemporalRelationship)
    (sorted : List WeightedRelationship) :
    ∀ (fuel : Nat) (active violated : List String)
      (network : SimpleTemporalNetwork) (iters : Nat),
      network = addVirtualSource (buildNetwork nodes
        (rels.filter fun r => active.contains r.id)) →
      (∀ r ∈ rels, r.id ∈ active ∨ r.id ∈ violated) →
      (relaxGo nodes rels sorted fuel active violated network iters).network =
        addVirtualSource (buildNetwork nodes (rels.filter fun r =>
          (relaxGo nodes rels sorted fuel active violated network
            iters).satisfiedRelationshipIds.contains r.id)) ∧
      ∀ r ∈ rels,
        r.id ∈ (relaxGo nodes rels sorted fuel active violated network
          iters).satisfiedRelationshipIds ∨
        r.id ∈ (relaxGo nodes rels sorted fuel active violated network
          iters).violatedRelationshipIds := by
  intro fuel
  induction fuel with
  | zero =>
      intro active violated network iters hnet hsplit
      exact ⟨hnet, hsplit⟩
  | succ fuel ih =>
      intro active violated network iters hnet hsplit
      simp only [relaxGo]
      by_cases hf : (checkNetworkConsistency network).feasible = true
      · rw [if_pos hf]
        exact ⟨hnet, hsplit⟩
      · rw [if_neg hf]
        cases hc : (checkNetworkConsistency network).conflictingRelationshipIds with
        | none => exact ⟨hnet, hsplit⟩
        | some conflictIds =>
            simp only []
            by_cases he : conflictIds.isEmpty = true
            · rw [if_pos he]
              exact ⟨hnet, hsplit⟩
            · rw [if_neg he]
              cases hpick : pickToRemove sorted conflictIds active with
              | none => exact ⟨hnet, hsplit⟩
              | some toRemove =>
                  simp only []
                  refine ih (active.erase toRemove) (violated ++ [toRemove]) _ _ rfl ?_
                  intro r hr
                  rcases hsplit r hr with hra | hrv
                  · by_cases hrt : r.id = toRemove
                    · right
                      exact List.mem_append_right _ (by rw [hrt]; exact List.mem_singleton_self _)
                    · left
                      exact List.mem_erase_of_ne hrt |>.mpr hra
                  · right
                    exact List.mem_append_left _ hrv

/-- The relaxation entry point: final network in lockstep with the final
active set, and every assertion ends active or discarded. -/
theorem relaxConstraints_sound (nodes : List TimelineNode)
    (rels : List TemporalRelationship) (m : Nat) :
    (relaxConstraints nodes rels m).network =
      addVirtualSource (buildNetwork nodes (rels.filter fun r =>
        (relaxConstraints nodes rels m).satisfiedRelationshipIds.contains r.id)) ∧
    ∀ r ∈ rels,
      r.id ∈ (relaxConstraints nodes rels m).satisfiedRelationshipIds ∨
      r.id ∈ (relaxConstraints nodes rels m).violatedRelationshipIds := by
  unfold relaxConstraints
  dsimp only
  apply relaxGo_sound
  · have hfil : rels.filter (fun r =>
        (dedupIds (rels.map (·.id))).contains r.id) = rels := by
      refine List.filter_eq_self.mpr ?_
      intro r hr
      exact List.elem_eq_true_of_mem
        (mem_dedupIds _ _ (List.mem_map_of_mem _ hr))
    rw [hfil]
  · intro r hr
    exact Or.inl (mem_dedupIds _ _ (List.mem_map_of_mem _ hr))

/-- Claim C1, amended: when `solve` (on nonempty input) does not report
unsatisfiable, every input assertion whose id is absent from the returned
violations has its Allen semantics hold — strict inequalities strictly,
equalities exactly — on the final propagation's distance solution, whose
values at the assertion's constrained variables are all finite.  The ε-slack
soundness claimed for the rendered positions does not survive the rendering
stage: the minimum-interval-width extension can displace end coordinates by
up to MIN_INTERVAL_WIDTH, far beyond ε (see the counterexample). -/
theorem C1_solution_soundness (input : SolverInput)
    (hn : input.nodes ≠ []) (hr : input.relationships ≠ [])
    (hstat : (solve input).status ≠ SolverStatus.unsatisfiable)
    (rel : TemporalRelationship) (hrel : rel ∈ input.relationships)
    (hnv : rel.id ∉ (solve input).violations.map (fun v => v.relationshipId)) :
    ∃ d : String → ℚ,
      (∀ c ∈ allenToConstraints rel.sourceId rel.targetId rel.relation,
        mapGet (relaxConstraints input.nodes
          input.relationships).bellmanFordResult.distances c.«from» =
            some (d c.«from») ∧
        mapGet (relaxConstraints input.nodes
          input.relationships).bellmanFordResult.distances c.«to» =
            some (d c.«to») ∧
        d c.«to» ≤ d c.«from» + c.maxDiff) ∧
      allenSemHolds rel.relation
        (d (rel.sourceId ++ "_start")) (d (rel.sourceId ++ "_end"))
        (d (rel.targetId ++ "_start")) (d (rel.targetId ++ "_end")) := by
  have hne : input.nodes.isEmpty = false := by
    cases hnn : input.nodes with
    | nil => exact absurd hnn hn
    | cons a l => rfl
  have hre : input.relationships.isEmpty = false := by
    cases hrr : input.relationships with
    | nil => exact absurd hrr hr
    | cons a l => rfl
  have hsolve : solve input = buildSolverResult input.nodes input.relationships
      (relaxConstraints input.nodes input.relationships) := by
    unfold solve
    rw [if_neg (by rw [hne]; exact Bool.false_ne_true),
       if_neg (by rw [hre]; exact Bool.false_ne_true)]
  have hfeas : (relaxConstraints input.nodes
      input.relationships).bellmanFordResult.feasible = true := by
    cases hb : (relaxConstraints input.nodes
        input.relationships).bellmanFordResult.feasible with
    | true => rfl
    | false =>
        exfalso
        apply hstat
        rw [hsolve]
        unfold buildSolverResult
        dsimp only
        rw [hb]
        simp
  have hgen : ∀ (g : String → ConstraintViolation),
      (∀ id, (g id).relationshipId = id) →
      ∀ l : List String, (l.map g).map (fun v => v.relationshipId) = l := by
    intro g hg l
    induction l with
    | nil => rfl
    | cons a l ih => simp only [List.map_cons, hg, ih]
  have hnvID : rel.id ∉ (relaxConstraints input.nodes
      input.relationships).violatedRelationshipIds := by
    intro hmem
    apply hnv
    rw [hsolve]
    unfold buildSolverResult
    dsimp only
    rw [hgen _ ?hprop]
    · exact hmem
    case hprop =>
      intro id
      dsimp only
      cases input.relationships.find? (fun r => r.id == id) <;> rfl
  obtain ⟨hnetR, hsplitR⟩ :=
    relaxConstraints_sound input.nodes input.relationships 100
  have hsat : rel.id ∈ (relaxConstraints input.nodes
      input.relationships).satisfiedRelationshipIds :=
    (hsplitR rel hrel).resolve_right hnvID
  have hrelA : rel ∈ input.relationships.filter (fun r =>
      (relaxConstraints input.nodes
        input.relationships).satisfiedRelationshipIds.contains r.id) :=
    List.mem_filter.mpr ⟨hrel, List.elem_eq_true_of_mem hsat⟩
  obtain ⟨cs, hinvA, _, hmemA⟩ := buildNetwork_full_inv input.nodes
    (input.relationships.filter (fun r =>
      (relaxConstraints input.nodes
        input.relationships).satisfiedRelationshipIds.contains r.id))
  have hbr := relaxConstraints_br input.nodes input.relationships 100
  have hbd : (relaxConstraints input.nodes
      input.relationships).bellmanFordResult =
      checkNetworkConsistency (addVirtualSource (buildNetwork input.nodes
        (input.relationships.filter (fun r =>
          (relaxConstraints input.nodes
            input.relationships).satisfiedRelationshipIds.contains r.id)))) := by
    rw [hbr, hnetR]
  have hfeasN : (checkNetworkConsistency (addVirtualSource (buildNetwork
      input.nodes (input.relationships.filter (fun r =>
        (relaxConstraints input.nodes
          input.relationships).satisfiedRelationshipIds.contains
            r.id))))).feasible = true := by
    rw [← hbd]
    exact hfeas
  have hsatc : ∀ c ∈ allenToConstraints rel.sourceId rel.targetId rel.relation,
      ∃ qf qt : ℚ,
        mapGet (relaxConstraints input.nodes
          input.relationships).bellmanFordResult.distances c.«from» = some qf ∧
        mapGet (relaxConstraints input.nodes
          input.relationships).bellmanFordResult.distances c.«to» = some qt ∧
        qt ≤ qf + c.maxDiff := by
    intro c hcmem
    rw [hbd]
    exact network_constraint_sat _ cs hinvA hfeasN c (some rel.id)
      (hmemA rel hrelA c hcmem)
  refine ⟨fun k => (mapGet (relaxConstraints input.nodes
    input.relationships).bellmanFordResult.distances k).getD 0, ?_, ?_⟩
  · intro c hcmem
    obtain ⟨qf, qt, h1, h2, h3⟩ := hsatc c hcmem
    refine ⟨?_, ?_, ?_⟩
    · simp only [h1, Option.getD_some]
    · simp only [h2, Option.getD_some]
    · simp only [h1, h2, Option.getD_some]
      exact h3
  · refine allenSem_of_constraints rel.sourceId rel.targetId rel.relation
      (fun k => (mapGet (relaxConstraints input.nodes
        input.relationships).bellmanFordResult.distances k).getD 0) ?_
    intro c hcmem
    obtain ⟨qf, qt, h1, h2, h3⟩ := hsatc c hcmem
    simp only [h1, h2, Option.getD_some]
    exact h3

/-- Concrete instantiation: two intervals with an explicit `meets` assertion
solve without violations, and the meets semantics hold exactly on the
propagation's distances. -/
theorem C1_solution_soundness_witness :
    ((solve ⟨[⟨"A", DurationType.interval⟩, ⟨"B", DurationType.interval⟩],
        [⟨"r1", "A", "B", AllenRelation.meets,
          ConfidenceLevel.explicitLevel⟩]⟩).status ≠
      SolverStatus.unsatisfiable) ∧
    ∃ d : String → ℚ,
      (∀ c ∈ allenToConstraints "A" "B" AllenRelation.meets,
        mapGet (relaxConstraints
          [⟨"A", DurationType.interval⟩, ⟨"B", DurationType.interval⟩]
          [⟨"r1", "A", "B", AllenRelation.meets,
            ConfidenceLevel.explicitLevel⟩]).bellmanFordResult.distances c.«from» =
            some (d c.«from») ∧
        mapGet (relaxConstraints
          [⟨"A", DurationType.interval⟩, ⟨"B", DurationType.interval⟩]
          [⟨"r1", "A", "B", AllenRelation.meets,
            ConfidenceLevel.explicitLevel⟩]).bellmanFordResult.distances c.«to» =
            some (d c.«to») ∧
        d c.«to» ≤ d c.«from» + c.maxDiff) ∧
      allenSemHolds AllenRelation.meets
        (d ("A" ++ "_start")) (d ("A" ++ "_end"))
        (d ("B" ++ "_start")) (d ("B" ++ "_end")) :=
  ⟨by with_unfolding_all decide,
   C1_solution_soundness
     ⟨[⟨"A", DurationType.interval⟩, ⟨"B", DurationType.interval⟩],
      [⟨"r1", "A", "B", AllenRelation.meets, ConfidenceLevel.explicitLevel⟩]⟩
     (by decide) (by decide)
     (by with_unfolding_all decide)
     ⟨"r1", "A", "B", AllenRelation.meets, ConfidenceLevel.explicitLevel⟩
     (List.mem_cons_self _ _)
     (by with_unfolding_all decide)⟩

/-- A pass started with the change flag set reports a change. -/
theorem bfPassAux_true : ∀ (es : List STNEdge) (s : BFState),
    (bfPassAux true s es).2 = true := by
  intro es
  induction es with
  | nil => intro s; rfl
  | cons e rest ih =>
      intro s
      simp only [bfPassAux]
      rcases hstep : bfStep s e with ⟨s2, ch⟩
      have : (if ch then true else true) = true := by cases ch <;> rfl
      rw [this]
      exact ih s2

/-- An unchanged relaxation step leaves the state untouched. -/
theorem bfStep_false (s : BFState) (e : STNEdge) (h : (bfStep s e).2 = false) :
    (bfStep s e).1 = s := by
  unfold bfStep at h ⊢
  cases hfrom : mapGet s.distances e.«from» with
  | none => rfl
  | some distFrom =>
      rw [hfrom] at h
      dsimp only at h ⊢
      by_cases hrel : (match mapGet s.distances e.«to» with
          | none => true
          | some distTo => decide (distFrom + e.weight < distTo)) = true
      · rw [if_pos hrel] at h
        cases h
      · rw [if_neg hrel]

/-- An unchanged relaxation step means the edge is not relaxable. -/
theorem bfStep_not_relax (s : BFState) (e : STNEdge)
    (h : (bfStep s e).2 = false) : bfRelaxable s e = false := by
  unfold bfStep at h
  unfold bfRelaxable
  cases hfrom : mapGet s.distances e.«from» with
  | none => rfl
  | some distFrom =>
      rw [hfrom] at h
      dsimp only at h ⊢
      by_cases hrel : (match mapGet s.distances e.«to» with
          | none => true
          | some distTo => decide (distFrom + e.weight < distTo)) = true
      · rw [if_pos hrel] at h
        cases h
      · cases hto : mapGet s.distances e.«to» with
        | none =>
            rw [hto] at hrel
            exact absurd rfl hrel
        | some distTo =>
            rw [hto] at hrel
            simpa using hrel

/-- A changeless pass leaves the state untouched and certifies that no edge
of the list was relaxable. -/
theorem bfPassAux_false : ∀ (es : List STNEdge) (a : Bool) (s s2 : BFState),
    bfPassAux a s es = (s2, false) →
    a = false ∧ s2 = s ∧ ∀ e ∈ es, bfRelaxable s e = false := by
  intro es
  induction es with
  | nil =>
      intro a s s2 h
      injection h with h1 h2
      exact ⟨h2, h1.symm, fun e he => absurd he (List.not_mem_nil e)⟩
  | cons e rest ih =>
      intro a s s2 h
      simp only [bfPassAux] at h
      rcases hstep : bfStep s e with ⟨s', ch⟩
      rw [hstep] at h
      dsimp only at h
      obtain ⟨hflag, hs2, hrest⟩ := ih _ _ _ h
      have hch : ch = false := by
        cases ch with
        | false => rfl
        | true => rw [if_pos rfl] at hflag; cases hflag
      have hcha : a = false := by
        rw [hch] at hflag
        simpa using hflag
      have hch2 : (bfStep s e).2 = false := by rw [hstep, hch]
      have hs' : s' = s := by
        have := bfStep_false s e hch2
        rw [hstep] at this
        exact this
      rw [hs'] at hrest hs2
      refine ⟨hcha, hs2, ?_⟩
      intro e2 he2
      rcases List.mem_cons.mp he2 with rfl | he2
      · exact bfStep_not_relax s e2 hch2
      · exact hrest e2 he2

/-- The Bellman-Ford loop either runs its full pass budget or reaches a
state in which no edge is relaxable. -/
theorem bfLoop_stable_or_iter (edges : List STNEdge) :
    ∀ (fuel : Nat) (s : BFState),
      bfLoop edges fuel s = passIter edges fuel s ∨
      ∀ e ∈ edges, bfRelaxable (bfLoop edges fuel s) e = false := by
  intro fuel
  induction fuel with
  | zero => intro s; exact Or.inl rfl
  | succ fuel ih =>
      intro s
      rcases hp : bfPass edges s with ⟨s2, ch⟩
      cases ch with
      | true =>
          rcases ih s2 with h | h
          · left
            simp only [bfLoop, passIter, hp]
            exact h
          · right
            simp only [bfLoop, hp]
            exact h
      | false =>
          right
          obtain ⟨_, hs2, hrel⟩ := bfPassAux_false edges false s s2 hp
          simp only [bfLoop, hp]
          subst hs2
          exact hrel

/-- Relaxing an edge whose source is bounded bounds its target. -/
theorem bfStep_establish (s : BFState) (e : STNEdge) (x : ℚ)
    (h : ∃ q, mapGet s.distances e.«from» = some q ∧ q ≤ x) :
    ∃ q, mapGet (bfStep s e).1.distances e.«to» = some q ∧ q ≤ x + e.weight := by
  obtain ⟨qf, hqf, hle⟩ := h
  unfold bfStep
  rw [hqf]
  dsimp only
  cases hto : mapGet s.distances e.«to» with
  | none =>
      dsimp only
      rw [if_pos rfl]
      dsimp only
      rw [mapGet_mapSet_eq]
      exact ⟨qf + e.weight, rfl, by linarith⟩
  | some distTo =>
      dsimp only
      by_cases hlt : qf + e.weight < distTo
      · rw [if_pos (decide_eq_true hlt)]
        dsimp only
        rw [mapGet_mapSet_eq]
        exact ⟨qf + e.weight, rfl, by linarith⟩
      · rw [if_neg (by simpa using hlt)]
        exact ⟨distTo, hto, by push_neg at hlt; linarith⟩

/-- A pass containing an edge with a bounded source bounds its target. -/
theorem bfPassAux_establish :
    ∀ (es : List STNEdge) (a : Bool) (s : BFState) (e : STNEdge) (x : ℚ),
      e ∈ es → (∃ q, mapGet s.distances e.«from» = some q ∧ q ≤ x) →
      ∃ q, mapGet (bfPassAux a s es).1.distances e.«to» = some q ∧
        q ≤ x + e.weight := by
  intro es
  induction es with
  | nil => intro a s e x he; cases he
  | cons e0 rest ih =>
      intro a s e x he h
      simp only [bfPassAux]
      rcases hstep : bfStep s e0 with ⟨s2, ch⟩
      rcases List.mem_cons.mp he with rfl | he2
      · obtain ⟨q, hq, hle⟩ := bfStep_establish s e x h
        rw [hstep] at hq
        dsimp only at hq
        obtain ⟨q2, hq2, hle2⟩ := bfPassAux_mono rest
          (if ch then true else a) s2 e.«to» q hq
        exact ⟨q2, hq2, le_trans hle2 hle⟩
      · obtain ⟨qf, hqf, hlef⟩ := h
        obtain ⟨qf2, hqf2, hlef2⟩ := bfStep_mono s e0 e.«from» qf hqf
        rw [hstep] at hqf2
        dsimp only at hqf2
        exact ih _ s2 e x he2 ⟨qf2, hqf2, le_trans hlef2 hlef⟩

/-- Iterated passes never increase a finite distance. -/
theorem passIter_mono (edges : List STNEdge) :
    ∀ (n : Nat) (s : BFState) (k : String) (q : ℚ),
      mapGet s.distances k = some q →
      ∃ q', mapGet (passIter edges n s).distances k = some q' ∧ q' ≤ q := by
  intro n
  induction n with
  | zero => intro s k q hq; exact ⟨q, hq, le_refl q⟩
  | succ n ih =>
      intro s k q hq
      obtain ⟨q1, hq1, hle1⟩ := bfPassAux_mono edges false s k q hq
      obtain ⟨q2, hq2, hle2⟩ := ih (bfPass edges s).1 k q1 hq1
      exact ⟨q2, hq2, le_trans hle2 hle1⟩

/-- Along a chained edge path inside the edge list, iterated passes bound
every intermediate vertex by the running path weight, one pass per edge. -/
theorem passIter_path_strong (edges : List STNEdge) :
    ∀ (p : List STNEdge) (n : Nat) (s : BFState) (v : String) (x : ℚ),
      p.length ≤ n → (∀ e ∈ p, e ∈ edges) →
      List.Chain' (fun e1 e2 => e1.«to» = e2.«from») p →
      (∀ e, p.head? = some e → e.«from» = v) →
      (∃ q, mapGet s.distances v = some q ∧ q ≤ x) →
      ∀ (k : Nat) (hk : k < p.length),
        ∃ q, mapGet (passIter edges n s).distances (p.get ⟨k, hk⟩).«to» = some q ∧
          q ≤ x + ((p.take (k + 1)).map (fun e => e.weight)).sum := by
  intro p
  induction p with
  | nil =>
      intro n s v x _ _ _ _ _ k hk
      cases hk
  | cons e rest ih =>
      intro n s v x hlen hmem hchain hhead hv k hk
      have hn : ∃ m, n = m + 1 := by
        cases n with
        | zero => cases hlen
        | succ m => exact ⟨m, rfl⟩
      obtain ⟨m, rfl⟩ := hn
      have hef : e.«from» = v := hhead e rfl
      have hest : ∃ q, mapGet (bfPass edges s).1.distances e.«to» = some q ∧
          q ≤ x + e.weight := by
        refine bfPassAux_establish edges false s e x (hmem e (List.mem_cons_self _ _)) ?_
        rw [hef]
        exact hv
      cases k with
      | zero =>
          obtain ⟨q, hq, hle⟩ := hest
          obtain ⟨q2, hq2, hle2⟩ := passIter_mono edges m (bfPass edges s).1 _ q hq
          refine ⟨q2, ?_, ?_⟩
          · simpa [passIter] using hq2
          · simp only [List.take, List.map_cons, List.map_nil, List.sum_cons,
              List.sum_nil]
            have : ((rest.take 0).map (fun e => e.weight)).sum = 0 := by
              simp
            simp [this] at *
            linarith
      | succ k =>
          have hk2 : k < rest.length := by
            simpa using Nat.lt_of_succ_lt_succ hk
          have hchain2 : List.Chain' (fun e1 e2 => e1.«to» = e2.«from») rest :=
            hchain.tail
          have hhead2 : ∀ e2, rest.head? = some e2 → e2.«from» = e.«to» := by
            intro e2 he2
            cases rest with
            | nil => cases he2
            | cons r rs =>
                injection he2 with he2
                subst he2
                exact (List.chain'_cons.mp hchain).1.symm
          have := ih m (bfPass edges s).1 e.«to» (x + e.weight)
            (by simpa using Nat.le_of_succ_le_succ hlen)
            (fun e2 he2 => hmem e2 (List.mem_cons_of_mem _ he2))
            hchain2 hhead2 hest k hk2
          obtain ⟨q, hq, hle⟩ := this
          refine ⟨q, ?_, ?_⟩
          · simpa [passIter] using hq
          · simp only [List.take, List.map_cons, List.sum_cons] at hle ⊢
            linarith

/-- In a stable state an edge with bounded source bounds its target. -/
theorem stable_edge_dle (s : BFState) (e : STNEdge)
    (hrel : bfRelaxable s e = false) (x : ℚ)
    (h : ∃ q, mapGet s.distances e.«from» = some q ∧ q ≤ x) :
    ∃ q, mapGet s.distances e.«to» = some q ∧ q ≤ x + e.weight := by
  obtain ⟨qf, hqf, hle⟩ := h
  unfold bfRelaxable at hrel
  rw [hqf] at hrel
  dsimp only at hrel
  cases hto : mapGet s.distances e.«to» with
  | none =>
      rw [hto] at hrel
      dsimp only at hrel
      cases hrel
  | some distTo =>
      rw [hto] at hrel
      dsimp only at hrel
      have : ¬ (qf + e.weight < distTo) := by
        intro hc
        rw [decide_eq_true hc] at hrel
        cases hrel
      exact ⟨distTo, rfl, by push_neg at this; linarith⟩

/-- In a stable state, every chained path inside the edge list bounds each
intermediate vertex by the running path weight. -/
theorem stable_path_strong (edges : List STNEdge) (s : BFState)
    (hstable : ∀ e ∈ edges, bfRelaxable s e = false) :
    ∀ (p : List STNEdge) (v : String) (x : ℚ),
      (∀ e ∈ p, e ∈ edges) →
      List.Chain' (fun e1 e2 => e1.«to» = e2.«from») p →
      (∀ e, p.head? = some e → e.«from» = v) →
      (∃ q, mapGet s.distances v = some q ∧ q ≤ x) →
      ∀ (k : Nat) (hk : k < p.length),
        ∃ q, mapGet s.distances (p.get ⟨k, hk⟩).«to» = some q ∧
          q ≤ x + ((p.take (k + 1)).map (fun e => e.weight)).sum := by
  intro p
  induction p with
  | nil =>
      intro v x _ _ _ _ k hk
      cases hk
  | cons e rest ih =>
      intro v x hmem hchain hhead hv k hk
      have hef : e.«from» = v := hhead e rfl
      have hest : ∃ q, mapGet s.distances e.«to» = some q ∧ q ≤ x + e.weight := by
        refine stable_edge_dle s e (hstable e (hmem e (List.mem_cons_self _ _))) x ?_
        rw [hef]
        exact hv
      cases k with
      | zero =>
          obtain ⟨q, hq, hle⟩ := hest
          refine ⟨q, hq, ?_⟩
          simp only [List.take, List.map_cons, List.map_nil, List.sum_cons]
          have : ((rest.take 0).map (fun e => e.weight)).sum = 0 := by simp
          simp [this]
          linarith
      | succ k =>
          have hk2 : k < rest.length := by
            simpa using Nat.lt_of_succ_lt_succ hk
          have hchain2 : List.Chain' (fun e1 e2 => e1.«to» = e2.«from») rest :=
            hchain.tail
          have hhead2 : ∀ e2, rest.head? = some e2 → e2.«from» = e.«to» := by
            intro e2 he2
            cases rest with
            | nil => cases he2
            | cons r rs =>
                injection he2 with he2
                subst he2
                exact (List.chain'_cons.mp hchain).1.symm
          have := ih e.«to» (x + e.weight)
            (fun e2 he2 => hmem e2 (List.mem_cons_of_mem _ he2))
            hchain2 hhead2 hest k hk2
          obtain ⟨q, hq, hle⟩ := this
          refine ⟨q, hq, ?_⟩
          simp only [List.take, List.map_cons, List.sum_cons] at hle ⊢
          linarith

/-- A lookup hit in a tabulated map returns the tabulated value. -/
theorem mapGet_mapfn_some {α : Type} (f : String → Option α) :
    ∀ (vs : List String) (k : String) (q : α),
      mapGet (vs.map fun v => (v, f v)) k = some q → f k = some q := by
  intro vs
  induction vs with
  | nil => intro k q h; cases h
  | cons v rest ih =>
      intro k q h
      unfold mapGet at h
      rw [List.map_cons] at h
      by_cases hv : (v == k) = true
      · rw [List.find?_cons_of_pos _ (by simpa using hv)] at h
        have : v = k := beq_iff_eq.mp hv
        rw [← this]
        simpa using h
      · rw [List.find?_cons_of_neg _ (by simpa using hv)] at h
        exact ih k q h

/-- Relaxation steps preserve a valid-potential lower bound on distances. -/
theorem bfStep_potLB (D : List (String × Option ℚ)) (e : STNEdge)
    (hedge : ∀ pt, mapGet D e.«to» = some pt →
      ∃ pf, mapGet D e.«from» = some pf ∧ pt ≤ pf + e.weight)
    (s : BFState)
    (hs : ∀ k q, mapGet s.distances k = some q →
      ∀ p, mapGet D k = some p → p ≤ q) :
    ∀ k q, mapGet (bfStep s e).1.distances k = some q →
      ∀ p, mapGet D k = some p → p ≤ q := by
  intro k q hq p hp
  unfold bfStep at hq
  cases hfrom : mapGet s.distances e.«from» with
  | none =>
      rw [hfrom] at hq
      exact hs k q hq p hp
  | some distFrom =>
      rw [hfrom] at hq
      dsimp only at hq
      by_cases hrel : (match mapGet s.distances e.«to» with
          | none => true
          | some distTo => decide (distFrom + e.weight < distTo)) = true
      · rw [if_pos hrel] at hq
        dsimp only at hq
        by_cases hk : k = e.«to»
        · subst hk
          rw [mapGet_mapSet_eq] at hq
          injection hq with hq
          obtain ⟨pf, hpf, hptle⟩ := hedge p hp
          have := hs e.«from» distFrom hfrom pf hpf
          rw [← hq]
          linarith
        · rw [mapGet_mapSet_ne _ _ _ _ hk] at hq
          exact hs k q hq p hp
      · rw [if_neg hrel] at hq
        exact hs k q hq p hp

/-- Whole passes preserve the valid-potential lower bound. -/
theorem bfPassAux_potLB (D : List (String × Option ℚ)) :
    ∀ (es : List STNEdge) (a : Bool) (s : BFState),
      (∀ e ∈ es, ∀ pt, mapGet D e.«to» = some pt →
        ∃ pf, mapGet D e.«from» = some pf ∧ pt ≤ pf + e.weight) →
      (∀ k q, mapGet s.distances k = some q →
        ∀ p, mapGet D k = some p → p ≤ q) →
      ∀ k q, mapGet (bfPassAux a s es).1.distances k = some q →
        ∀ p, mapGet D k = some p → p ≤ q := by
  intro es
  induction es with
  | nil => intro a s _ hs; exact hs
  | cons e rest ih =>
      intro a s hedges hs
      simp only [bfPassAux]
      rcases hstep : bfStep s e with ⟨s2, ch⟩
      have hs2 : ∀ k q, mapGet s2.distances k = some q →
          ∀ p, mapGet D k = some p → p ≤ q := by
        have := bfStep_potLB D e (hedges e (List.mem_cons_self _ _)) s hs
        rw [hstep] at this
        exact this
      exact ih _ s2 (fun e2 he2 => hedges e2 (List.mem_cons_of_mem _ he2)) hs2

/-- The Bellman-Ford loop preserves the valid-potential lower bound. -/
theorem bfLoop_potLB (D : List (String × Option ℚ)) (edges : List STNEdge)
    (hedges : ∀ e ∈ edges, ∀ pt, mapGet D e.«to» = some pt →
      ∃ pf, mapGet D e.«from» = some pf ∧ pt ≤ pf + e.weight) :
    ∀ (fuel : Nat) (s : BFState),
      (∀ k q, mapGet s.distances k = some q →
        ∀ p, mapGet D k = some p → p ≤ q) →
      ∀ k q, mapGet (bfLoop edges fuel s).distances k = some q →
        ∀ p, mapGet D k = some p → p ≤ q := by
  intro fuel
  induction fuel with
  | zero => intro s hs; exact hs
  | succ fuel ih =>
      intro s hs
      rcases hp : bfPass edges s with ⟨s2, ch⟩
      have hs2 : ∀ k q, mapGet s2.distances k = some q →
          ∀ p, mapGet D k = some p → p ≤ q := by
        have := bfPassAux_potLB D edges false s hedges hs
        rw [show bfPassAux false s edges = (s2, ch) from hp] at this
        exact this
      cases ch with
      | true =>
          simp only [bfLoop, hp]
          exact ih s2 hs2
      | false =>
          simp only [bfLoop, hp]
          exact hs2

/-- Search is determined by the predicate's values on the list. -/
theorem find?_congr {α : Type} (p q : α → Bool) :
    ∀ l : List α, (∀ x ∈ l, p x = q x) → l.find? p = l.find? q := by
  intro l
  induction l with
  | nil => intro _; rfl
  | cons a rest ih =>
      intro h
      have ha := h a (List.mem_cons_self _ _)
      by_cases hp : p a = true
      · rw [List.find?_cons_of_pos _ hp, List.find?_cons_of_pos _ (by rw [← ha]; exact hp)]
      · rw [List.find?_cons_of_neg _ hp,
          List.find?_cons_of_neg _ (by rw [← ha]; exact hp)]
        exact ih (fun x hx => h x (List.mem_cons_of_mem _ hx))

/-- Relaxability only reads the two endpoint distances. -/
theorem bfRelaxable_congr (s1 s2 : BFState) (e : STNEdge)
    (hf : mapGet s1.distances e.«from» = mapGet s2.distances e.«from»)
    (ht : mapGet s1.distances e.«to» = mapGet s2.distances e.«to») :
    bfRelaxable s1 e = bfRelaxable s2 e := by
  unfold bfRelaxable
  rw [hf, ht]

/-- The value-collection pass only reads the two variables of each node. -/
theorem cv_congr (d1 d2 : List (String × Option ℚ)) :
    ∀ (ns : List TimelineNode) (acc : List ℚ × List (String × (Option ℚ × Option ℚ))),
      (∀ nd ∈ ns, mapGet d1 (nd.id ++ "_start") = mapGet d2 (nd.id ++ "_start") ∧
        mapGet d1 (nd.id ++ "_end") = mapGet d2 (nd.id ++ "_end")) →
      ns.foldl (cvStep d1) acc = ns.foldl (cvStep d2) acc := by
  intro ns
  induction ns with
  | nil => intro acc _; rfl
  | cons nd rest ih =>
      intro acc h
      rw [List.foldl_cons, List.foldl_cons]
      have hstep : cvStep d1 acc nd = cvStep d2 acc nd := by
        obtain ⟨hs, he⟩ := h nd (List.mem_cons_self _ _)
        simp only [cvStep, getNodeVariables]
        rw [hs, he]
      rw [hstep]
      exact ih _ (fun nd2 h2 => h nd2 (List.mem_cons_of_mem _ h2))

/-- Position assignment only reads the distances through `collectValues`. -/
theorem assignPositions_congr (nodes : List TimelineNode)
    (br1 br2 : BellmanFordResult) (scale : ℚ)
    (h : collectValues nodes br1.distances = collectValues nodes br2.distances) :
    assignPositions nodes br1 scale = assignPositions nodes br2 scale := by
  unfold assignPositions
  rw [h]
